import Mathlib

/-!
# BigInteger (bigint.cpp): a shallow embedding and its verification

A `BigInteger` is a sign flag plus a `std::vector<CHUNK>` of 64-bit limbs, least
significant limb first.  A limb is a `Nat`; every place where the C++ arithmetic on
`unsigned long long` can wrap carries an explicit `% 2 ^ 64`, and the `unsigned` (32-bit)
index and length of the parser carry `% 2 ^ 32`.  Mutating member functions are functions
from the old value of the object to the new one; an index loop over the vector is a
recursion over the list of limbs, in the order in which the loop visits them.  A
`std::string` is a `String` of one-byte characters.  `throw` is the `error` case of `Except`.
-/

namespace BigInt

/-- Number of values of a `CHUNK` (`unsigned long long`). -/
def CHUNK_MOD : Nat := 2 ^ 64

/-- Embedding of `HIGH_BIT = 1LL << (sizeof(CHUNK)*BitsPerByte - 1)`. -/
def HIGH_BIT : Nat := 2 ^ 63

/-- Embedding of `LOW_BIT = 1`. -/
def LOW_BIT : Nat := 1

/-- Embedding of `enum Sign`. -/
inductive Sign where
  | Positive
  | Negative
deriving DecidableEq, Repr

/-- Embedding of `enum NumericConstant`. -/
inductive NumericConstant where
  | Arg1Smaller
  | ArgsEqual
  | Arg1Larger
  | OrEquals
  | AndEquals
deriving DecidableEq, Repr

/-- The class `BigInteger`: `magnitude` (least significant limb first) and `sign`. -/
structure BigInteger where
  magnitude : List Nat
  sign : Sign
deriving DecidableEq, Repr

open Sign NumericConstant

/-- Embedding of `isZero`: `arg.magnitude.size() == 1 && arg.magnitude[0] == 0`. -/
def isZero (arg : BigInteger) : Bool :=
  match arg.magnitude with
  | [x] => x == 0
  | _ => false

/-- Embedding of `flipSign`. -/
def flipSign (arg : BigInteger) : BigInteger :=
  if isZero arg then { arg with sign := Positive }
  else if arg.sign = Positive then { arg with sign := Negative }
  else { arg with sign := Positive }

/-- Embedding of `makeZero`: the value left in `*this`. -/
def makeZero : BigInteger := ⟨[0], Positive⟩

/-- The loop of `popLeadingZeros`, on the limbs listed from the back of the vector:
`while (size() > 1 && back() == 0) pop_back()`. -/
def popBackZeros : List Nat → List Nat
  | x :: y :: rest => if x = 0 then popBackZeros (y :: rest) else x :: y :: rest
  | l => l

/-- Embedding of `popLeadingZeros`. -/
def popLeadingZeros (self : BigInteger) : BigInteger :=
  let m := (popBackZeros self.magnitude.reverse).reverse
  if m = [0] then ⟨m, Positive⟩ else ⟨m, self.sign⟩

/-- Second loop of `subtractMagnitude` (borrow propagation), from position `i` on. -/
def borrowLoop : List Nat → Bool → List Nat
  | x :: xs, true => ((x + CHUNK_MOD - 1) % CHUNK_MOD) :: borrowLoop xs (x == 0)
  | xs, _ => xs

/-- The two loops of `subtractMagnitude`: the first runs over the positions of `other`
(`commonSize = otherSize`), the second propagates the borrow through the rest of `*this`.
Reading `this->magnitude[i]` past the end (other longer than this) is outside the
documented assumption; the model stops there. -/
def subtractLoop : List Nat → List Nat → Bool → List Nat
  | x :: xs, y :: ys, inBorrow =>
      let outBorrow := decide (x < y)
      let digit := (x + CHUNK_MOD - y) % CHUNK_MOD
      let outBorrow := outBorrow || (digit == 0 && inBorrow)
      let digit := (digit + CHUNK_MOD - (if inBorrow then 1 else 0)) % CHUNK_MOD
      digit :: subtractLoop xs ys outBorrow
  | xs, [], inBorrow => borrowLoop xs inBorrow
  | [], _ :: _, _ => []

/-- Embedding of `subtractMagnitude`. -/
def subtractMagnitude (self other : BigInteger) : BigInteger :=
  if isZero other || isZero self then self
  else popLeadingZeros { self with magnitude := subtractLoop self.magnitude other.magnitude false }

/-- Second loop of `addMagnitude` (carry propagation) and the final `push_back(1)`. -/
def carryLoop : List Nat → Bool → List Nat
  | x :: xs, true =>
      let digit := (x + 1) % CHUNK_MOD
      digit :: carryLoop xs (digit == 0)
  | [], true => [1]
  | xs, false => xs

/-- The loops of `addMagnitude`: common positions, then carry propagation. -/
def addLoop : List Nat → List Nat → Bool → List Nat
  | x :: xs, y :: ys, inCarry =>
      let digit := (x + y) % CHUNK_MOD
      let outCarry := decide (digit < x)
      let digit := (digit + (if inCarry then 1 else 0)) % CHUNK_MOD
      digit :: addLoop xs ys (outCarry || (digit == 0 && inCarry))
  | xs, [], inCarry => carryLoop xs inCarry
  | [], _ :: _, inCarry => carryLoop [] inCarry

/-- Embedding of `addMagnitude`. -/
def addMagnitude (self other : BigInteger) : BigInteger :=
  let mySize := self.magnitude.length
  let otherSize := other.magnitude.length
  if isZero other then self
  else if isZero self then other
  else if otherSize > mySize then
    let grown := self.magnitude ++ other.magnitude.drop mySize
    { self with magnitude := addLoop grown (other.magnitude.take mySize) false }
  else
    { self with magnitude := addLoop self.magnitude (other.magnitude.take otherSize) false }

/-- The loop of `compareMagnitude`, on limbs listed from the most significant one. -/
def compareLoop : List Nat → List Nat → NumericConstant
  | x :: xs, y :: ys =>
      if x < y then Arg1Smaller
      else if x > y then Arg1Larger
      else compareLoop xs ys
  | _, _ => ArgsEqual

/-- Embedding of `compareMagnitude`. -/
def compareMagnitude (arg1 arg2 : BigInteger) : NumericConstant :=
  let arg1Size := arg1.magnitude.length
  let arg2Size := arg2.magnitude.length
  if arg1Size > arg2Size then Arg1Larger
  else if arg1Size < arg2Size then Arg1Smaller
  else compareLoop arg1.magnitude.reverse arg2.magnitude.reverse

/-- Embedding of `compareSignAndMagnitude`. -/
def compareSignAndMagnitude (arg1 arg2 : BigInteger) : NumericConstant :=
  if arg1.sign = Positive ∧ arg2.sign = Negative then Arg1Larger
  else if arg1.sign = Negative ∧ arg2.sign = Positive then Arg1Smaller
  else
    let result := compareMagnitude arg1 arg2
    if result = Arg1Larger ∧ arg1.sign = Negative then Arg1Smaller
    else if result = Arg1Smaller ∧ arg1.sign = Negative then Arg1Larger
    else result

/-- Embedding of `resize(n, 0)` when it grows the vector. -/
def padTo (m : List Nat) (n : Nat) : List Nat := m ++ List.replicate (n - m.length) 0

/-- Embedding of `andOrEquals`. -/
def andOrEquals (self : BigInteger) (operType : NumericConstant) (other : BigInteger) :
    BigInteger :=
  let otherSize := other.magnitude.length
  let mySize := self.magnitude.length
  let otherMag := if mySize > otherSize then padTo other.magnitude mySize else other.magnitude
  let myMag := if mySize > otherSize then self.magnitude
    else if otherSize > mySize then padTo self.magnitude otherSize else self.magnitude
  if operType = OrEquals then
    popLeadingZeros { self with magnitude := List.zipWith (fun a b => a ||| b) myMag otherMag }
  else
    popLeadingZeros { self with magnitude := List.zipWith (fun a b => a &&& b) myMag otherMag }

/-- The loop of `shiftMeLeft1` from position `i` on, with the pending `nextLowBit`, and the
final `push_back(nextLowBit)`. -/
def shiftLeftLoop : List Nat → Nat → List Nat
  | [], nextLowBit => if nextLowBit ≠ 0 then [nextLowBit] else []
  | x :: xs, nextLowBit =>
      let newLowBit := nextLowBit
      let nextLowBit := if x &&& HIGH_BIT ≠ 0 then LOW_BIT else 0
      (((x <<< 1) % CHUNK_MOD) ||| newLowBit) :: shiftLeftLoop xs nextLowBit

/-- Embedding of `shiftMeLeft1`. -/
def shiftMeLeft1 (self : BigInteger) : BigInteger :=
  { self with magnitude := shiftLeftLoop self.magnitude 0 }

/-- The loop of `shiftMeRight1`: the limbs above are processed first; the result is the
shifted limbs and the `nextHighBit` left for the limb below. -/
def shiftRightLoop : List Nat → List Nat × Nat
  | [] => ([], 0)
  | x :: xs =>
      let r := shiftRightLoop xs
      let newHighBit := r.2
      (((x >>> 1) ||| newHighBit) :: r.1, if x &&& LOW_BIT ≠ 0 then HIGH_BIT else 0)

/-- Embedding of `shiftMeRight1`. -/
def shiftMeRight1 (self : BigInteger) : BigInteger :=
  let mySize := self.magnitude.length
  let m := (shiftRightLoop self.magnitude).1
  if mySize > 1 ∧ m.getLast? = some 0 then { self with magnitude := m.dropLast }
  else { self with magnitude := m }

/-- Embedding of `plusEquals`: the value left in `*this` (which is also the value returned). -/
def plusEquals (self other : BigInteger) : BigInteger :=
  if isZero self then other
  else if isZero other then self
  else if self.sign = other.sign then addMagnitude self other
  else if self.magnitude = other.magnitude then makeZero
  else if compareMagnitude self other = Arg1Larger then subtractMagnitude self other
  else subtractMagnitude other self

/-- Value of a `w`-bit signed integer after wrap-around of the mathematical value `v`. -/
def wrapSigned (w : Nat) (v : Int) : Int := (v + 2 ^ (w - 1)) % 2 ^ w - 2 ^ (w - 1)

/-- Conversion of a signed native value to `CHUNK` (`push_back(val)`). -/
def toChunk (v : Int) : Nat := (v % 2 ^ 64).toNat

/-- Embedding of `BigInteger(const int val)`, for `val` in the range of `int`; `-val` wraps at 32 bits. -/
def ofInt (val : Int) : BigInteger :=
  if val ≥ 0 then ⟨[toChunk val], Positive⟩
  else ⟨[toChunk (wrapSigned 32 (-val))], Negative⟩

/-- Embedding of `BigInteger(const unsigned long long val)`. -/
def ofULongLong (val : Nat) : BigInteger := ⟨[val % CHUNK_MOD], Positive⟩

/-- Embedding of `BigInteger()`. -/
def ofNothing : BigInteger := ⟨[0], Positive⟩

/-- Embedding of `BigInteger(const unsigned int val)`. -/
def ofUInt (val : Nat) : BigInteger := ⟨[val % 2 ^ 32], Positive⟩

/-- Embedding of `BigInteger(const long val)`, for `val` in the range of `long`; `-val` wraps at 64 bits. -/
def ofLong (val : Int) : BigInteger :=
  if val ≥ 0 then ⟨[toChunk val], Positive⟩
  else ⟨[toChunk (wrapSigned 64 (-val))], Negative⟩

/-- Embedding of `BigInteger(const unsigned long val)`. -/
def ofULong (val : Nat) : BigInteger := ⟨[val % CHUNK_MOD], Positive⟩

/-- Embedding of `BigInteger(const long long val)`, for `val` in the range of `long long`. -/
def ofLongLong (val : Int) : BigInteger :=
  if val ≥ 0 then ⟨[toChunk val], Positive⟩
  else ⟨[toChunk (wrapSigned 64 (-val))], Negative⟩

/-- Embedding of `bigZero(0)`. -/
def bigZero : BigInteger := ofInt 0

/-- Embedding of `bigOne(1)`. -/
def bigOne : BigInteger := ofInt 1

/-- Embedding of `minusOne(-1)`. -/
def minusOne : BigInteger := ofInt (-1)

/-- Embedding of `operator==`. -/
def opEq (self other : BigInteger) : Bool :=
  decide (self.magnitude = other.magnitude) && decide (self.sign = other.sign)

/-- Embedding of `operator!=`. -/
def opNe (self other : BigInteger) : Bool :=
  decide (self.magnitude ≠ other.magnitude) || decide (self.sign ≠ other.sign)

/-- Embedding of `operator>`. -/
def opGt (self other : BigInteger) : Bool :=
  decide (compareSignAndMagnitude self other = Arg1Larger)

/-- Embedding of `operator<=`. -/
def opLe (self other : BigInteger) : Bool :=
  decide (compareSignAndMagnitude self other ≠ Arg1Larger)

/-- Embedding of `operator<`. -/
def opLt (self other : BigInteger) : Bool :=
  decide (compareSignAndMagnitude self other = Arg1Smaller)

/-- Embedding of `operator>=`. -/
def opGe (self other : BigInteger) : Bool :=
  decide (compareSignAndMagnitude self other ≠ Arg1Smaller)

/-- Pre-increment `operator++ ()`: the new `*this`, which is also the value returned. -/
def preIncrement (self : BigInteger) : BigInteger := plusEquals self bigOne

/-- Post-increment `operator++ (int)`: the new `*this` and the value returned. -/
def postIncrement (self : BigInteger) : BigInteger × BigInteger := (plusEquals self bigOne, self)

/-- Pre-decrement `operator-- ()`. -/
def preDecrement (self : BigInteger) : BigInteger := plusEquals self minusOne

/-- Post-decrement `operator-- (int)`: the new `*this` and the value returned. -/
def postDecrement (self : BigInteger) : BigInteger × BigInteger := (plusEquals self minusOne, self)

/-- The loop `while (shiftAmount-- > 0) shiftMeLeft1();` of `operator<<=`, run for at most
`fuel` tests of its condition; `none` when the bound is reached first. -/
def shiftLeftAssignLoop : Nat → BigInteger → BigInteger → Option BigInteger
  | 0, _, _ => none
  | fuel + 1, self, shiftAmount =>
      let old := (postDecrement shiftAmount).2
      let shiftAmount := (postDecrement shiftAmount).1
      if opGt old (ofInt 0) then shiftLeftAssignLoop fuel (shiftMeLeft1 self) shiftAmount
      else some self

/-- The loop `while (shiftAmount-- > 0) shiftMeRight1();` of `operator>>=`. -/
def shiftRightAssignLoop : Nat → BigInteger → BigInteger → Option BigInteger
  | 0, _, _ => none
  | fuel + 1, self, shiftAmount =>
      let old := (postDecrement shiftAmount).2
      let shiftAmount := (postDecrement shiftAmount).1
      if opGt old (ofInt 0) then shiftRightAssignLoop fuel (shiftMeRight1 self) shiftAmount
      else some self

/-- Value denoted by a limb sequence: the sum of `limb_i * 2^(64*i)`. -/
def limbsVal : List Nat → Nat
  | [] => 0
  | x :: xs => x + 2 ^ 64 * limbsVal xs

/-- Iteration bound given to the shift loops: one test more than the value of the shift
amount, which is how often the condition of the loop is tested for a canonical amount. -/
def shiftFuel (shiftAmount : BigInteger) : Nat := limbsVal shiftAmount.magnitude + 1

/-- Embedding of `operator<<=`: the new `*this`. -/
def opShlAssign (self shiftAmount : BigInteger) : Option BigInteger :=
  shiftLeftAssignLoop (shiftFuel shiftAmount) self shiftAmount

/-- Embedding of `operator<<`. -/
def opShl (self shiftAmount : BigInteger) : Option BigInteger :=
  opShlAssign self shiftAmount

/-- Embedding of `operator>>=`: the new `*this`. -/
def opShrAssign (self shiftAmount : BigInteger) : Option BigInteger :=
  shiftRightAssignLoop (shiftFuel shiftAmount) self shiftAmount

/-- Embedding of `operator>>`. -/
def opShr (self shiftAmount : BigInteger) : Option BigInteger :=
  opShrAssign self shiftAmount

/-- Embedding of `operator|=`. -/
def opOrAssign (self other : BigInteger) : BigInteger := andOrEquals self OrEquals other

/-- Embedding of `operator|`. -/
def opOr (self other : BigInteger) : BigInteger := opOrAssign self other

/-- Embedding of `operator&=`. -/
def opAndAssign (self other : BigInteger) : BigInteger := andOrEquals self AndEquals other

/-- Embedding of `operator&`. -/
def opAnd (self other : BigInteger) : BigInteger := opAndAssign self other

/-- Unary `operator-`. -/
def opNeg (self : BigInteger) : BigInteger := flipSign self

/-- Embedding of `operator+=`. -/
def opAddAssign (self other : BigInteger) : BigInteger := plusEquals self other

/-- Embedding of `operator-=`. -/
def opSubAssign (self other : BigInteger) : BigInteger := plusEquals self (opNeg other)

/-- Embedding of `operator+`. -/
def opAdd (self other : BigInteger) : BigInteger := plusEquals self other

/-- Binary `operator-`. -/
def opSub (self other : BigInteger) : BigInteger := plusEquals self (opNeg other)

/-- Embedding of `numBits = magnitude.size() * sizeof(CHUNK) * BitsPerByte`, a `ULONG`. -/
def numBitsOf (arg : BigInteger) : Nat := (arg.magnitude.length * 8 * 8) % 2 ^ 64

/-- The general loop of `binaryMultiply`, with `n` iterations left:
arguments `multiplier`, `mask`, `addend`, `product`. -/
def multiplyLoop : Nat → BigInteger → BigInteger → BigInteger → BigInteger → BigInteger
  | 0, _, _, _, product => product
  | n + 1, multiplier, mask, addend, product =>
      let product :=
        if opNe (opAnd multiplier mask) bigZero then opAddAssign product addend else product
      multiplyLoop n multiplier (shiftMeLeft1 mask) (shiftMeLeft1 addend) product

/-- Embedding of `binaryMultiply`. -/
def binaryMultiply (multiplicand multiplier : BigInteger) : BigInteger :=
  let numBits := numBitsOf multiplier
  let product :=
    if isZero multiplier || isZero multiplicand then bigZero
    else if opEq multiplier bigOne then multiplicand
    else if opEq multiplicand bigOne then multiplier
    else multiplyLoop numBits multiplier (ofInt 1) multiplicand bigZero
  if opNe product bigZero then
    if multiplier.sign = multiplicand.sign then { product with sign := Positive }
    else { product with sign := Negative }
  else product

/-- Embedding of `operator*`. -/
def opMul (self other : BigInteger) : BigInteger := binaryMultiply self other

/-- Embedding of `operator*=`. -/
def opMulAssign (self other : BigInteger) : BigInteger := binaryMultiply self other

/-- The restoring loop of `binaryDivide`, with `i` iterations left: arguments `dividend`,
`divisor`, `mask`, `remainder`, `quotient`; the result is `(quotient, remainder)`. -/
def divideLoop : Nat → BigInteger → BigInteger → BigInteger → BigInteger → BigInteger →
    BigInteger × BigInteger
  | 0, _, _, _, remainder, quotient => (quotient, remainder)
  | i + 1, dividend, divisor, mask, remainder, quotient =>
      let remainder := shiftMeLeft1 remainder
      let mask := shiftMeRight1 mask
      let remainder :=
        if !isZero (opAnd dividend mask) then opOrAssign remainder bigOne else remainder
      if opGe remainder divisor then
        divideLoop i dividend divisor mask (opSubAssign remainder divisor) (opOrAssign quotient mask)
      else
        divideLoop i dividend divisor mask remainder quotient

/-- Embedding of `binaryDivide`: `.error "divide by zero"` is the `throw`; otherwise the returned quotient
and the value left in the reference parameter `remainder`.  The shift that builds `mask` runs
under `shiftFuel`; `.error "shift bound reached"` is the model giving up there. -/
def binaryDivide (dividend divisor : BigInteger) : Except String (BigInteger × BigInteger) :=
  let numBits := numBitsOf dividend
  if isZero divisor then .error "divide by zero"
  else
    let remainder := bigZero
    if isZero dividend then .ok (bigZero, remainder)
    else if opEq dividend divisor then .ok (bigOne, remainder)
    else
      match opShl bigOne (ofULongLong numBits) with
      | none => .error "shift bound reached"
      | some mask =>
          let r := divideLoop numBits dividend divisor mask remainder (ofInt 0)
          let quotient := r.1
          let quotient :=
            if opNe quotient bigZero then
              if dividend.sign = divisor.sign then { quotient with sign := Positive }
              else { quotient with sign := Negative }
            else quotient
          .ok (quotient, r.2)

/-- Embedding of `operator/`. -/
def opDiv (self other : BigInteger) : Except String BigInteger :=
  match binaryDivide self other with
  | .error e => .error e
  | .ok r => .ok r.1

/-- Embedding of `operator%`. -/
def opMod (self other : BigInteger) : Except String BigInteger :=
  match binaryDivide self other with
  | .error e => .error e
  | .ok r => .ok r.2

/-- Embedding of `operator/=`: the value of `*this` afterwards, and the value returned or the exception. -/
def opDivAssign (self other : BigInteger) : BigInteger × Except String BigInteger :=
  match binaryDivide self other with
  | .error e => (self, .error e)
  | .ok r => (r.1, .ok r.1)

/-- Embedding of `operator%=`: the value of `*this` afterwards, and the value returned or the exception. -/
def opModAssign (self other : BigInteger) : BigInteger × Except String BigInteger :=
  match binaryDivide self other with
  | .error e => (self, .error e)
  | .ok r => (r.2, .ok r.2)

/-! ## Canonical form and the value of a BigInteger -/

/-- Every limb is a value of the 64-bit type `CHUNK`. -/
def LimbsOk (m : List Nat) : Prop := ∀ x ∈ m, x < 2 ^ 64

/-- Canonical magnitude: non-empty, and no high-order zero limb except the single limb `[0]`. -/
def MagCanonical (m : List Nat) : Prop :=
  m ≠ [] ∧ (1 < m.length → m.getLast? ≠ some 0)

/-- Canonical form of a `BigInteger`: limbs are 64-bit values, the magnitude is canonical and
zero is Positive. -/
def Canonical (a : BigInteger) : Prop :=
  LimbsOk a.magnitude ∧ MagCanonical a.magnitude ∧ (a.magnitude = [0] → a.sign = Positive)

instance (m : List Nat) : Decidable (LimbsOk m) := by unfold LimbsOk; infer_instance

instance (m : List Nat) : Decidable (MagCanonical m) := by unfold MagCanonical; infer_instance

instance (a : BigInteger) : Decidable (Canonical a) := by unfold Canonical; infer_instance

/-- The integer denoted by a `BigInteger`: the magnitude with the sign applied. -/
def val (a : BigInteger) : Int :=
  match a.sign with
  | Positive => (limbsVal a.magnitude : Int)
  | Negative => - (limbsVal a.magnitude : Int)

/-- The limb count times 64 is representable in `ULONG`, as it is for every vector that fits
a 64-bit address space (a vector of `2^58` limbs would take `2^61` bytes). -/
def Addressable (a : BigInteger) : Prop := a.magnitude.length * 64 < 2 ^ 64

instance (a : BigInteger) : Decidable (Addressable a) := by unfold Addressable; infer_instance

/-- The result of a three-way comparison of two naturals, as a `NumericConstant`. -/
def threeWay (m n : Nat) : NumericConstant :=
  if m < n then Arg1Smaller else if m > n then Arg1Larger else ArgsEqual

/-- The integer with sign `s` and absolute value `n`. -/
def applySign (s : Sign) (n : Nat) : Int :=
  match s with
  | Positive => (n : Int)
  | Negative => - (n : Int)

/-- The sign rule of products and quotients: Positive if the operand signs match. -/
def signRule (s t : Sign) : Sign := if s = t then Positive else Negative

/-- The result of a three-way comparison of two integers, as a `NumericConstant`. -/
def threeWayInt (m n : Int) : NumericConstant :=
  if m < n then Arg1Smaller else if m > n then Arg1Larger else ArgsEqual

/-! ## Text conversion -/

/-- The `switch` of `strToBigInteger`: the digit of a character, or `none` where the source
sets `numStrValid = false` (and then leaves the loop). -/
def digitOfChar (c : Char) (radix : Int) : Option BigInteger :=
  if c = '0' then some (ofInt 0)
  else if c = '1' then some (ofInt 1)
  else if c = '2' then some (ofInt 2)
  else if c = '3' then some (ofInt 3)
  else if c = '4' then some (ofInt 4)
  else if c = '5' then some (ofInt 5)
  else if c = '6' then some (ofInt 6)
  else if c = '7' then some (ofInt 7)
  else if c = '8' then (if radix = 8 then none else some (ofInt 8))
  else if c = '9' then (if radix = 8 then none else some (ofInt 9))
  else if c = 'a' ∨ c = 'A' then (if radix ≠ 16 then none else some (ofInt 10))
  else if c = 'b' ∨ c = 'B' then (if radix ≠ 16 then none else some (ofInt 11))
  else if c = 'c' ∨ c = 'C' then (if radix ≠ 16 then none else some (ofInt 12))
  else if c = 'd' ∨ c = 'D' then (if radix ≠ 16 then none else some (ofInt 13))
  else if c = 'e' ∨ c = 'E' then (if radix ≠ 16 then none else some (ofInt 14))
  else if c = 'f' ∨ c = 'F' then (if radix ≠ 16 then none else some (ofInt 15))
  else none

/-- The loop of `strToBigInteger` over the characters `numStr[index .. len-1]`:
`*this *= bigRadix; *this += digit;` until the first invalid character. -/
def strLoop (radix : Int) (bigRadix : BigInteger) : List Char → BigInteger → BigInteger
  | [], self => self
  | c :: cs, self =>
      match digitOfChar c radix with
      | none => self
      | some digit => strLoop radix bigRadix cs (opAddAssign (opMulAssign self bigRadix) digit)

/-- Embedding of `strToBigInteger(numStr, radix, start, signArg)`: the value left in `*this`.
`index` and `len` are `unsigned` (32 bits). -/
def strToBigInteger (numStr : String) (radix : Int) (start : Int) (signArg : Sign) :
    BigInteger :=
  let index := (start % 2 ^ 32).toNat
  let bigRadix := ofInt radix
  let len := numStr.length % 2 ^ 32
  let self := strLoop radix bigRadix ((numStr.data.take len).drop index) makeZero
  if isZero self then { self with sign := Positive } else { self with sign := signArg }

/-- The radix flags of a stream: `std::ios::hex` and `std::ios::oct`. -/
structure Flags where
  hex : Bool
  oct : Bool
deriving DecidableEq, Repr

/-- The radix chosen from the stream flags in `readFrom` and `printOn`. -/
def radixOfFlags (flags : Flags) : Int :=
  if flags.hex then 16 else if flags.oct then 8 else 10

/-- Embedding of `readFrom`, given the token `numStr` extracted from the stream and the stream flags. -/
def readFrom (flags : Flags) (numStr : String) : BigInteger :=
  let radix := radixOfFlags flags
  if numStr.data.head? = some '-' then strToBigInteger numStr radix 1 Negative
  else if numStr.data.head? = some '+' then strToBigInteger numStr radix 1 Positive
  else strToBigInteger numStr radix 0 Positive

/-- Embedding of `BigInteger(const std::string numStr)`. -/
def ofString (numStr : String) : BigInteger :=
  let signArg := if numStr.data.take 1 = ['-'] then Negative else Positive
  let start : Nat :=
    if numStr.data.take 1 = ['-'] then 1 else if numStr.data.take 1 = ['+'] then 1 else 0
  if (numStr.data.drop start).take 2 = ['0', 'x'] then
    strToBigInteger numStr 16 ((start + 2) % 2 ^ 32 : Nat) signArg
  else if (numStr.data.drop start).take 2 = ['0', 'X'] then
    strToBigInteger numStr 16 ((start + 2) % 2 ^ 32 : Nat) signArg
  else if (numStr.data.drop start).take 1 = ['0'] then
    strToBigInteger numStr 8 ((start + 1) % 2 ^ 32 : Nat) signArg
  else strToBigInteger numStr 10 start signArg

/-- What `printOn` sends to the stream with `<<`: a string, an `int` (a digit popped from
`digitStack`), or a `size_t` (the limb count). -/
inductive Item where
  | text (s : String)
  | digit (n : Int)
  | size (n : Nat)
deriving DecidableEq, Repr

/-- The digit-extraction loop of `printOn`, `while (!isZero(tmp))`, for at most `fuel` tests
of its condition; the stack is listed from its top.  `push` converts the limb to `int`. -/
def digitLoop : Nat → BigInteger → BigInteger → List Int → Except String (List Int)
  | 0, _, _, _ => .error "iteration bound reached"
  | fuel + 1, tmp, bigRadix, digitStack =>
      if !isZero tmp then
        match binaryDivide tmp bigRadix with
        | .error e => .error e
        | .ok r => digitLoop fuel r.1 bigRadix (wrapSigned 32 (r.2.magnitude.headD 0) :: digitStack)
      else .ok digitStack

/-- Embedding of `printOn`: the items sent to the stream, in order.  The digit loop runs under a bound of
one test per bit of the magnitude plus one. -/
def printOn (self : BigInteger) (flags : Flags) : Except String (List Item) :=
  let minus := if self.sign = Negative then [Item.text "-"] else []
  if isZero self then .ok (minus ++ [Item.text "0BI"])
  else
    let bigRadix := ofInt (radixOfFlags flags)
    match digitLoop (64 * self.magnitude.length + 1) self bigRadix [] with
    | .error e => .error e
    | .ok digitStack =>
        .ok (minus ++ digitStack.map Item.digit ++ [Item.text "BI"] ++
          (if self.magnitude.length > 1 then [Item.size self.magnitude.length] else []))

/-! ## Reference notions for text: digits and positional values -/

/-- The value of a digit character: `'0'..'9'` are 0..9, `'a'..'f'` and `'A'..'F'` are 10..15
(character codes 48..57, 97..102 and 65..70). -/
def digitValue (c : Char) : Nat :=
  if 48 ≤ c.toNat ∧ c.toNat ≤ 57 then c.toNat - 48
  else if 97 ≤ c.toNat ∧ c.toNat ≤ 102 then c.toNat - 87
  else if 65 ≤ c.toNat ∧ c.toNat ≤ 70 then c.toNat - 55
  else 0

/-- The digits valid for a radix: `'0'..'7'` for 8, `'0'..'9'` for 10, and `'0'..'9'`,
`'a'..'f'`, `'A'..'F'` for 16. -/
def validDigit (radix : Int) (c : Char) : Bool :=
  if radix = 8 then decide (48 ≤ c.toNat ∧ c.toNat ≤ 55)
  else if radix = 10 then decide (48 ≤ c.toNat ∧ c.toNat ≤ 57)
  else if radix = 16 then
    decide ((48 ≤ c.toNat ∧ c.toNat ≤ 57) ∨ (97 ≤ c.toNat ∧ c.toNat ≤ 102) ∨
      (65 ≤ c.toNat ∧ c.toNat ≤ 70))
  else false

/-- The positional value of a digit string: the sum of `digitValue c_i * radix^(k-1-i)`. -/
def positional (radix : Nat) : List Char → Nat
  | [] => 0
  | c :: cs => digitValue c * radix ^ cs.length + positional radix cs

/-! ## Reference notion for multiplication: the general algorithm alone -/

/-- The general algorithm of `binaryMultiply` with its three short-circuit tests removed: the
shift-and-add loop of the last branch, run for `numBits` iterations from `mask = 1`,
`addend = multiplicand` and `product = bigZero`, followed by the same sign fix-up. -/
def generalMultiply (multiplicand multiplier : BigInteger) : BigInteger :=
  let numBits := numBitsOf multiplier
  let product := multiplyLoop numBits multiplier (ofInt 1) multiplicand bigZero
  if opNe product bigZero then
    if multiplier.sign = multiplicand.sign then { product with sign := Positive }
    else { product with sign := Negative }
  else product

/-! ## Limb sequences and their values -/

theorem limbsVal_append (xs ys : List Nat) :
    limbsVal (xs ++ ys) = limbsVal xs + (2 ^ 64) ^ xs.length * limbsVal ys := by
  induction xs with
  | nil => simp [limbsVal]
  | cons x xs ih =>
    have hp : ((2 : Nat) ^ 64) ^ (xs.length + 1) = (2 ^ 64) ^ xs.length * 2 ^ 64 := pow_succ _ _
    show x + 2 ^ 64 * limbsVal (xs ++ ys) = x + 2 ^ 64 * limbsVal xs +
      (2 ^ 64) ^ (xs.length + 1) * limbsVal ys
    rw [ih, hp]
    ring

theorem limbsVal_replicate_zero (n : Nat) : limbsVal (List.replicate n 0) = 0 := by
  induction n with
  | zero => rfl
  | succ n ih => simp [List.replicate_succ, limbsVal, ih]

theorem limbsOk_cons {x : Nat} {xs : List Nat} :
    LimbsOk (x :: xs) ↔ x < 2 ^ 64 ∧ LimbsOk xs := by
  simp [LimbsOk]

theorem limbsOk_nil : LimbsOk [] := by simp [LimbsOk]

theorem limbsOk_append {xs ys : List Nat} :
    LimbsOk (xs ++ ys) ↔ LimbsOk xs ∧ LimbsOk ys := by
  simp only [LimbsOk, List.mem_append]
  constructor
  · intro h; exact ⟨fun x hx => h x (Or.inl hx), fun x hx => h x (Or.inr hx)⟩
  · rintro ⟨h1, h2⟩ x (hx | hx)
    · exact h1 x hx
    · exact h2 x hx

theorem limbsVal_lt {m : List Nat} (h : LimbsOk m) : limbsVal m < (2 ^ 64) ^ m.length := by
  induction m with
  | nil => simp [limbsVal]
  | cons x xs ih =>
    rw [limbsOk_cons] at h
    have := ih h.2
    have hp : ((2 : Nat) ^ 64) ^ (xs.length + 1) = (2 ^ 64) ^ xs.length * 2 ^ 64 := pow_succ _ _
    show x + 2 ^ 64 * limbsVal xs < (2 ^ 64) ^ (xs.length + 1)
    rw [hp]
    generalize ((2 : Nat) ^ 64) ^ xs.length = P at *
    omega

/-- Two limb sequences of the same length that denote the same value are the same. -/
theorem limbsVal_inj_of_length : ∀ (xs ys : List Nat), LimbsOk xs → LimbsOk ys →
    xs.length = ys.length → limbsVal xs = limbsVal ys → xs = ys := by
  intro xs
  induction xs with
  | nil => intro ys _ _ hl _; cases ys with
    | nil => rfl
    | cons y ys => simp at hl
  | cons x xs ih =>
    intro ys hx hy hl hv
    cases ys with
    | nil => simp at hl
    | cons y ys =>
      rw [limbsOk_cons] at hx hy
      simp only [limbsVal] at hv
      simp only [List.length_cons, Nat.add_right_cancel_iff] at hl
      have h1 : x = y := by omega
      have h2 : limbsVal xs = limbsVal ys := by omega
      rw [h1, ih ys hx.2 hy.2 hl h2]

theorem getLast?_eq_some_split {m : List Nat} {z : Nat} (h : m.getLast? = some z) :
    m = m.dropLast ++ [z] := by
  have hne : m ≠ [] := by rintro rfl; simp at h
  have h2 := List.dropLast_append_getLast hne
  rw [List.getLast?_eq_getLast _ hne] at h
  simp only [Option.some.injEq] at h
  rw [h] at h2
  exact h2.symm

/-- A canonical magnitude of more than one limb is at least `2^(64*(len-1))`. -/
theorem magCanonical_le_val {m : List Nat} (hc : MagCanonical m) (hl : 1 < m.length) :
    (2 ^ 64) ^ (m.length - 1) ≤ limbsVal m := by
  have hne := hc.1
  have h2 := List.dropLast_append_getLast hne
  have hlast : m.getLast hne ≠ 0 := by
    intro h0
    apply hc.2 hl
    rw [List.getLast?_eq_getLast _ hne, h0]
  rw [← h2, limbsVal_append]
  simp only [List.length_dropLast, limbsVal, mul_zero, add_zero, List.length_append,
    List.length_singleton, Nat.add_sub_cancel]
  have : 1 ≤ m.getLast hne := Nat.one_le_iff_ne_zero.mpr hlast
  nlinarith [Nat.zero_le (limbsVal m.dropLast), pow_pos (show 0 < 2 ^ 64 by norm_num) (m.length - 1)]

/-- Converse: a non-empty limb sequence whose value reaches `2^(64*(len-1))` when it has more
than one limb is canonical. -/
theorem magCanonical_of_val {m : List Nat} (hok : LimbsOk m) (hne : m ≠ [])
    (h : 1 < m.length → (2 ^ 64) ^ (m.length - 1) ≤ limbsVal m) : MagCanonical m := by
  refine ⟨hne, fun hl h0 => ?_⟩
  have hs := getLast?_eq_some_split h0
  have hv := h hl
  have hok2 : LimbsOk m.dropLast := by
    rw [hs, limbsOk_append] at hok; exact hok.1
  have hlt := limbsVal_lt hok2
  rw [hs, limbsVal_append] at hv
  simp only [List.length_dropLast, limbsVal, mul_zero, add_zero, List.length_append,
    List.length_singleton, Nat.add_sub_cancel] at hv hlt
  omega

/-- Canonical magnitudes are unique representations of their values. -/
theorem magCanonical_inj {xs ys : List Nat} (hx : LimbsOk xs) (hy : LimbsOk ys)
    (cx : MagCanonical xs) (cy : MagCanonical ys) (hv : limbsVal xs = limbsVal ys) : xs = ys := by
  have key : ∀ (a b : List Nat), LimbsOk a → LimbsOk b → MagCanonical a → MagCanonical b →
      limbsVal a = limbsVal b → a.length < b.length → False := by
    intro a b ha _ ca cb hab hlt
    have h1 := limbsVal_lt ha
    have hb1 : 1 < b.length := by
      have : a.length ≠ 0 := by
        intro h0; exact ca.1 (List.length_eq_zero.mp h0)
      omega
    have h2 := magCanonical_le_val cb hb1
    have h3 : (2 ^ 64) ^ a.length ≤ (2 ^ 64) ^ (b.length - 1) :=
      Nat.pow_le_pow_right (by norm_num) (by omega)
    omega
  have hl : xs.length = ys.length := by
    rcases Nat.lt_trichotomy xs.length ys.length with h | h | h
    · exact (key xs ys hx hy cx cy hv h).elim
    · exact h
    · exact (key ys xs hy hx cy cx hv.symm h).elim
  exact limbsVal_inj_of_length xs ys hx hy hl hv

theorem isZero_iff (a : BigInteger) : isZero a = true ↔ a.magnitude = [0] := by
  unfold isZero
  split
  · rename_i x h; simp [h]
  · rename_i h
    constructor
    · intro h'; simp at h'
    · intro h'; exact absurd h' (by intro h2; exact h 0 h2)

theorem canonical_limbsVal_eq_zero {a : BigInteger} (h : Canonical a) :
    limbsVal a.magnitude = 0 ↔ a.magnitude = [0] := by
  constructor
  · intro h0
    have c0 : MagCanonical [0] := by decide
    have l0 : LimbsOk [0] := by decide
    exact magCanonical_inj h.1 l0 h.2.1 c0 (by simpa [limbsVal] using h0)
  · intro h0; rw [h0]; rfl

/-- Canonical BigIntegers are unique representations of their values. -/
theorem canonical_inj {a b : BigInteger} (ha : Canonical a) (hb : Canonical b)
    (h : val a = val b) : a = b := by
  have hmag : limbsVal a.magnitude = limbsVal b.magnitude := by
    unfold val at h
    cases hsa : a.sign <;> cases hsb : b.sign <;> simp only [hsa, hsb] at h <;> omega
  have hm := magCanonical_inj ha.1 hb.1 ha.2.1 hb.2.1 hmag
  have hs : a.sign = b.sign := by
    by_cases hz : limbsVal a.magnitude = 0
    · have h1 := ha.2.2 ((canonical_limbsVal_eq_zero ha).mp hz)
      have h2 := hb.2.2 ((canonical_limbsVal_eq_zero hb).mp (hmag ▸ hz))
      rw [h1, h2]
    · unfold val at h
      cases hsa : a.sign <;> cases hsb : b.sign <;> simp only [hsa, hsb] at h <;>
        first | rfl | omega
  cases a; cases b; simp_all

/-! ## popLeadingZeros -/

theorem popBackZeros_spec : ∀ (r : List Nat), ∃ k, r = List.replicate k 0 ++ popBackZeros r ∧
    (1 < (popBackZeros r).length → (popBackZeros r).head? ≠ some 0) ∧
    (r ≠ [] → popBackZeros r ≠ [])
  | [] => ⟨0, by simp [popBackZeros]⟩
  | [x] => ⟨0, by simp [popBackZeros]⟩
  | x :: y :: rest => by
    obtain ⟨k, h1, h2, h3⟩ := popBackZeros_spec (y :: rest)
    by_cases hx : x = 0
    · subst hx
      refine ⟨k + 1, ?_, ?_, ?_⟩
      · simp only [popBackZeros, if_true, List.replicate_succ, List.cons_append]
        rw [← h1]
      · simpa only [popBackZeros, if_true] using h2
      · intro _
        simpa only [popBackZeros, if_true] using h3 (by simp)
    · refine ⟨0, ?_, ?_, ?_⟩
      · simp [popBackZeros, hx]
      · simp [popBackZeros, hx]
      · simp [popBackZeros, hx]

/-- The limbs left by the loop of `popLeadingZeros`. -/
theorem popped_spec (m : List Nat) : ∃ k,
    m = (popBackZeros m.reverse).reverse ++ List.replicate k 0 ∧
    (1 < (popBackZeros m.reverse).reverse.length →
      (popBackZeros m.reverse).reverse.getLast? ≠ some 0) ∧
    (m ≠ [] → (popBackZeros m.reverse).reverse ≠ []) := by
  obtain ⟨k, h1, h2, h3⟩ := popBackZeros_spec m.reverse
  refine ⟨k, ?_, ?_, ?_⟩
  · have := congrArg List.reverse h1
    simpa using this
  · intro hl
    rw [List.getLast?_reverse]
    exact h2 (by simpa using hl)
  · intro hne
    have := h3 (by simpa using hne)
    simpa using this

theorem popBackZeros_of_canonical : ∀ (r : List Nat), (1 < r.length → r.head? ≠ some 0) →
    popBackZeros r = r
  | [], _ => rfl
  | [x], _ => rfl
  | x :: y :: rest, h => by
    have : x ≠ 0 := by
      intro h0; apply h (by simp); simp [h0]
    simp [popBackZeros, this]

theorem popLeadingZeros_of_canonical {a : BigInteger} (h : Canonical a) :
    popLeadingZeros a = a := by
  have h1 : popBackZeros a.magnitude.reverse = a.magnitude.reverse := by
    apply popBackZeros_of_canonical
    intro hl
    rw [List.head?_reverse]
    exact h.2.1.2 (by simpa using hl)
  unfold popLeadingZeros
  simp only [h1, List.reverse_reverse]
  split
  · rename_i hz
    rw [← h.2.2 hz]
  · rfl

theorem popLeadingZeros_spec (a : BigInteger) (hok : LimbsOk a.magnitude)
    (hne : a.magnitude ≠ []) :
    Canonical (popLeadingZeros a) ∧
    limbsVal (popLeadingZeros a).magnitude = limbsVal a.magnitude ∧
    (popLeadingZeros a).magnitude.length ≤ a.magnitude.length ∧
    ((popLeadingZeros a).magnitude ≠ [0] → (popLeadingZeros a).sign = a.sign) := by
  obtain ⟨k, h1, h2, h3⟩ := popped_spec a.magnitude
  have hmag : (popLeadingZeros a).magnitude = (popBackZeros a.magnitude.reverse).reverse := by
    unfold popLeadingZeros; simp only; split <;> rfl
  have hsign : (popLeadingZeros a).magnitude ≠ [0] → (popLeadingZeros a).sign = a.sign := by
    intro hnz
    rw [hmag] at hnz
    unfold popLeadingZeros; simp only; rw [if_neg hnz]
  have hzero : (popLeadingZeros a).magnitude = [0] → (popLeadingZeros a).sign = Positive := by
    intro hz
    rw [hmag] at hz
    unfold popLeadingZeros; simp only; rw [if_pos hz]
  have hok2 : LimbsOk (popBackZeros a.magnitude.reverse).reverse := by
    rw [h1, limbsOk_append] at hok; exact hok.1
  have hv : limbsVal a.magnitude = limbsVal (popBackZeros a.magnitude.reverse).reverse := by
    conv_lhs => rw [h1]
    rw [limbsVal_append, limbsVal_replicate_zero]; simp
  have hlen : (popBackZeros a.magnitude.reverse).reverse.length ≤ a.magnitude.length := by
    conv_rhs => rw [h1]
    simp
  refine ⟨⟨?_, ⟨?_, ?_⟩, hzero⟩, ?_, ?_, hsign⟩
  · rw [hmag]; exact hok2
  · rw [hmag]; exact h3 hne
  · rw [hmag]; exact h2
  · rw [hmag]; exact hv.symm
  · rw [hmag]; exact hlen

/-! ## Magnitude addition -/

theorem carryLoop_spec : ∀ (xs : List Nat) (c : Bool), LimbsOk xs →
    limbsVal (carryLoop xs c) = limbsVal xs + c.toNat ∧ LimbsOk (carryLoop xs c) ∧
    ((carryLoop xs c).length = xs.length ∨
      ((carryLoop xs c).length = xs.length + 1 ∧
        (2 ^ 64) ^ xs.length ≤ limbsVal (carryLoop xs c)))
  | [], true, _ => by simp [carryLoop, limbsVal, LimbsOk]
  | [], false, _ => by simp [carryLoop, limbsVal, LimbsOk]
  | x :: xs, false, h => by simp [carryLoop, h]
  | x :: xs, true, h => by
    rw [limbsOk_cons] at h
    obtain ⟨ih1, ih2, ih3⟩ := carryLoop_spec xs ((x + 1) % CHUNK_MOD == 0) h.2
    have hx := h.1
    have hp : ((2 : Nat) ^ 64) ^ (xs.length + 1) = (2 ^ 64) ^ xs.length * 2 ^ 64 := pow_succ _ _
    simp only [carryLoop, limbsVal, List.length_cons, limbsOk_cons, ih1, hp]
    refine ⟨?_, ⟨?_, ih2⟩, ?_⟩
    · by_cases hc : (x + 1) % CHUNK_MOD = 0
      · simp only [hc, beq_self_eq_true, Bool.toNat_true]
        simp only [CHUNK_MOD] at hc; omega
      · have : ((x + 1) % CHUNK_MOD == 0) = false := by simpa using hc
        simp only [this, Bool.toNat_false, Bool.toNat_true]
        simp only [CHUNK_MOD] at hc ⊢; omega
    · simp only [CHUNK_MOD]; omega
    · rcases ih3 with h3 | ⟨h3, h4⟩
      · left; omega
      · right
        refine ⟨by omega, ?_⟩
        rw [ih1] at h4
        generalize ((2 : Nat) ^ 64) ^ xs.length = P at *
        omega

theorem addLoop_spec : ∀ (xs ys : List Nat) (c : Bool), LimbsOk xs → LimbsOk ys →
    ys.length ≤ xs.length →
    limbsVal (addLoop xs ys c) = limbsVal xs + limbsVal ys + c.toNat ∧
    LimbsOk (addLoop xs ys c) ∧
    ((addLoop xs ys c).length = xs.length ∨
      ((addLoop xs ys c).length = xs.length + 1 ∧
        (2 ^ 64) ^ xs.length ≤ limbsVal (addLoop xs ys c)))
  | xs, [], c, hx, _, _ => by
    have := carryLoop_spec xs c hx
    cases xs <;> simpa [addLoop, limbsVal] using this
  | [], y :: ys, c, _, _, hl => by simp at hl
  | x :: xs, y :: ys, c, hx, hy, hl => by
    rw [limbsOk_cons] at hx hy
    have hl2 : ys.length ≤ xs.length := by simpa using hl
    have hx1 := hx.1
    have hy1 := hy.1
    have hp : ((2 : Nat) ^ 64) ^ (xs.length + 1) = (2 ^ 64) ^ xs.length * 2 ^ 64 := pow_succ _ _
    obtain ⟨ih1, ih2, ih3⟩ := addLoop_spec xs ys
      (decide ((x + y) % CHUNK_MOD < x) ||
        (((x + y) % CHUNK_MOD + (if c then 1 else 0)) % CHUNK_MOD == 0 && c)) hx.2 hy.2 hl2
    have hcarry : ((x + y) % CHUNK_MOD + (if c then 1 else 0)) % CHUNK_MOD + 2 ^ 64 *
        (decide ((x + y) % CHUNK_MOD < x) ||
        (((x + y) % CHUNK_MOD + (if c then 1 else 0)) % CHUNK_MOD == 0 && c)).toNat
        = x + y + c.toNat := by
      simp only [CHUNK_MOD]
      cases c
      · simp only [Bool.false_eq_true, if_false, Bool.and_false, Bool.or_false, Bool.toNat_false]
        by_cases h1 : (x + y) % 2 ^ 64 < x
        · simp only [h1, decide_True, Bool.toNat_true]; omega
        · simp only [h1, decide_False, Bool.toNat_false]; omega
      · simp only [if_true, Bool.and_true, Bool.toNat_true]
        by_cases h1 : (x + y) % 2 ^ 64 < x
        · simp only [h1, decide_True, Bool.true_or, Bool.toNat_true]; omega
        · by_cases h2 : ((x + y) % 2 ^ 64 + 1) % 2 ^ 64 = 0
          · simp only [h1, decide_False, Bool.false_or, h2, beq_self_eq_true, Bool.toNat_true]
            omega
          · have : (((x + y) % 2 ^ 64 + 1) % 2 ^ 64 == 0) = false := by simpa using h2
            simp only [h1, decide_False, Bool.false_or, this, Bool.toNat_false]
            omega
    simp only [addLoop, limbsVal, List.length_cons, limbsOk_cons, ih1, hp]
    refine ⟨?_, ⟨?_, ih2⟩, ?_⟩
    · generalize (decide ((x + y) % CHUNK_MOD < x) ||
        (((x + y) % CHUNK_MOD + (if c then 1 else 0)) % CHUNK_MOD == 0 && c)).toNat = k at *
      generalize ((x + y) % CHUNK_MOD + (if c then 1 else 0)) % CHUNK_MOD = d at *
      omega
    · simp only [CHUNK_MOD]; omega
    · rcases ih3 with h3 | ⟨h3, h4⟩
      · left; omega
      · right
        refine ⟨by omega, ?_⟩
        rw [ih1] at h4
        generalize ((2 : Nat) ^ 64) ^ xs.length = P at *
        generalize (decide ((x + y) % CHUNK_MOD < x) ||
          (((x + y) % CHUNK_MOD + (if c then 1 else 0)) % CHUNK_MOD == 0 && c)).toNat = k at *
        generalize ((x + y) % CHUNK_MOD + (if c then 1 else 0)) % CHUNK_MOD = d at *
        omega

theorem limbsOk_take {m : List Nat} (h : LimbsOk m) (n : Nat) : LimbsOk (m.take n) :=
  fun x hx => h x (List.mem_of_mem_take hx)

theorem limbsOk_drop {m : List Nat} (h : LimbsOk m) (n : Nat) : LimbsOk (m.drop n) :=
  fun x hx => h x (List.mem_of_mem_drop hx)

theorem limbsVal_take_drop (m : List Nat) (n : Nat) (hn : n ≤ m.length) :
    limbsVal m = limbsVal (m.take n) + (2 ^ 64) ^ n * limbsVal (m.drop n) := by
  conv_lhs => rw [← List.take_append_drop n m]
  rw [limbsVal_append, List.length_take, Nat.min_eq_left hn]

theorem canonical_pos_of_not_isZero {a : BigInteger} (h : Canonical a) (hz : isZero a = false) :
    0 < limbsVal a.magnitude := by
  rcases Nat.eq_zero_or_pos (limbsVal a.magnitude) with h0 | h0
  · have := (isZero_iff a).mpr ((canonical_limbsVal_eq_zero h).mp h0)
    rw [this] at hz; cases hz
  · exact h0

theorem canonical_length_pos {a : BigInteger} (h : Canonical a) : 0 < a.magnitude.length :=
  List.length_pos.mpr h.2.1.1

theorem addMagnitude_spec (a b : BigInteger) (ha : Canonical a) (hb : Canonical b) :
    Canonical (addMagnitude a b) ∧
    limbsVal (addMagnitude a b).magnitude = limbsVal a.magnitude + limbsVal b.magnitude ∧
    (isZero a = false → (addMagnitude a b).sign = a.sign) := by
  unfold addMagnitude
  simp only
  by_cases hzb : isZero b = true
  · have hb0 : limbsVal b.magnitude = 0 := by rw [(isZero_iff b).mp hzb]; rfl
    rw [if_pos hzb, hb0, add_zero]
    exact ⟨ha, rfl, fun _ => rfl⟩
  · have hzb' : isZero b = false := by simpa using hzb
    by_cases hza : isZero a = true
    · have ha0 : limbsVal a.magnitude = 0 := by rw [(isZero_iff a).mp hza]; rfl
      rw [if_neg hzb, if_pos hza, ha0, zero_add]
      exact ⟨hb, rfl, fun h => by rw [hza] at h; cases h⟩
    · have hza' : isZero a = false := by simpa using hza
      have hpa := canonical_pos_of_not_isZero ha hza'
      have hla := canonical_length_pos ha
      have hlb := canonical_length_pos hb
      rw [if_neg hzb, if_neg hza]
      by_cases hlen : b.magnitude.length > a.magnitude.length
      · rw [if_pos hlen]
        have hg : LimbsOk (a.magnitude ++ b.magnitude.drop a.magnitude.length) :=
          limbsOk_append.mpr ⟨ha.1, limbsOk_drop hb.1 _⟩
        have ht : LimbsOk (b.magnitude.take a.magnitude.length) := limbsOk_take hb.1 _
        have hglen : (a.magnitude ++ b.magnitude.drop a.magnitude.length).length =
            b.magnitude.length := by
          rw [List.length_append, List.length_drop]; omega
        have htl : (b.magnitude.take a.magnitude.length).length ≤
            (a.magnitude ++ b.magnitude.drop a.magnitude.length).length := by
          rw [hglen, List.length_take]; omega
        obtain ⟨h1, h2, h3⟩ := addLoop_spec _ _ false hg ht htl
        have hsum : limbsVal (a.magnitude ++ b.magnitude.drop a.magnitude.length) +
            limbsVal (b.magnitude.take a.magnitude.length) =
            limbsVal a.magnitude + limbsVal b.magnitude := by
          rw [limbsVal_append, limbsVal_take_drop b.magnitude a.magnitude.length (by omega)]
          ring
        have hv : limbsVal (addLoop (a.magnitude ++ b.magnitude.drop a.magnitude.length)
            (b.magnitude.take a.magnitude.length) false) =
            limbsVal a.magnitude + limbsVal b.magnitude := by
          rw [h1, hsum]; simp
        have hble := magCanonical_le_val hb.2.1 (by omega)
        have hne : addLoop (a.magnitude ++ b.magnitude.drop a.magnitude.length)
            (b.magnitude.take a.magnitude.length) false ≠ [] := by
          intro h0; rw [h0] at h3; simp only [List.length_nil] at h3; omega
        have hcan : MagCanonical (addLoop (a.magnitude ++ b.magnitude.drop a.magnitude.length)
            (b.magnitude.take a.magnitude.length) false) := by
          apply magCanonical_of_val h2 hne
          intro _
          rcases h3 with h3 | ⟨h3, h4⟩
          · rw [h3, hglen, hv]; omega
          · rw [h3, hglen] at *; simpa using h4
        refine ⟨⟨h2, hcan, ?_⟩, hv, fun _ => rfl⟩
        intro h0
        simp only at h0
        rw [h0] at hv
        simp only [limbsVal] at hv; omega
      · rw [if_neg hlen]
        have htk : b.magnitude.take b.magnitude.length = b.magnitude := List.take_length _
        rw [htk]
        obtain ⟨h1, h2, h3⟩ := addLoop_spec a.magnitude b.magnitude false ha.1 hb.1 (by omega)
        have hv : limbsVal (addLoop a.magnitude b.magnitude false) =
            limbsVal a.magnitude + limbsVal b.magnitude := by
          rw [h1]; simp
        have hne : addLoop a.magnitude b.magnitude false ≠ [] := by
          intro h0; rw [h0] at h3; simp only [List.length_nil] at h3; omega
        have hcan : MagCanonical (addLoop a.magnitude b.magnitude false) := by
          apply magCanonical_of_val h2 hne
          intro hl
          rcases h3 with h3 | ⟨h3, h4⟩
          · rw [h3] at hl ⊢
            have := magCanonical_le_val ha.2.1 hl
            rw [hv]; omega
          · rw [h3]; simpa using h4
        refine ⟨⟨h2, hcan, ?_⟩, hv, fun _ => rfl⟩
        intro h0
        simp only at h0
        rw [h0] at hv
        simp only [limbsVal] at hv; omega

/-! ## Magnitude subtraction -/

theorem borrowLoop_spec : ∀ (xs : List Nat) (c : Bool), LimbsOk xs →
    ∃ bout : Nat, bout ≤ 1 ∧
      limbsVal (borrowLoop xs c) + c.toNat = limbsVal xs + (2 ^ 64) ^ xs.length * bout ∧
      LimbsOk (borrowLoop xs c) ∧ (borrowLoop xs c).length = xs.length
  | [], true, _ => ⟨1, by simp [borrowLoop, limbsVal, LimbsOk]⟩
  | [], false, _ => ⟨0, by simp [borrowLoop, limbsVal, LimbsOk]⟩
  | x :: xs, false, h => ⟨0, by simp [borrowLoop, h]⟩
  | x :: xs, true, h => by
    rw [limbsOk_cons] at h
    obtain ⟨bout, hb, ih1, ih2, ih3⟩ := borrowLoop_spec xs (x == 0) h.2
    have hx := h.1
    have hp : ((2 : Nat) ^ 64) ^ (xs.length + 1) = (2 ^ 64) ^ xs.length * 2 ^ 64 := pow_succ _ _
    refine ⟨bout, hb, ?_, ?_, ?_⟩
    · simp only [borrowLoop, limbsVal, List.length_cons, hp, Bool.toNat_true, CHUNK_MOD]
      have hq : ((2 : Nat) ^ 64) ^ xs.length * 2 ^ 64 * bout =
          2 ^ 64 * ((2 ^ 64) ^ xs.length * bout) := by ring
      rw [hq]
      generalize ((2 : Nat) ^ 64) ^ xs.length * bout = Q at *
      by_cases hc : x = 0
      · have hf : (x == 0) = true := by simpa using hc
        rw [hf] at ih1 ⊢
        simp only [Bool.toNat_true] at ih1
        omega
      · have hf : (x == 0) = false := by simpa using hc
        rw [hf] at ih1 ⊢
        simp only [Bool.toNat_false, add_zero] at ih1
        omega
    · simp only [borrowLoop, limbsOk_cons, CHUNK_MOD]
      exact ⟨by omega, ih2⟩
    · simp [borrowLoop, ih3]

theorem subtractLoop_spec : ∀ (xs ys : List Nat) (c : Bool), LimbsOk xs → LimbsOk ys →
    ys.length ≤ xs.length →
    ∃ bout : Nat, bout ≤ 1 ∧
      limbsVal (subtractLoop xs ys c) + limbsVal ys + c.toNat =
        limbsVal xs + (2 ^ 64) ^ xs.length * bout ∧
      LimbsOk (subtractLoop xs ys c) ∧ (subtractLoop xs ys c).length = xs.length
  | xs, [], c, hx, _, _ => by
    obtain ⟨bout, h1, h2, h3, h4⟩ := borrowLoop_spec xs c hx
    have e : subtractLoop xs [] c = borrowLoop xs c := by cases xs <;> rfl
    rw [e]
    exact ⟨bout, h1, by simpa [limbsVal] using h2, h3, h4⟩
  | [], y :: ys, c, _, _, hl => by simp at hl
  | x :: xs, y :: ys, c, hx, hy, hl => by
    rw [limbsOk_cons] at hx hy
    have hl2 : ys.length ≤ xs.length := by simpa using hl
    have hx1 := hx.1
    have hy1 := hy.1
    have hp : ((2 : Nat) ^ 64) ^ (xs.length + 1) = (2 ^ 64) ^ xs.length * 2 ^ 64 := pow_succ _ _
    obtain ⟨bout, hb, ih1, ih2, ih3⟩ := subtractLoop_spec xs ys
      (decide (x < y) || ((x + CHUNK_MOD - y) % CHUNK_MOD == 0 && c)) hx.2 hy.2 hl2
    have hstep : ((x + CHUNK_MOD - y) % CHUNK_MOD + CHUNK_MOD - (if c then 1 else 0)) % CHUNK_MOD
        + y + c.toNat = x + 2 ^ 64 *
        (decide (x < y) || ((x + CHUNK_MOD - y) % CHUNK_MOD == 0 && c)).toNat := by
      simp only [CHUNK_MOD]
      cases c
      · simp only [Bool.false_eq_true, if_false, Bool.and_false, Bool.or_false, Bool.toNat_false]
        by_cases h1 : x < y
        · simp only [h1, decide_True, Bool.toNat_true]; omega
        · simp only [h1, decide_False, Bool.toNat_false]; omega
      · simp only [if_true, Bool.and_true, Bool.toNat_true]
        by_cases h1 : x < y
        · simp only [h1, decide_True, Bool.true_or, Bool.toNat_true]; omega
        · by_cases h2 : (x + 2 ^ 64 - y) % 2 ^ 64 = 0
          · simp only [h1, decide_False, Bool.false_or, h2, beq_self_eq_true, Bool.toNat_true]
            omega
          · have : ((x + 2 ^ 64 - y) % 2 ^ 64 == 0) = false := by simpa using h2
            simp only [h1, decide_False, Bool.false_or, this, Bool.toNat_false]
            omega
    refine ⟨bout, hb, ?_, ?_, ?_⟩
    · simp only [subtractLoop, limbsVal, List.length_cons, hp]
      have hq : ((2 : Nat) ^ 64) ^ xs.length * 2 ^ 64 * bout =
          2 ^ 64 * ((2 ^ 64) ^ xs.length * bout) := by ring
      rw [hq]
      generalize ((2 : Nat) ^ 64) ^ xs.length * bout = Q at *
      generalize (decide (x < y) || ((x + CHUNK_MOD - y) % CHUNK_MOD == 0 && c)).toNat = k at *
      generalize ((x + CHUNK_MOD - y) % CHUNK_MOD + CHUNK_MOD - (if c then 1 else 0)) % CHUNK_MOD
        = d at *
      generalize limbsVal (subtractLoop xs ys
        (decide (x < y) || ((x + CHUNK_MOD - y) % CHUNK_MOD == 0 && c))) = r at *
      omega
    · simp only [subtractLoop, limbsOk_cons, CHUNK_MOD]
      exact ⟨Nat.mod_lt _ (by norm_num), ih2⟩
    · simp [subtractLoop, ih3]

/-- Among canonical magnitudes, fewer limbs means a smaller value. -/
theorem limbsVal_lt_of_length_lt {xs ys : List Nat} (hx : LimbsOk xs) (cx : MagCanonical xs)
    (cy : MagCanonical ys) (hl : xs.length < ys.length) : limbsVal xs < limbsVal ys := by
  have h1 := limbsVal_lt hx
  have hb1 : 1 < ys.length := by
    have : xs.length ≠ 0 := by
      intro h0; exact cx.1 (List.length_eq_zero.mp h0)
    omega
  have h2 := magCanonical_le_val cy hb1
  have h3 : (2 ^ 64) ^ xs.length ≤ (2 ^ 64) ^ (ys.length - 1) :=
    Nat.pow_le_pow_right (by norm_num) (by omega)
  omega

theorem subtractMagnitude_spec (a b : BigInteger) (ha : Canonical a) (hb : Canonical b)
    (hle : limbsVal b.magnitude ≤ limbsVal a.magnitude) :
    Canonical (subtractMagnitude a b) ∧
    limbsVal (subtractMagnitude a b).magnitude = limbsVal a.magnitude - limbsVal b.magnitude ∧
    ((subtractMagnitude a b).magnitude ≠ [0] → (subtractMagnitude a b).sign = a.sign) := by
  unfold subtractMagnitude
  by_cases hz : (isZero b || isZero a) = true
  · rw [if_pos hz]
    refine ⟨ha, ?_, fun _ => rfl⟩
    rcases Bool.or_eq_true_iff.mp hz with h | h
    · rw [(isZero_iff b).mp h]; simp [limbsVal]
    · rw [(isZero_iff a).mp h] at hle ⊢
      simp only [limbsVal] at hle ⊢; omega
  · rw [if_neg hz]
    have hlen : b.magnitude.length ≤ a.magnitude.length := by
      by_contra hcon
      have := limbsVal_lt_of_length_lt ha.1 ha.2.1 hb.2.1 (by omega)
      omega
    obtain ⟨bout, hb1, h1, h2, h3⟩ :=
      subtractLoop_spec a.magnitude b.magnitude false ha.1 hb.1 hlen
    have hlt := limbsVal_lt h2
    rw [h3] at hlt
    have hbout : bout = 0 := by
      rcases Nat.eq_zero_or_pos bout with h0 | h0
      · exact h0
      · have : bout = 1 := by omega
        subst this
        simp only [Bool.toNat_false, add_zero, mul_one] at h1
        omega
    subst hbout
    simp only [Bool.toNat_false, add_zero, mul_zero] at h1
    have hne : subtractLoop a.magnitude b.magnitude false ≠ [] := by
      intro h0
      have := canonical_length_pos ha
      rw [h0] at h3; simp only [List.length_nil] at h3; omega
    obtain ⟨p1, p2, _, p4⟩ := popLeadingZeros_spec
      { a with magnitude := subtractLoop a.magnitude b.magnitude false } h2 hne
    refine ⟨p1, ?_, p4⟩
    rw [p2]; simp only; omega

/-! ## Comparison -/

theorem limbsVal_reverse_cons (x : Nat) (xs : List Nat) :
    limbsVal (x :: xs).reverse = limbsVal xs.reverse + (2 ^ 64) ^ xs.length * x := by
  rw [List.reverse_cons, limbsVal_append]
  simp [limbsVal]

theorem limbsOk_reverse {m : List Nat} : LimbsOk m.reverse ↔ LimbsOk m := by
  simp [LimbsOk]

theorem compareLoop_spec : ∀ (xs ys : List Nat), LimbsOk xs → LimbsOk ys →
    xs.length = ys.length →
    compareLoop xs ys = threeWay (limbsVal xs.reverse) (limbsVal ys.reverse)
  | [], [], _, _, _ => by simp [compareLoop, threeWay]
  | [], _ :: _, _, _, hl => by simp at hl
  | _ :: _, [], _, _, hl => by simp at hl
  | x :: xs, y :: ys, hx, hy, hl => by
    rw [limbsOk_cons] at hx hy
    have hl2 : xs.length = ys.length := by simpa using hl
    have ih := compareLoop_spec xs ys hx.2 hy.2 hl2
    have hxlt := limbsVal_lt (limbsOk_reverse.mpr hx.2)
    have hylt := limbsVal_lt (limbsOk_reverse.mpr hy.2)
    rw [List.length_reverse] at hxlt hylt
    rw [limbsVal_reverse_cons, limbsVal_reverse_cons, ← hl2]
    rw [← hl2] at hylt
    generalize ((2 : Nat) ^ 64) ^ xs.length = P at *
    simp only [compareLoop]
    by_cases h1 : x < y
    · have : P * (x + 1) ≤ P * y := Nat.mul_le_mul_left _ h1
      rw [Nat.mul_succ] at this
      have hlt : limbsVal xs.reverse + P * x < limbsVal ys.reverse + P * y := by omega
      simp [h1, threeWay, hlt]
    · by_cases h2 : x > y
      · have : P * (y + 1) ≤ P * x := Nat.mul_le_mul_left _ h2
        rw [Nat.mul_succ] at this
        have hlt : limbsVal ys.reverse + P * y < limbsVal xs.reverse + P * x := by omega
        have hnlt : ¬ limbsVal xs.reverse + P * x < limbsVal ys.reverse + P * y := by omega
        simp [h1, h2, threeWay, hlt, hnlt]
      · have hxy : x = y := by omega
        subst hxy
        simp only [h1, h2, if_false, ih, threeWay]
        simp

theorem compareMagnitude_spec (a b : BigInteger) (ha : Canonical a) (hb : Canonical b) :
    compareMagnitude a b = threeWay (limbsVal a.magnitude) (limbsVal b.magnitude) := by
  unfold compareMagnitude
  simp only
  by_cases h1 : a.magnitude.length > b.magnitude.length
  · have := limbsVal_lt_of_length_lt hb.1 hb.2.1 ha.2.1 h1
    have h2 : ¬ limbsVal a.magnitude < limbsVal b.magnitude := by omega
    simp [h1, threeWay, this, h2]
  · by_cases h2 : a.magnitude.length < b.magnitude.length
    · have := limbsVal_lt_of_length_lt ha.1 ha.2.1 hb.2.1 h2
      simp [h1, h2, threeWay, this]
    · rw [if_neg h1, if_neg h2]
      have := compareLoop_spec a.magnitude.reverse b.magnitude.reverse
        (limbsOk_reverse.mpr ha.1) (limbsOk_reverse.mpr hb.1) (by simp; omega)
      simpa using this

theorem threeWay_eq_larger (m n : Nat) : threeWay m n = Arg1Larger ↔ n < m := by
  unfold threeWay; split_ifs <;> simp <;> omega

theorem threeWay_eq_smaller (m n : Nat) : threeWay m n = Arg1Smaller ↔ m < n := by
  unfold threeWay; split_ifs <;> simp <;> omega

theorem threeWay_eq_equal (m n : Nat) : threeWay m n = ArgsEqual ↔ m = n := by
  unfold threeWay; split_ifs <;> simp <;> omega

/-! ## Signed addition and subtraction -/

theorem val_of_positive {a : BigInteger} (h : a.sign = Positive) :
    val a = (limbsVal a.magnitude : Int) := by
  unfold val; rw [h]

theorem val_of_negative {a : BigInteger} (h : a.sign = Negative) :
    val a = - (limbsVal a.magnitude : Int) := by
  unfold val; rw [h]

theorem val_of_isZero {a : BigInteger} (h : isZero a = true) : val a = 0 := by
  have := (isZero_iff a).mp h
  unfold val; rw [this]; cases a.sign <;> simp [limbsVal]

theorem sign_cases (s : Sign) : s = Positive ∨ s = Negative := by
  cases s <;> simp

theorem sign_ne_iff {s t : Sign} : s ≠ t ↔ (s = Positive ∧ t = Negative) ∨
    (s = Negative ∧ t = Positive) := by
  cases s <;> cases t <;> simp

theorem val_zero_mag {a : BigInteger} (h : a.magnitude = [0]) : val a = 0 :=
  val_of_isZero ((isZero_iff a).mpr h)

/-- The value of a BigInteger whose sign is that of `b` unless its magnitude is `[0]`. -/
theorem val_of_sign_or_zero {r b : BigInteger} (h : r.magnitude ≠ [0] → r.sign = b.sign) :
    (b.sign = Positive → val r = (limbsVal r.magnitude : Int)) ∧
    (b.sign = Negative → val r = - (limbsVal r.magnitude : Int)) := by
  by_cases hz : r.magnitude = [0]
  · have h0 := val_zero_mag hz
    have h1 : limbsVal r.magnitude = 0 := by rw [hz]; rfl
    rw [h0, h1]; simp
  · have hs := h hz
    constructor
    · intro hb; exact val_of_positive (hs.trans hb)
    · intro hb; exact val_of_negative (hs.trans hb)

theorem plusEquals_spec (a b : BigInteger) (ha : Canonical a) (hb : Canonical b) :
    Canonical (plusEquals a b) ∧ val (plusEquals a b) = val a + val b := by
  unfold plusEquals
  by_cases hza : isZero a = true
  · rw [if_pos hza, val_of_isZero hza]
    exact ⟨hb, by simp⟩
  rw [if_neg hza]
  by_cases hzb : isZero b = true
  · rw [if_pos hzb, val_of_isZero hzb]
    exact ⟨ha, by simp⟩
  rw [if_neg hzb]
  have hza' : isZero a = false := by simpa using hza
  by_cases hs : a.sign = b.sign
  · rw [if_pos hs]
    obtain ⟨h1, h2, h3⟩ := addMagnitude_spec a b ha hb
    refine ⟨h1, ?_⟩
    have h4 := h3 hza'
    rcases sign_cases a.sign with hp | hn
    · rw [val_of_positive (h4.trans hp), val_of_positive hp, val_of_positive (hs ▸ hp), h2]
      push_cast; ring
    · rw [val_of_negative (h4.trans hn), val_of_negative hn, val_of_negative (hs ▸ hn), h2]
      push_cast; ring
  rw [if_neg hs]
  by_cases hm : a.magnitude = b.magnitude
  · rw [if_pos hm]
    refine ⟨by decide, ?_⟩
    rcases sign_ne_iff.mp hs with ⟨h1, h2⟩ | ⟨h1, h2⟩
    · rw [val_of_positive h1, val_of_negative h2, hm]; simp [makeZero, val, limbsVal]
    · rw [val_of_negative h1, val_of_positive h2, hm]; simp [makeZero, val, limbsVal]
  rw [if_neg hm]
  have hcmp := compareMagnitude_spec a b ha hb
  have hne : limbsVal a.magnitude ≠ limbsVal b.magnitude := by
    intro h; exact hm (magCanonical_inj ha.1 hb.1 ha.2.1 hb.2.1 h)
  by_cases hl : compareMagnitude a b = Arg1Larger
  · rw [if_pos hl]
    rw [hcmp, threeWay_eq_larger] at hl
    obtain ⟨h1, h2, h3⟩ := subtractMagnitude_spec a b ha hb (by omega)
    refine ⟨h1, ?_⟩
    obtain ⟨k1, k2⟩ := val_of_sign_or_zero h3
    rcases sign_ne_iff.mp hs with ⟨s1, s2⟩ | ⟨s1, s2⟩
    · rw [k1 s1, val_of_positive s1, val_of_negative s2, h2]; omega
    · rw [k2 s1, val_of_negative s1, val_of_positive s2, h2]; omega
  · rw [if_neg hl]
    rw [hcmp, threeWay_eq_larger] at hl
    obtain ⟨h1, h2, h3⟩ := subtractMagnitude_spec b a hb ha (by omega)
    refine ⟨h1, ?_⟩
    obtain ⟨k1, k2⟩ := val_of_sign_or_zero h3
    rcases sign_ne_iff.mp hs with ⟨s1, s2⟩ | ⟨s1, s2⟩
    · rw [k2 s2, val_of_positive s1, val_of_negative s2, h2]; omega
    · rw [k1 s2, val_of_negative s1, val_of_positive s2, h2]; omega

theorem plusEquals_sign (a b : BigInteger) (ha : Canonical a) (hb : Canonical b) :
    (a.sign = b.sign → (plusEquals a b).sign = a.sign) ∧
    (a.sign ≠ b.sign → limbsVal b.magnitude < limbsVal a.magnitude →
      (plusEquals a b).sign = a.sign) ∧
    (a.sign ≠ b.sign → limbsVal a.magnitude < limbsVal b.magnitude →
      (plusEquals a b).sign = b.sign) := by
  have hzero : ∀ c : BigInteger, isZero c = true → limbsVal c.magnitude = 0 := by
    intro c hc; rw [(isZero_iff c).mp hc]; rfl
  refine ⟨?_, ?_, ?_⟩
  · intro hs
    unfold plusEquals
    by_cases hza : isZero a = true
    · rw [if_pos hza]; exact hs.symm
    rw [if_neg hza]
    by_cases hzb : isZero b = true
    · rw [if_pos hzb]
    rw [if_neg hzb, if_pos hs]
    exact (addMagnitude_spec a b ha hb).2.2 (by simpa using hza)
  · intro hs hlt
    unfold plusEquals
    by_cases hza : isZero a = true
    · have := hzero a hza; omega
    rw [if_neg hza]
    by_cases hzb : isZero b = true
    · rw [if_pos hzb]
    rw [if_neg hzb, if_neg hs]
    have hm : a.magnitude ≠ b.magnitude := by
      intro h; rw [h] at hlt; omega
    rw [if_neg hm]
    have hcmp := compareMagnitude_spec a b ha hb
    have hl : compareMagnitude a b = Arg1Larger := by
      rw [hcmp, threeWay_eq_larger]; exact hlt
    rw [if_pos hl]
    obtain ⟨_, h2, h3⟩ := subtractMagnitude_spec a b ha hb (by omega)
    apply h3
    intro h0
    rw [h0] at h2
    simp only [limbsVal] at h2; omega
  · intro hs hlt
    unfold plusEquals
    by_cases hza : isZero a = true
    · rw [if_pos hza]
    rw [if_neg hza]
    by_cases hzb : isZero b = true
    · have := hzero b hzb; omega
    rw [if_neg hzb, if_neg hs]
    have hm : a.magnitude ≠ b.magnitude := by
      intro h; rw [h] at hlt; omega
    rw [if_neg hm]
    have hcmp := compareMagnitude_spec a b ha hb
    have hl : ¬ compareMagnitude a b = Arg1Larger := by
      rw [hcmp, threeWay_eq_larger]; omega
    rw [if_neg hl]
    obtain ⟨_, h2, h3⟩ := subtractMagnitude_spec b a hb ha (by omega)
    apply h3
    intro h0
    rw [h0] at h2
    simp only [limbsVal] at h2; omega

theorem opNeg_spec (a : BigInteger) (ha : Canonical a) :
    Canonical (opNeg a) ∧ val (opNeg a) = - val a ∧ (opNeg a).magnitude = a.magnitude := by
  unfold opNeg flipSign
  by_cases hz : isZero a = true
  · rw [if_pos hz]
    have hm := (isZero_iff a).mp hz
    have hs := ha.2.2 hm
    have e : ({ a with sign := Positive } : BigInteger) = a := by
      cases a; simp_all
    rw [e, val_of_isZero hz]
    exact ⟨ha, by simp, rfl⟩
  · rw [if_neg hz]
    have hm : a.magnitude ≠ [0] := fun h => hz ((isZero_iff a).mpr h)
    by_cases hs : a.sign = Positive
    · rw [if_pos hs]
      refine ⟨⟨ha.1, ha.2.1, fun h => absurd h hm⟩, ?_, rfl⟩
      rw [val_of_positive hs]; simp [val]
    · rw [if_neg hs]
      have hn : a.sign = Negative := by
        rcases sign_cases a.sign with h | h
        · exact absurd h hs
        · exact h
      refine ⟨⟨ha.1, ha.2.1, fun _ => rfl⟩, ?_, rfl⟩
      rw [val_of_negative hn]; simp [val]

/-! ## Bit operations on one limb -/

theorem and_high_bit_ne_zero {x : Nat} (hx : x < 2 ^ 64) : x &&& 2 ^ 63 ≠ 0 ↔ 2 ^ 63 ≤ x := by
  rw [Nat.and_two_pow, Nat.testBit_to_div_mod]
  by_cases h : x / 2 ^ 63 % 2 = 1
  · simp only [h, decide_True, Bool.toNat_true, one_mul]
    constructor
    · intro _; omega
    · intro _; norm_num
  · simp only [h, decide_False, Bool.toNat_false, zero_mul, ne_eq, not_true_eq_false, false_iff]
    omega

theorem shl_or_bit {x c : Nat} (hc : c ≤ 1) :
    ((x <<< 1) % 2 ^ 64) ||| c = (2 * x) % 2 ^ 64 + c := by
  have h1 : (x <<< 1) % 2 ^ 64 = 2 ^ 1 * (x % 2 ^ 63) := by
    rw [Nat.shiftLeft_eq]; omega
  have h2 : (2 * x) % 2 ^ 64 = 2 ^ 1 * (x % 2 ^ 63) := by omega
  rw [h1, h2]
  exact (Nat.mul_add_lt_is_or (by omega) _).symm

theorem shr_or_bit {x : Nat} (hx : x < 2 ^ 64) (h : Nat) (hh : h = 0 ∨ h = 2 ^ 63) :
    (x >>> 1) ||| h = x / 2 + h := by
  have h1 : x >>> 1 = x / 2 := by
    rw [Nat.shiftRight_eq_div_pow]
  rw [h1]
  rcases hh with rfl | rfl
  · simp
  · have := Nat.mul_add_lt_is_or (i := 63) (b := x / 2) (by omega) 1
    rw [Nat.or_comm, Nat.add_comm]
    simpa using this.symm

/-! ## Single-bit shifts -/

theorem shiftLeftLoop_spec : ∀ (xs : List Nat) (c : Nat), LimbsOk xs → c ≤ 1 →
    limbsVal (shiftLeftLoop xs c) = 2 * limbsVal xs + c ∧ LimbsOk (shiftLeftLoop xs c) ∧
    ((shiftLeftLoop xs c).length = xs.length ∨
      ((shiftLeftLoop xs c).length = xs.length + 1 ∧
        (2 ^ 64) ^ xs.length ≤ limbsVal (shiftLeftLoop xs c)))
  | [], c, _, hc => by
    by_cases h : c = 0
    · subst h; simp [shiftLeftLoop, limbsVal, LimbsOk]
    · have : c = 1 := by omega
      subst this; simp [shiftLeftLoop, limbsVal, LimbsOk]
  | x :: xs, c, h, hc => by
    rw [limbsOk_cons] at h
    have hx := h.1
    have hnext : (if x &&& HIGH_BIT ≠ 0 then LOW_BIT else 0) ≤ 1 := by
      unfold LOW_BIT; split <;> omega
    obtain ⟨ih1, ih2, ih3⟩ := shiftLeftLoop_spec xs
      (if x &&& HIGH_BIT ≠ 0 then LOW_BIT else 0) h.2 hnext
    have hp : ((2 : Nat) ^ 64) ^ (xs.length + 1) = (2 ^ 64) ^ xs.length * 2 ^ 64 := pow_succ _ _
    have hdig : ((x <<< 1) % CHUNK_MOD) ||| c = (2 * x) % 2 ^ 64 + c := shl_or_bit hc
    have hnx : (if x &&& HIGH_BIT ≠ 0 then LOW_BIT else 0) = x / 2 ^ 63 := by
      unfold HIGH_BIT LOW_BIT
      by_cases hb : x &&& 2 ^ 63 ≠ 0
      · rw [if_pos hb]
        have := (and_high_bit_ne_zero hx).mp hb
        omega
      · rw [if_neg hb]
        have := mt (and_high_bit_ne_zero hx).mpr hb
        omega
    simp only [shiftLeftLoop, limbsVal, List.length_cons, limbsOk_cons, hp, hdig]
    generalize (if x &&& HIGH_BIT ≠ 0 then LOW_BIT else 0) = nx at *
    generalize shiftLeftLoop xs nx = r at *
    subst hnx
    refine ⟨by omega, ⟨by omega, ih2⟩, ?_⟩
    rcases ih3 with h3 | ⟨h3, h4⟩
    · left; omega
    · right
      refine ⟨by omega, ?_⟩
      generalize ((2 : Nat) ^ 64) ^ xs.length = P at *
      omega

theorem shiftMeLeft1_spec (a : BigInteger) (ha : LimbsOk a.magnitude)
    (hc : MagCanonical a.magnitude) :
    LimbsOk (shiftMeLeft1 a).magnitude ∧ MagCanonical (shiftMeLeft1 a).magnitude ∧
    limbsVal (shiftMeLeft1 a).magnitude = 2 * limbsVal a.magnitude ∧
    (shiftMeLeft1 a).sign = a.sign := by
  obtain ⟨h1, h2, h3⟩ := shiftLeftLoop_spec a.magnitude 0 ha (by omega)
  have hlen : 0 < a.magnitude.length := List.length_pos.mpr hc.1
  have hne : shiftLeftLoop a.magnitude 0 ≠ [] := by
    intro h0; rw [h0] at h3; simp only [List.length_nil] at h3; omega
  refine ⟨h2, ?_, by simpa [shiftMeLeft1] using h1, rfl⟩
  show MagCanonical (shiftLeftLoop a.magnitude 0)
  apply magCanonical_of_val h2 hne
  intro hl
  rcases h3 with h3 | ⟨h3, h4⟩
  · rw [h3] at hl ⊢
    have := magCanonical_le_val hc hl
    rw [h1]; omega
  · rw [h3]; simpa using h4

theorem shiftRightLoop_spec : ∀ (xs : List Nat), LimbsOk xs →
    limbsVal (shiftRightLoop xs).1 = limbsVal xs / 2 ∧
    (shiftRightLoop xs).2 = (limbsVal xs % 2) * 2 ^ 63 ∧
    LimbsOk (shiftRightLoop xs).1 ∧ (shiftRightLoop xs).1.length = xs.length
  | [], _ => by simp [shiftRightLoop, limbsVal, LimbsOk]
  | x :: xs, h => by
    rw [limbsOk_cons] at h
    have hx := h.1
    obtain ⟨ih1, ih2, ih3, ih4⟩ := shiftRightLoop_spec xs h.2
    have hh : (shiftRightLoop xs).2 = 0 ∨ (shiftRightLoop xs).2 = 2 ^ 63 := by
      rw [ih2]
      rcases Nat.mod_two_eq_zero_or_one (limbsVal xs) with h0 | h0 <;> rw [h0] <;> simp
    have hdig := shr_or_bit hx _ hh
    simp only [shiftRightLoop, limbsVal, List.length_cons, limbsOk_cons, hdig, ih1, ih4]
    refine ⟨?_, ?_, ⟨?_, ih3⟩, trivial⟩
    · rw [ih2]; omega
    · unfold LOW_BIT HIGH_BIT
      rw [Nat.and_one_is_mod]
      by_cases hodd : x % 2 = 0
      · simp only [hodd, ne_eq, not_true_eq_false, if_false]; omega
      · rw [if_pos hodd]; omega
    · rw [ih2]; omega

theorem limbsVal_dropLast_of_last_zero {m : List Nat} (h : m.getLast? = some 0) :
    limbsVal m.dropLast = limbsVal m := by
  conv_rhs => rw [getLast?_eq_some_split h]
  rw [limbsVal_append]; simp [limbsVal]

theorem limbsOk_dropLast {m : List Nat} (h : LimbsOk m) : LimbsOk m.dropLast :=
  fun x hx => h x (List.mem_of_mem_dropLast hx)

theorem shiftMeRight1_spec (a : BigInteger) (ha : LimbsOk a.magnitude)
    (hc : MagCanonical a.magnitude) :
    LimbsOk (shiftMeRight1 a).magnitude ∧ MagCanonical (shiftMeRight1 a).magnitude ∧
    limbsVal (shiftMeRight1 a).magnitude = limbsVal a.magnitude / 2 ∧
    (shiftMeRight1 a).sign = a.sign := by
  obtain ⟨h1, _, h3, h4⟩ := shiftRightLoop_spec a.magnitude ha
  have hlen : 0 < a.magnitude.length := List.length_pos.mpr hc.1
  unfold shiftMeRight1
  simp only
  by_cases hcond : 1 < a.magnitude.length ∧ (shiftRightLoop a.magnitude).1.getLast? = some 0
  · rw [if_pos hcond]
    simp only
    have hv := limbsVal_dropLast_of_last_zero hcond.2
    have hok := limbsOk_dropLast h3
    have hl : (shiftRightLoop a.magnitude).1.dropLast.length = a.magnitude.length - 1 := by
      rw [List.length_dropLast, h4]
    refine ⟨hok, ?_, by rw [hv, h1], trivial⟩
    apply magCanonical_of_val hok
    · intro h0; rw [h0] at hl; simp only [List.length_nil] at hl; omega
    · intro hl2
      rw [hl] at hl2 ⊢
      rw [hv, h1]
      have := magCanonical_le_val hc hcond.1
      have hp : ((2 : Nat) ^ 64) ^ (a.magnitude.length - 1) =
          (2 ^ 64) ^ (a.magnitude.length - 1 - 1) * 2 ^ 64 := by
        rw [← pow_succ]; congr 1; omega
      rw [hp] at this
      generalize ((2 : Nat) ^ 64) ^ (a.magnitude.length - 1 - 1) = P at *
      omega
  · rw [if_neg hcond]
    simp only
    refine ⟨h3, ⟨?_, ?_⟩, h1, trivial⟩
    · intro h0; rw [h0] at h4; simp only [List.length_nil] at h4; omega
    · intro hl h0
      rw [h4] at hl
      exact hcond ⟨hl, h0⟩

/-! ## Bitwise AND and OR -/

theorem testBit_limb (x a i : Nat) (hx : x < 2 ^ 64) :
    (x + 2 ^ 64 * a).testBit i = if i < 64 then x.testBit i else a.testBit (i - 64) := by
  rw [Nat.add_comm]
  exact Nat.testBit_mul_pow_two_add a hx i

theorem land_limbs {x y : Nat} (a b : Nat) (hx : x < 2 ^ 64) (hy : y < 2 ^ 64) :
    (x + 2 ^ 64 * a) &&& (y + 2 ^ 64 * b) = (x &&& y) + 2 ^ 64 * (a &&& b) := by
  apply Nat.eq_of_testBit_eq
  intro i
  have hxy : x &&& y < 2 ^ 64 := Nat.and_lt_two_pow x hy
  rw [Nat.testBit_and, testBit_limb x a i hx, testBit_limb y b i hy, testBit_limb _ _ i hxy]
  split <;> simp

theorem lor_limbs {x y : Nat} (a b : Nat) (hx : x < 2 ^ 64) (hy : y < 2 ^ 64) :
    (x + 2 ^ 64 * a) ||| (y + 2 ^ 64 * b) = (x ||| y) + 2 ^ 64 * (a ||| b) := by
  apply Nat.eq_of_testBit_eq
  intro i
  have hxy : x ||| y < 2 ^ 64 := Nat.or_lt_two_pow hx hy
  rw [Nat.testBit_or, testBit_limb x a i hx, testBit_limb y b i hy, testBit_limb _ _ i hxy]
  split <;> simp

theorem zipWith_and_spec : ∀ (xs ys : List Nat), LimbsOk xs → LimbsOk ys →
    xs.length = ys.length →
    limbsVal (List.zipWith (fun a b => a &&& b) xs ys) = limbsVal xs &&& limbsVal ys ∧
    LimbsOk (List.zipWith (fun a b => a &&& b) xs ys)
  | [], [], _, _, _ => by simp [limbsVal, LimbsOk]
  | [], _ :: _, _, _, hl => by simp at hl
  | _ :: _, [], _, _, hl => by simp at hl
  | x :: xs, y :: ys, hx, hy, hl => by
    rw [limbsOk_cons] at hx hy
    obtain ⟨ih1, ih2⟩ := zipWith_and_spec xs ys hx.2 hy.2 (by simpa using hl)
    simp only [List.zipWith_cons_cons, limbsVal, limbsOk_cons, ih1]
    exact ⟨(land_limbs _ _ hx.1 hy.1).symm, Nat.and_lt_two_pow x hy.1, ih2⟩

theorem zipWith_or_spec : ∀ (xs ys : List Nat), LimbsOk xs → LimbsOk ys →
    xs.length = ys.length →
    limbsVal (List.zipWith (fun a b => a ||| b) xs ys) = limbsVal xs ||| limbsVal ys ∧
    LimbsOk (List.zipWith (fun a b => a ||| b) xs ys)
  | [], [], _, _, _ => by simp [limbsVal, LimbsOk]
  | [], _ :: _, _, _, hl => by simp at hl
  | _ :: _, [], _, _, hl => by simp at hl
  | x :: xs, y :: ys, hx, hy, hl => by
    rw [limbsOk_cons] at hx hy
    obtain ⟨ih1, ih2⟩ := zipWith_or_spec xs ys hx.2 hy.2 (by simpa using hl)
    simp only [List.zipWith_cons_cons, limbsVal, limbsOk_cons, ih1]
    exact ⟨(lor_limbs _ _ hx.1 hy.1).symm, Nat.or_lt_two_pow hx.1 hy.1, ih2⟩

theorem padTo_spec (m : List Nat) (n : Nat) (h : LimbsOk m) :
    limbsVal (padTo m n) = limbsVal m ∧ LimbsOk (padTo m n) ∧
    (padTo m n).length = max m.length n := by
  unfold padTo
  refine ⟨?_, ?_, ?_⟩
  · rw [limbsVal_append, limbsVal_replicate_zero]; simp
  · rw [limbsOk_append]
    refine ⟨h, ?_⟩
    intro x hx
    rw [List.mem_replicate] at hx
    rw [hx.2]; norm_num
  · rw [List.length_append, List.length_replicate]; omega

/-- The two equal-length operands that `andOrEquals` combines limb by limb. -/
theorem andOrEquals_operands (a b : BigInteger) (ha : LimbsOk a.magnitude)
    (hb : LimbsOk b.magnitude) :
    ∃ xs ys, (∀ op : NumericConstant, andOrEquals a op b =
        if op = OrEquals then
          popLeadingZeros { a with magnitude := List.zipWith (fun a b => a ||| b) xs ys }
        else popLeadingZeros { a with magnitude := List.zipWith (fun a b => a &&& b) xs ys }) ∧
      LimbsOk xs ∧ LimbsOk ys ∧ xs.length = ys.length ∧ a.magnitude.length ≤ xs.length ∧
      limbsVal xs = limbsVal a.magnitude ∧ limbsVal ys = limbsVal b.magnitude := by
  obtain ⟨pa1, pa2, pa3⟩ := padTo_spec a.magnitude b.magnitude.length ha
  obtain ⟨pb1, pb2, pb3⟩ := padTo_spec b.magnitude a.magnitude.length hb
  by_cases h1 : a.magnitude.length > b.magnitude.length
  · refine ⟨a.magnitude, padTo b.magnitude a.magnitude.length, ?_, ha, pb2, ?_, le_refl _,
      rfl, pb1⟩
    · intro op; unfold andOrEquals; simp only [h1, if_true]
    · rw [pb3]; omega
  · by_cases h2 : b.magnitude.length > a.magnitude.length
    · refine ⟨padTo a.magnitude b.magnitude.length, b.magnitude, ?_, pa2, hb, ?_, ?_, pa1, rfl⟩
      · intro op; unfold andOrEquals; simp only [h1, h2, if_true, if_false]
      · rw [pa3]; omega
      · rw [pa3]; omega
    · refine ⟨a.magnitude, b.magnitude, ?_, ha, hb, by omega, le_refl _, rfl, rfl⟩
      intro op; unfold andOrEquals; simp only [h1, h2, if_false]

theorem opAnd_spec (a b : BigInteger) (ha : Canonical a) (hb : Canonical b) :
    Canonical (opAnd a b) ∧
    limbsVal (opAnd a b).magnitude = limbsVal a.magnitude &&& limbsVal b.magnitude ∧
    ((opAnd a b).magnitude ≠ [0] → (opAnd a b).sign = a.sign) := by
  obtain ⟨xs, ys, h0, h1, h2, h3, h4, h5, h6⟩ := andOrEquals_operands a b ha.1 hb.1
  obtain ⟨z1, z2⟩ := zipWith_and_spec xs ys h1 h2 h3
  have hlen := canonical_length_pos ha
  have hne : List.zipWith (fun a b => a &&& b) xs ys ≠ [] := by
    intro h
    have := congrArg List.length h
    rw [List.length_zipWith] at this
    simp only [List.length_nil] at this; omega
  obtain ⟨p1, p2, _, p4⟩ := popLeadingZeros_spec
    { a with magnitude := List.zipWith (fun a b => a &&& b) xs ys } z2 hne
  unfold opAnd opAndAssign
  rw [h0 AndEquals, if_neg (by decide)]
  exact ⟨p1, by rw [p2]; simp only; rw [z1, h5, h6], p4⟩

theorem opOr_spec (a b : BigInteger) (ha : Canonical a) (hb : Canonical b) :
    Canonical (opOr a b) ∧
    limbsVal (opOr a b).magnitude = limbsVal a.magnitude ||| limbsVal b.magnitude ∧
    ((opOr a b).magnitude ≠ [0] → (opOr a b).sign = a.sign) := by
  obtain ⟨xs, ys, h0, h1, h2, h3, h4, h5, h6⟩ := andOrEquals_operands a b ha.1 hb.1
  obtain ⟨z1, z2⟩ := zipWith_or_spec xs ys h1 h2 h3
  have hlen := canonical_length_pos ha
  have hne : List.zipWith (fun a b => a ||| b) xs ys ≠ [] := by
    intro h
    have := congrArg List.length h
    rw [List.length_zipWith] at this
    simp only [List.length_nil] at this; omega
  obtain ⟨p1, p2, _, p4⟩ := popLeadingZeros_spec
    { a with magnitude := List.zipWith (fun a b => a ||| b) xs ys } z2 hne
  unfold opOr opOrAssign
  rw [h0 OrEquals, if_pos rfl]
  exact ⟨p1, by rw [p2]; simp only; rw [z1, h5, h6], p4⟩

/-! ## Multiplication -/

theorem val_eq_applySign (a : BigInteger) : val a = applySign a.sign (limbsVal a.magnitude) := by
  unfold val applySign; cases a.sign <;> rfl

theorem applySign_zero (s : Sign) : applySign s 0 = 0 := by
  cases s <;> simp [applySign]

theorem applySign_add (s : Sign) (m n : Nat) :
    applySign s m + applySign s n = applySign s (m + n) := by
  cases s <;> simp [applySign]; ring

theorem applySign_mul (s t : Sign) (m n : Nat) :
    applySign s m * applySign t n = applySign (signRule s t) (m * n) := by
  cases s <;> cases t <;> simp [applySign, signRule]

theorem applySign_inj {s : Sign} {m n : Nat} (h : applySign s m = applySign s n) : m = n := by
  cases s <;> simp only [applySign] at h <;> omega

theorem val_of_sign_rule {r : BigInteger} {s : Sign} (h : r.magnitude ≠ [0] → r.sign = s) :
    val r = applySign s (limbsVal r.magnitude) := by
  by_cases hz : r.magnitude = [0]
  · rw [val_zero_mag hz, hz]; simp [limbsVal, applySign_zero]
  · rw [val_eq_applySign, h hz]

theorem canonical_of_val_applySign {r : BigInteger} {s : Sign} {n : Nat} (hr : Canonical r)
    (h : val r = applySign s n) :
    limbsVal r.magnitude = n ∧ (r.magnitude ≠ [0] → r.sign = s) := by
  rw [val_eq_applySign] at h
  have hz := canonical_limbsVal_eq_zero hr
  cases hs : r.sign <;> cases s <;> simp only [hs, applySign] at h
  · exact ⟨by omega, fun _ => rfl⟩
  · have h0 : limbsVal r.magnitude = 0 := by omega
    exact ⟨by omega, fun hne => absurd (hz.mp h0) hne⟩
  · have h0 : limbsVal r.magnitude = 0 := by omega
    exact ⟨by omega, fun hne => absurd (hz.mp h0) hne⟩
  · exact ⟨by omega, fun _ => rfl⟩

theorem bigZero_eq : bigZero = ⟨[0], Positive⟩ := by decide

theorem bigOne_eq : bigOne = ⟨[1], Positive⟩ := by decide

theorem minusOne_eq : minusOne = ⟨[1], Negative⟩ := by decide

theorem limbsVal_bigZero : limbsVal bigZero.magnitude = 0 := by decide

theorem opNe_eq_not_opEq (a b : BigInteger) : opNe a b = !opEq a b := by
  unfold opNe opEq
  by_cases h1 : a.magnitude = b.magnitude <;> by_cases h2 : a.sign = b.sign <;> simp [h1, h2]

theorem opEq_iff (a b : BigInteger) : opEq a b = true ↔ a = b := by
  unfold opEq
  cases a; cases b
  simp

theorem opNe_bigZero_iff {x : BigInteger} (hx : Canonical x) :
    opNe x bigZero = true ↔ limbsVal x.magnitude ≠ 0 := by
  rw [opNe_eq_not_opEq, Bool.not_eq_true', ← Bool.not_eq_true, opEq_iff, bigZero_eq]
  constructor
  · intro h h0; apply h
    have hm := (canonical_limbsVal_eq_zero hx).mp h0
    have := hx.2.2 hm
    cases x; simp_all
  · intro h he; apply h; rw [he]; rfl

theorem shiftMeLeft1_canonical {a : BigInteger} (ha : Canonical a) :
    Canonical (shiftMeLeft1 a) ∧
    limbsVal (shiftMeLeft1 a).magnitude = 2 * limbsVal a.magnitude ∧
    (shiftMeLeft1 a).sign = a.sign := by
  obtain ⟨h1, h2, h3, h4⟩ := shiftMeLeft1_spec a ha.1 ha.2.1
  refine ⟨⟨h1, h2, ?_⟩, h3, h4⟩
  intro hz
  rw [h4]
  apply ha.2.2
  apply (canonical_limbsVal_eq_zero ha).mp
  rw [hz] at h3
  simp only [limbsVal] at h3; omega

theorem mod_two_pow_succ_testBit (M i : Nat) :
    M % 2 ^ (i + 1) = M % 2 ^ i + 2 ^ i * (M.testBit i).toNat := by
  rw [Nat.mod_pow_succ, Nat.testBit_to_div_mod]
  rcases Nat.mod_two_eq_zero_or_one (M / 2 ^ i) with h | h <;> simp [h]

/-- One test of a multiplier or dividend bit: `(x & mask) != 0` for `mask = 2^i`. -/
theorem and_mask_ne_zero (x mask : BigInteger) (i : Nat) (hx : Canonical x)
    (hm : Canonical mask) (hv : limbsVal mask.magnitude = 2 ^ i) :
    Canonical (opAnd x mask) ∧
    (limbsVal (opAnd x mask).magnitude ≠ 0 ↔ (limbsVal x.magnitude).testBit i = true) := by
  obtain ⟨h1, h2, _⟩ := opAnd_spec x mask hx hm
  refine ⟨h1, ?_⟩
  rw [h2, hv, Nat.and_two_pow]
  cases (limbsVal x.magnitude).testBit i <;> simp

theorem multiplyLoop_spec (multiplier : BigInteger) (hmul : Canonical multiplier) (A : Nat)
    (s : Sign) : ∀ (n i : Nat) (mask addend product : BigInteger),
    Canonical mask → limbsVal mask.magnitude = 2 ^ i →
    Canonical addend → limbsVal addend.magnitude = A * 2 ^ i → addend.sign = s →
    Canonical product →
    limbsVal product.magnitude = A * (limbsVal multiplier.magnitude % 2 ^ i) →
    (product.magnitude ≠ [0] → product.sign = s) →
    Canonical (multiplyLoop n multiplier mask addend product) ∧
    limbsVal (multiplyLoop n multiplier mask addend product).magnitude =
      A * (limbsVal multiplier.magnitude % 2 ^ (i + n)) ∧
    ((multiplyLoop n multiplier mask addend product).magnitude ≠ [0] →
      (multiplyLoop n multiplier mask addend product).sign = s)
  | 0, i, mask, addend, product, _, _, _, _, _, hp, hpv, hps => by
    simpa [multiplyLoop] using ⟨hp, hpv, hps⟩
  | n + 1, i, mask, addend, product, hm, hmv, ha, hav, has, hp, hpv, hps => by
    obtain ⟨m1, m2, m3⟩ := shiftMeLeft1_canonical hm
    obtain ⟨a1, a2, a3⟩ := shiftMeLeft1_canonical ha
    obtain ⟨t1, t2⟩ := and_mask_ne_zero multiplier mask i hmul hm hmv
    have hmv' : limbsVal (shiftMeLeft1 mask).magnitude = 2 ^ (i + 1) := by
      rw [m2, hmv, pow_succ]; ring
    have hav' : limbsVal (shiftMeLeft1 addend).magnitude = A * 2 ^ (i + 1) := by
      rw [a2, hav, pow_succ]; ring
    have hidx : i + (n + 1) = (i + 1) + n := by omega
    rw [hidx]
    simp only [multiplyLoop]
    by_cases hbit : (limbsVal multiplier.magnitude).testBit i = true
    · have hne : opNe (opAnd multiplier mask) bigZero = true :=
        (opNe_bigZero_iff t1).mpr (t2.mpr hbit)
      rw [if_pos hne]
      obtain ⟨q1, q2⟩ := plusEquals_spec product addend hp ha
      have hq : val (opAddAssign product addend) = applySign s
          (A * (limbsVal multiplier.magnitude % 2 ^ (i + 1))) := by
        unfold opAddAssign
        rw [q2, val_of_sign_rule hps, val_eq_applySign addend, has, applySign_add, hpv, hav,
          mod_two_pow_succ_testBit, hbit]
        congr 1
        simp only [Bool.toNat_true, mul_one]; ring
      obtain ⟨r1, r2⟩ := canonical_of_val_applySign q1 hq
      exact multiplyLoop_spec multiplier hmul A s n (i + 1) _ _ _ m1 hmv' a1 hav'
        (a3.trans has) q1 r1 r2
    · have hne : ¬ opNe (opAnd multiplier mask) bigZero = true := by
        rw [opNe_bigZero_iff t1, t2]; exact fun h => hbit h
      rw [if_neg hne]
      have hbf : (limbsVal multiplier.magnitude).testBit i = false := by simpa using hbit
      have hpv' : limbsVal product.magnitude =
          A * (limbsVal multiplier.magnitude % 2 ^ (i + 1)) := by
        rw [hpv, mod_two_pow_succ_testBit, hbf]; simp
      exact multiplyLoop_spec multiplier hmul A s n (i + 1) _ _ _ m1 hmv' a1 hav'
        (a3.trans has) hp hpv' hps

theorem numBitsOf_eq {a : BigInteger} (h : Addressable a) :
    numBitsOf a = 64 * a.magnitude.length := by
  unfold numBitsOf; unfold Addressable at h; omega

theorem limbsVal_lt_two_pow {m : List Nat} (h : LimbsOk m) :
    limbsVal m < 2 ^ (64 * m.length) := by
  rw [pow_mul]; exact limbsVal_lt h

/-- Sign fix-up shared by `binaryMultiply` and `binaryDivide`. -/
theorem sign_fixup_spec (product : BigInteger) (s t : Sign) (hp : Canonical product) :
    let r := if opNe product bigZero then
        (if s = t then { product with sign := Positive } else { product with sign := Negative })
      else product
    Canonical r ∧ r.magnitude = product.magnitude ∧
    (limbsVal r.magnitude ≠ 0 → r.sign = signRule s t) ∧
    (limbsVal r.magnitude = 0 → r.sign = Positive) := by
  intro r
  by_cases hne : opNe product bigZero = true
  · have hnz := (opNe_bigZero_iff hp).mp hne
    have hm : product.magnitude ≠ [0] := by
      intro h; apply hnz; rw [h]; rfl
    have hr : r = { product with sign := signRule s t } := by
      simp only [r, hne, if_true, signRule]; split <;> rfl
    rw [hr]
    refine ⟨⟨hp.1, hp.2.1, fun h => absurd h hm⟩, rfl, fun _ => rfl, fun h => absurd h hnz⟩
  · have hr : r = product := by simp only [r, hne]; rfl
    have hz : limbsVal product.magnitude = 0 := by
      by_contra h; exact hne ((opNe_bigZero_iff hp).mpr h)
    rw [hr]
    refine ⟨hp, rfl, fun h => absurd hz h, fun _ => ?_⟩
    exact hp.2.2 ((canonical_limbsVal_eq_zero hp).mp hz)

theorem binaryMultiply_spec (a b : BigInteger) (ha : Canonical a) (hb : Canonical b)
    (hsz : Addressable b) :
    Canonical (binaryMultiply a b) ∧
    limbsVal (binaryMultiply a b).magnitude = limbsVal a.magnitude * limbsVal b.magnitude ∧
    (limbsVal (binaryMultiply a b).magnitude ≠ 0 →
      (binaryMultiply a b).sign = signRule b.sign a.sign) ∧
    (limbsVal (binaryMultiply a b).magnitude = 0 → (binaryMultiply a b).sign = Positive) := by
  have key : ∃ product, Canonical product ∧
      limbsVal product.magnitude = limbsVal a.magnitude * limbsVal b.magnitude ∧
      binaryMultiply a b = if opNe product bigZero then
        (if b.sign = a.sign then { product with sign := Positive }
          else { product with sign := Negative })
      else product := by
    unfold binaryMultiply
    simp only
    by_cases hz : (isZero b || isZero a) = true
    · refine ⟨bigZero, by decide, ?_, by rw [if_pos hz]⟩
      rcases Bool.or_eq_true_iff.mp hz with h | h
      · rw [(isZero_iff b).mp h, limbsVal_bigZero]; simp [limbsVal]
      · rw [(isZero_iff a).mp h, limbsVal_bigZero]; simp [limbsVal]
    · by_cases h1 : opEq b bigOne = true
      · refine ⟨a, ha, ?_, by rw [if_neg hz, if_pos h1]⟩
        rw [(opEq_iff _ _).mp h1, bigOne_eq]; simp [limbsVal]
      · by_cases h2 : opEq a bigOne = true
        · refine ⟨b, hb, ?_, by rw [if_neg hz, if_neg h1, if_pos h2]⟩
          rw [(opEq_iff _ _).mp h2, bigOne_eq]; simp [limbsVal]
        · have h0 : Canonical (ofInt 1) := by decide
          have hl := multiplyLoop_spec b hb (limbsVal a.magnitude) a.sign (numBitsOf b) 0
            (ofInt 1) a bigZero h0 (by decide) ha (by simp) rfl (by decide)
            (by rw [limbsVal_bigZero]; simp [Nat.mod_one]) (by intro h; exact absurd rfl h)
          refine ⟨_, hl.1, ?_, by rw [if_neg hz, if_neg h1, if_neg h2]⟩
          rw [hl.2.1, numBitsOf_eq hsz, zero_add, Nat.mod_eq_of_lt (limbsVal_lt_two_pow hb.1)]
  obtain ⟨product, hp, hv, he⟩ := key
  have := sign_fixup_spec product b.sign a.sign hp
  simp only at this
  rw [← he] at this
  obtain ⟨f1, f2, f3, f4⟩ := this
  exact ⟨f1, by rw [f2, hv], f3, f4⟩

theorem signRule_comm (s t : Sign) : signRule s t = signRule t s := by
  cases s <;> cases t <;> rfl

theorem binaryMultiply_val (a b : BigInteger) (ha : Canonical a) (hb : Canonical b)
    (hsz : Addressable b) : val (binaryMultiply a b) = val a * val b := by
  obtain ⟨_, h2, h3, h4⟩ := binaryMultiply_spec a b ha hb hsz
  rw [val_eq_applySign a, val_eq_applySign b, applySign_mul, ← h2, signRule_comm]
  by_cases hz : limbsVal (binaryMultiply a b).magnitude = 0
  · rw [val_eq_applySign, hz, applySign_zero, applySign_zero]
  · rw [val_eq_applySign, h3 hz]

/-! ## Signed comparison -/

theorem canonical_negative_pos {a : BigInteger} (ha : Canonical a) (hs : a.sign = Negative) :
    0 < limbsVal a.magnitude := by
  rcases Nat.eq_zero_or_pos (limbsVal a.magnitude) with h | h
  · have := ha.2.2 ((canonical_limbsVal_eq_zero ha).mp h)
    rw [hs] at this; cases this
  · exact h

theorem compareSignAndMagnitude_spec (a b : BigInteger) (ha : Canonical a) (hb : Canonical b) :
    compareSignAndMagnitude a b = threeWayInt (val a) (val b) := by
  have hcmp := compareMagnitude_spec a b ha hb
  unfold compareSignAndMagnitude
  rcases sign_cases a.sign with sa | sa <;> rcases sign_cases b.sign with sb | sb
  · simp only [sa, sb, hcmp, val_of_positive sa, val_of_positive sb]
    unfold threeWay threeWayInt
    simp only [Nat.cast_lt, gt_iff_lt]
    split_ifs <;> simp_all
  · have := canonical_negative_pos hb sb
    simp only [sa, sb, val_of_positive sa, val_of_negative sb]
    unfold threeWayInt
    have h1 : ¬ ((limbsVal a.magnitude : Int) < - (limbsVal b.magnitude : Int)) := by omega
    have h2 : (limbsVal a.magnitude : Int) > - (limbsVal b.magnitude : Int) := by omega
    simp [h1, h2]
  · have := canonical_negative_pos ha sa
    simp only [sa, sb, val_of_negative sa, val_of_positive sb]
    unfold threeWayInt
    have h1 : (- (limbsVal a.magnitude : Int) < (limbsVal b.magnitude : Int)) := by omega
    simp [h1]
  · simp only [sa, sb, hcmp, val_of_negative sa, val_of_negative sb]
    unfold threeWay threeWayInt
    rcases Nat.lt_trichotomy (limbsVal a.magnitude) (limbsVal b.magnitude) with h | h | h
    · have h1 : ¬ (-(limbsVal a.magnitude : Int) < -(limbsVal b.magnitude : Int)) := by omega
      have h2 : (-(limbsVal a.magnitude : Int) > -(limbsVal b.magnitude : Int)) := by omega
      simp [h, h1, h2]
    · simp [h]
    · have h1 : (-(limbsVal a.magnitude : Int) < -(limbsVal b.magnitude : Int)) := by omega
      have h2 : ¬ (limbsVal a.magnitude < limbsVal b.magnitude) := by omega
      simp [h, h1, h2]

theorem threeWayInt_eq_larger (m n : Int) : threeWayInt m n = Arg1Larger ↔ n < m := by
  unfold threeWayInt; split_ifs <;> simp <;> omega

theorem threeWayInt_eq_smaller (m n : Int) : threeWayInt m n = Arg1Smaller ↔ m < n := by
  unfold threeWayInt; split_ifs <;> simp <;> omega

theorem opGt_iff (a b : BigInteger) (ha : Canonical a) (hb : Canonical b) :
    opGt a b = true ↔ val b < val a := by
  unfold opGt
  rw [decide_eq_true_iff, compareSignAndMagnitude_spec a b ha hb, threeWayInt_eq_larger]

theorem opLt_iff (a b : BigInteger) (ha : Canonical a) (hb : Canonical b) :
    opLt a b = true ↔ val a < val b := by
  unfold opLt
  rw [decide_eq_true_iff, compareSignAndMagnitude_spec a b ha hb, threeWayInt_eq_smaller]

theorem opGe_iff (a b : BigInteger) (ha : Canonical a) (hb : Canonical b) :
    opGe a b = true ↔ val b ≤ val a := by
  unfold opGe
  rw [decide_eq_true_iff, compareSignAndMagnitude_spec a b ha hb, Ne, threeWayInt_eq_smaller]
  omega

theorem opLe_iff (a b : BigInteger) (ha : Canonical a) (hb : Canonical b) :
    opLe a b = true ↔ val a ≤ val b := by
  unfold opLe
  rw [decide_eq_true_iff, compareSignAndMagnitude_spec a b ha hb, Ne, threeWayInt_eq_larger]
  omega

theorem opEq_iff_val (a b : BigInteger) (ha : Canonical a) (hb : Canonical b) :
    opEq a b = true ↔ val a = val b := by
  rw [opEq_iff]
  exact ⟨fun h => by rw [h], canonical_inj ha hb⟩

/-! ## Shifts by a BigInteger amount -/

theorem canonical_of_nat_val {a : BigInteger} {k : Nat} (ha : Canonical a)
    (h : val a = (k : Int)) : a.sign = Positive ∧ limbsVal a.magnitude = k := by
  have h2 : val a = applySign Positive k := by rw [h]; rfl
  obtain ⟨h3, h4⟩ := canonical_of_val_applySign ha h2
  refine ⟨?_, h3⟩
  by_cases hz : a.magnitude = [0]
  · exact ha.2.2 hz
  · exact h4 hz

theorem val_ofInt_zero : val (ofInt 0) = 0 := by decide

theorem val_minusOne : val minusOne = -1 := by decide

theorem shiftLeftAssignLoop_spec : ∀ (k fuel : Nat) (self amt : BigInteger),
    Canonical amt → val amt = (k : Int) → k < fuel →
    shiftLeftAssignLoop fuel self amt = some (shiftMeLeft1^[k] self)
  | _, 0, _, _, _, _, hf => by omega
  | 0, fuel + 1, self, amt, hc, hv, _ => by
    have hgt : ¬ opGt amt (ofInt 0) = true := by
      rw [opGt_iff amt (ofInt 0) hc (by decide), hv, val_ofInt_zero]; simp
    simp [shiftLeftAssignLoop, postDecrement, hgt]
  | k + 1, fuel + 1, self, amt, hc, hv, hf => by
    have hgt : opGt amt (ofInt 0) = true := by
      rw [opGt_iff amt (ofInt 0) hc (by decide), hv, val_ofInt_zero]; omega
    obtain ⟨d1, d2⟩ := plusEquals_spec amt minusOne hc (by decide)
    have hv' : val (plusEquals amt minusOne) = (k : Int) := by
      rw [d2, hv, val_minusOne]; push_cast; ring
    have ih := shiftLeftAssignLoop_spec k fuel (shiftMeLeft1 self) _ d1 hv' (by omega)
    simp only [shiftLeftAssignLoop, postDecrement, hgt, if_true, ih, Function.iterate_succ,
      Function.comp_apply]

theorem shiftRightAssignLoop_spec : ∀ (k fuel : Nat) (self amt : BigInteger),
    Canonical amt → val amt = (k : Int) → k < fuel →
    shiftRightAssignLoop fuel self amt = some (shiftMeRight1^[k] self)
  | _, 0, _, _, _, _, hf => by omega
  | 0, fuel + 1, self, amt, hc, hv, _ => by
    have hgt : ¬ opGt amt (ofInt 0) = true := by
      rw [opGt_iff amt (ofInt 0) hc (by decide), hv, val_ofInt_zero]; simp
    simp [shiftRightAssignLoop, postDecrement, hgt]
  | k + 1, fuel + 1, self, amt, hc, hv, hf => by
    have hgt : opGt amt (ofInt 0) = true := by
      rw [opGt_iff amt (ofInt 0) hc (by decide), hv, val_ofInt_zero]; omega
    obtain ⟨d1, d2⟩ := plusEquals_spec amt minusOne hc (by decide)
    have hv' : val (plusEquals amt minusOne) = (k : Int) := by
      rw [d2, hv, val_minusOne]; push_cast; ring
    have ih := shiftRightAssignLoop_spec k fuel (shiftMeRight1 self) _ d1 hv' (by omega)
    simp only [shiftRightAssignLoop, postDecrement, hgt, if_true, ih, Function.iterate_succ,
      Function.comp_apply]

/-- A shift by a canonical amount `N ≥ 0` is `N` single-bit shifts. -/
theorem opShl_nonneg (self amt : BigInteger) (k : Nat) (hc : Canonical amt)
    (hv : val amt = (k : Int)) : opShl self amt = some (shiftMeLeft1^[k] self) := by
  unfold opShl opShlAssign shiftFuel
  have := (canonical_of_nat_val hc hv).2
  exact shiftLeftAssignLoop_spec k _ self amt hc hv (by omega)

theorem opShr_nonneg (self amt : BigInteger) (k : Nat) (hc : Canonical amt)
    (hv : val amt = (k : Int)) : opShr self amt = some (shiftMeRight1^[k] self) := by
  unfold opShr opShrAssign shiftFuel
  have := (canonical_of_nat_val hc hv).2
  exact shiftRightAssignLoop_spec k _ self amt hc hv (by omega)

theorem iterate_shiftMeLeft1_spec (a : BigInteger) (ha : Canonical a) : ∀ k : Nat,
    Canonical (shiftMeLeft1^[k] a) ∧
    limbsVal (shiftMeLeft1^[k] a).magnitude = 2 ^ k * limbsVal a.magnitude ∧
    (shiftMeLeft1^[k] a).sign = a.sign
  | 0 => by simpa using ha
  | k + 1 => by
    obtain ⟨h1, h2, h3⟩ := iterate_shiftMeLeft1_spec a ha k
    obtain ⟨s1, s2, s3⟩ := shiftMeLeft1_canonical h1
    rw [Function.iterate_succ_apply']
    refine ⟨s1, ?_, s3.trans h3⟩
    rw [s2, h2, pow_succ]; ring

theorem canonical_ofULongLong (v : Nat) : Canonical (ofULongLong v) ∧
    val (ofULongLong v) = ((v % 2 ^ 64 : Nat) : Int) := by
  unfold ofULongLong CHUNK_MOD
  refine ⟨⟨?_, ⟨by simp, by simp⟩, fun _ => rfl⟩, ?_⟩
  · intro x hx
    simp only [List.mem_singleton] at hx
    rw [hx]; exact Nat.mod_lt _ (by norm_num)
  · simp [val, limbsVal]

/-! ## Division -/

theorem div_two_pow_step (D p : Nat) :
    D / 2 ^ p = 2 * (D / 2 ^ (p + 1)) + (D.testBit p).toNat := by
  have h1 : D / 2 ^ (p + 1) = D / 2 ^ p / 2 := by
    rw [pow_succ, Nat.div_div_eq_div_mul]
  rw [h1, Nat.testBit_to_div_mod]
  rcases Nat.mod_two_eq_zero_or_one (D / 2 ^ p) with h | h <;> simp [h] <;> omega

theorem restoring_step (N d bit : Nat) (hd : 0 < d) :
    (d ≤ 2 * (N % d) + bit → bit ≤ 1 →
      (2 * N + bit) / d = 2 * (N / d) + 1 ∧ (2 * N + bit) % d = 2 * (N % d) + bit - d) ∧
    (2 * (N % d) + bit < d →
      (2 * N + bit) / d = 2 * (N / d) ∧ (2 * N + bit) % d = 2 * (N % d) + bit) := by
  have hN := Nat.div_add_mod N d
  have hr := Nat.mod_lt N hd
  constructor
  · intro h hb
    rw [Nat.div_mod_unique hd]
    refine ⟨?_, by omega⟩
    have : d * (2 * (N / d) + 1) = 2 * (d * (N / d)) + d := by ring
    rw [this]; omega
  · intro h
    rw [Nat.div_mod_unique hd]
    refine ⟨?_, h⟩
    have : d * (2 * (N / d)) = 2 * (d * (N / d)) := by ring
    rw [this]; omega

theorem canonical_sign_positive {r : BigInteger} (hr : Canonical r)
    (h : r.magnitude ≠ [0] → r.sign = Positive) : r.sign = Positive := by
  by_cases hz : r.magnitude = [0]
  · exact hr.2.2 hz
  · exact h hz

theorem isZero_eq_false_iff {a : BigInteger} (ha : Canonical a) :
    (!isZero a) = true ↔ limbsVal a.magnitude ≠ 0 := by
  rw [Bool.not_eq_true', ← Bool.not_eq_true, isZero_iff]
  exact (canonical_limbsVal_eq_zero ha).not.symm

theorem shiftMeRight1_canonical {a : BigInteger} (ha : Canonical a)
    (hv : 2 ≤ limbsVal a.magnitude) :
    Canonical (shiftMeRight1 a) ∧
    limbsVal (shiftMeRight1 a).magnitude = limbsVal a.magnitude / 2 := by
  obtain ⟨h1, h2, h3, _⟩ := shiftMeRight1_spec a ha.1 ha.2.1
  refine ⟨⟨h1, h2, ?_⟩, h3⟩
  intro hz
  rw [hz] at h3
  simp only [limbsVal] at h3; omega

theorem canonical_bigOne : Canonical bigOne := by decide

theorem limbsVal_bigOne : limbsVal bigOne.magnitude = 1 := by decide

/-- The restoring loop computes quotient and remainder of the magnitudes when the divisor is
positive; the sign of the dividend plays no part in it. -/
theorem divideLoop_spec (dividend divisor : BigInteger) (hD : Canonical dividend)
    (hd : Canonical divisor) (hds : divisor.sign = Positive)
    (hdpos : 0 < limbsVal divisor.magnitude) :
    ∀ (i : Nat) (mask remainder quotient : BigInteger),
    Canonical mask → limbsVal mask.magnitude = 2 ^ i →
    Canonical remainder → remainder.sign = Positive →
    limbsVal remainder.magnitude =
      (limbsVal dividend.magnitude / 2 ^ i) % limbsVal divisor.magnitude →
    Canonical quotient → quotient.sign = Positive →
    limbsVal quotient.magnitude =
      (limbsVal dividend.magnitude / 2 ^ i) / limbsVal divisor.magnitude * 2 ^ i →
    Canonical (divideLoop i dividend divisor mask remainder quotient).1 ∧
    Canonical (divideLoop i dividend divisor mask remainder quotient).2 ∧
    (divideLoop i dividend divisor mask remainder quotient).1.sign = Positive ∧
    (divideLoop i dividend divisor mask remainder quotient).2.sign = Positive ∧
    limbsVal (divideLoop i dividend divisor mask remainder quotient).1.magnitude =
      limbsVal dividend.magnitude / limbsVal divisor.magnitude ∧
    limbsVal (divideLoop i dividend divisor mask remainder quotient).2.magnitude =
      limbsVal dividend.magnitude % limbsVal divisor.magnitude
  | 0, mask, remainder, quotient, _, _, hr, hrs, hrv, hq, hqs, hqv => by
    simp only [divideLoop]
    simp only [pow_zero, Nat.div_one, mul_one] at hrv hqv
    exact ⟨hq, hr, hqs, hrs, hqv, hrv⟩
  | p + 1, mask, remainder, quotient, hm, hmv, hr, hrs, hrv, hq, hqs, hqv => by
    -- remainder.shiftMeLeft1()
    obtain ⟨r1c, r1v, r1s⟩ := shiftMeLeft1_canonical hr
    -- mask.shiftMeRight1()
    have hm2 : 2 ≤ limbsVal mask.magnitude := by
      rw [hmv, pow_succ]; have := Nat.one_le_two_pow (n := p); omega
    obtain ⟨m1c, m1v⟩ := shiftMeRight1_canonical hm hm2
    have m1v' : limbsVal (shiftMeRight1 mask).magnitude = 2 ^ p := by
      rw [m1v, hmv, pow_succ]; omega
    -- the dividend bit
    obtain ⟨t1, t2⟩ := and_mask_ne_zero dividend (shiftMeRight1 mask) p hD m1c m1v'
    have hstep := div_two_pow_step (limbsVal dividend.magnitude) p
    have hbit1 : ((limbsVal dividend.magnitude).testBit p).toNat ≤ 1 := Bool.toNat_le _
    -- remainder |= bigOne
    have hr2 : ∃ r2 : BigInteger, r2 = (if (!isZero (opAnd dividend (shiftMeRight1 mask))) = true
          then opOrAssign (shiftMeLeft1 remainder) bigOne else shiftMeLeft1 remainder) ∧
        Canonical r2 ∧ r2.sign = Positive ∧ limbsVal r2.magnitude =
          2 * ((limbsVal dividend.magnitude / 2 ^ (p + 1)) % limbsVal divisor.magnitude) +
            ((limbsVal dividend.magnitude).testBit p).toNat := by
      refine ⟨_, rfl, ?_⟩
      by_cases hb : (limbsVal dividend.magnitude).testBit p = true
      · have hnz : (!isZero (opAnd dividend (shiftMeRight1 mask))) = true :=
          (isZero_eq_false_iff t1).mpr (t2.mpr hb)
        rw [if_pos hnz]
        obtain ⟨o1, o2, o3⟩ := opOr_spec (shiftMeLeft1 remainder) bigOne r1c canonical_bigOne
        refine ⟨o1, canonical_sign_positive o1 (fun h => (o3 h).trans (r1s.trans hrs)), ?_⟩
        show limbsVal (opOr (shiftMeLeft1 remainder) bigOne).magnitude = _
        rw [o2, r1v, limbsVal_bigOne, hrv, hb]
        have := Nat.mul_add_lt_is_or (i := 1) (b := 1) (by norm_num)
          ((limbsVal dividend.magnitude / 2 ^ (p + 1)) % limbsVal divisor.magnitude)
        simp only [pow_one] at this
        rw [← this]; simp
      · have hnz : ¬ (!isZero (opAnd dividend (shiftMeRight1 mask))) = true := by
          rw [isZero_eq_false_iff t1, t2]; exact hb
        rw [if_neg hnz]
        have hbf : (limbsVal dividend.magnitude).testBit p = false := by simpa using hb
        refine ⟨r1c, r1s.trans hrs, ?_⟩
        rw [r1v, hrv, hbf]; simp
    obtain ⟨r2, hr2e, r2c, r2s, r2v⟩ := hr2
    have hrest := restoring_step (limbsVal dividend.magnitude / 2 ^ (p + 1))
      (limbsVal divisor.magnitude) ((limbsVal dividend.magnitude).testBit p).toNat hdpos
    simp only [divideLoop]
    rw [← hr2e]
    by_cases hge : opGe r2 divisor = true
    · rw [if_pos hge]
      have hge' : limbsVal divisor.magnitude ≤ limbsVal r2.magnitude := by
        have := (opGe_iff r2 divisor r2c hd).mp hge
        rw [val_of_positive r2s, val_of_positive hds] at this
        exact_mod_cast this
      obtain ⟨e1, e2⟩ := hrest.1 (by rw [← r2v]; exact hge') hbit1
      -- remainder -= divisor
      obtain ⟨n1, n2, _⟩ := opNeg_spec divisor hd
      obtain ⟨s1, s2⟩ := plusEquals_spec r2 (opNeg divisor) r2c n1
      have hsv : val (opSubAssign r2 divisor) =
          ((limbsVal r2.magnitude - limbsVal divisor.magnitude : Nat) : Int) := by
        unfold opSubAssign
        rw [s2, n2, val_of_positive r2s, val_of_positive hds]
        omega
      obtain ⟨s3, s4⟩ := canonical_of_nat_val s1 hsv
      -- quotient |= mask
      obtain ⟨q1, q2, q3⟩ := opOr_spec quotient (shiftMeRight1 mask) hq m1c
      have q4 := canonical_sign_positive q1 (fun h => (q3 h).trans hqs)
      apply divideLoop_spec dividend divisor hD hd hds hdpos p _ _ _ m1c m1v' s1 s3 _ q1 q4
      · show limbsVal (opOr quotient (shiftMeRight1 mask)).magnitude = _
        rw [q2, hqv, m1v', hstep, e1]
        have := Nat.mul_add_lt_is_or (i := p + 1) (b := 2 ^ p)
          (by rw [pow_succ]; have := Nat.one_le_two_pow (n := p); omega)
          (limbsVal dividend.magnitude / 2 ^ (p + 1) / limbsVal divisor.magnitude)
        rw [Nat.mul_comm] at this
        rw [← this, pow_succ]; ring
      · rw [s4, hstep, e2, r2v]
    · rw [if_neg hge]
      have hlt : limbsVal r2.magnitude < limbsVal divisor.magnitude := by
        have := mt (opGe_iff r2 divisor r2c hd).mpr hge
        rw [val_of_positive r2s, val_of_positive hds] at this
        omega
      obtain ⟨e1, e2⟩ := hrest.2 (by rw [← r2v]; exact hlt)
      apply divideLoop_spec dividend divisor hD hd hds hdpos p _ _ _ m1c m1v' r2c r2s _ hq hqs
      · rw [hqv, hstep, e1, pow_succ]; ring
      · rw [r2v, hstep, e2]

theorem mask_shift_total (n : Nat) :
    opShl bigOne (ofULongLong n) = some (shiftMeLeft1^[n % 2 ^ 64] bigOne) := by
  obtain ⟨h1, h2⟩ := canonical_ofULongLong n
  exact opShl_nonneg bigOne (ofULongLong n) (n % 2 ^ 64) h1 h2

/-- Embedding of `binaryDivide` throws exactly when `isZero(divisor)`; otherwise it returns. -/
theorem binaryDivide_total (a d : BigInteger) :
    (isZero d = true → binaryDivide a d = .error "divide by zero") ∧
    (isZero d = false → ∃ q r, binaryDivide a d = .ok (q, r)) := by
  constructor
  · intro h; unfold binaryDivide; simp only [h, if_true]
  · intro h
    unfold binaryDivide
    simp only [h, Bool.false_eq_true, if_false]
    by_cases h1 : isZero a = true
    · exact ⟨_, _, by rw [if_pos h1]⟩
    · rw [if_neg h1]
      by_cases h2 : opEq a d = true
      · exact ⟨_, _, by rw [if_pos h2]⟩
      · rw [if_neg h2, mask_shift_total]
        exact ⟨_, _, rfl⟩

theorem canonical_bigZero : Canonical bigZero := by decide

theorem binaryDivide_spec (a d : BigInteger) (ha : Canonical a) (hd : Canonical d)
    (hds : d.sign = Positive) (hdpos : 0 < limbsVal d.magnitude) (hsz : Addressable a) :
    ∃ q r, binaryDivide a d = .ok (q, r) ∧ Canonical q ∧ Canonical r ∧ r.sign = Positive ∧
      limbsVal q.magnitude = limbsVal a.magnitude / limbsVal d.magnitude ∧
      limbsVal r.magnitude = limbsVal a.magnitude % limbsVal d.magnitude ∧
      (limbsVal q.magnitude ≠ 0 → q.sign = signRule a.sign d.sign) ∧
      (limbsVal q.magnitude = 0 → q.sign = Positive) := by
  have hzd : ¬ isZero d = true := by
    intro h; rw [(isZero_iff d).mp h] at hdpos; simp [limbsVal] at hdpos
  unfold binaryDivide
  simp only
  rw [if_neg hzd]
  by_cases h1 : isZero a = true
  · rw [if_pos h1]
    have h0 : limbsVal a.magnitude = 0 := by rw [(isZero_iff a).mp h1]; rfl
    refine ⟨bigZero, bigZero, rfl, canonical_bigZero, canonical_bigZero, by decide, ?_, ?_,
      fun h => absurd limbsVal_bigZero h, fun _ => by decide⟩
    · rw [limbsVal_bigZero, h0]; simp
    · rw [limbsVal_bigZero, h0]; simp
  rw [if_neg h1]
  by_cases h2 : opEq a d = true
  · rw [if_pos h2]
    have he := (opEq_iff a d).mp h2
    refine ⟨bigOne, bigZero, rfl, canonical_bigOne, canonical_bigZero, by decide, ?_, ?_,
      fun _ => ?_, fun h => ?_⟩
    · rw [limbsVal_bigOne, he, Nat.div_self hdpos]
    · rw [limbsVal_bigZero, he, Nat.mod_self]
    · rw [he]; simp [signRule]; decide
    · rw [limbsVal_bigOne] at h; cases h
  rw [if_neg h2, mask_shift_total]
  simp only
  have hnb : numBitsOf a % 2 ^ 64 = numBitsOf a := by
    unfold numBitsOf; omega
  rw [hnb]
  obtain ⟨k1, k2, _⟩ := iterate_shiftMeLeft1_spec bigOne canonical_bigOne (numBitsOf a)
  rw [limbsVal_bigOne, mul_one] at k2
  have hsmall : limbsVal a.magnitude / 2 ^ numBitsOf a = 0 := by
    rw [numBitsOf_eq hsz]
    exact Nat.div_eq_of_lt (limbsVal_lt_two_pow ha.1)
  have hz0 : ofInt 0 = bigZero := rfl
  obtain ⟨l1, l2, l3, l4, l5, l6⟩ := divideLoop_spec a d ha hd hds hdpos (numBitsOf a)
    (shiftMeLeft1^[numBitsOf a] bigOne) bigZero (ofInt 0) k1 k2 canonical_bigZero
    (by decide) (by rw [hsmall, limbsVal_bigZero]; simp) (by rw [hz0]; exact canonical_bigZero)
    (by decide) (by rw [hsmall, hz0, limbsVal_bigZero]; simp)
  have hf := sign_fixup_spec _ a.sign d.sign l1
  simp only at hf
  obtain ⟨f1, f2, f3, f4⟩ := hf
  exact ⟨_, _, rfl, f1, l2, l4, by rw [f2, l5], l6, f3, f4⟩

theorem opDiv_eq (a d q r : BigInteger) (h : binaryDivide a d = .ok (q, r)) :
    opDiv a d = .ok q ∧ opMod a d = .ok r ∧ opDivAssign a d = (q, .ok q) ∧
    opModAssign a d = (r, .ok r) := by
  unfold opDiv opMod opDivAssign opModAssign
  rw [h]
  exact ⟨rfl, rfl, rfl, rfl⟩

/-! ## Parsing -/

theorem char_eq_of_toNat {c : Char} {n : Nat} (h : c.toNat = n) : c = Char.ofNat n := by
  rw [← h, Char.ofNat_toNat]

theorem digitOfChar_spec (c : Char) (radix : Int)
    (hr : radix = 8 ∨ radix = 10 ∨ radix = 16) :
    digitOfChar c radix =
      if validDigit radix c then some ⟨[digitValue c], Positive⟩ else none := by
  by_cases h : 48 ≤ c.toNat ∧ c.toNat ≤ 57
  · obtain ⟨h1, h2⟩ := h
    interval_cases hn : c.toNat <;> rw [char_eq_of_toNat hn] <;>
      rcases hr with rfl | rfl | rfl <;> decide
  · by_cases h' : 97 ≤ c.toNat ∧ c.toNat ≤ 102
    · obtain ⟨h1, h2⟩ := h'
      interval_cases hn : c.toNat <;> rw [char_eq_of_toNat hn] <;>
        rcases hr with rfl | rfl | rfl <;> decide
    · by_cases h'' : 65 ≤ c.toNat ∧ c.toNat ≤ 70
      · obtain ⟨h1, h2⟩ := h''
        interval_cases hn : c.toNat <;> rw [char_eq_of_toNat hn] <;>
          rcases hr with rfl | rfl | rfl <;> decide
      · have hv : validDigit radix c = false := by
          unfold validDigit
          rcases hr with rfl | rfl | rfl <;> simp <;> omega
        rw [hv]
        unfold digitOfChar
        have e : ∀ (d : Char), (48 ≤ d.toNat ∧ d.toNat ≤ 57) ∨ (97 ≤ d.toNat ∧ d.toNat ≤ 102) ∨
            (65 ≤ d.toNat ∧ d.toNat ≤ 70) → c ≠ d := by
          intro d hd hcd
          rw [hcd] at h h' h''
          omega
        rw [if_neg (e '0' (by decide)), if_neg (e '1' (by decide)), if_neg (e '2' (by decide)),
          if_neg (e '3' (by decide)), if_neg (e '4' (by decide)), if_neg (e '5' (by decide)),
          if_neg (e '6' (by decide)), if_neg (e '7' (by decide)), if_neg (e '8' (by decide)),
          if_neg (e '9' (by decide)),
          if_neg (not_or.mpr ⟨e 'a' (by decide), e 'A' (by decide)⟩),
          if_neg (not_or.mpr ⟨e 'b' (by decide), e 'B' (by decide)⟩),
          if_neg (not_or.mpr ⟨e 'c' (by decide), e 'C' (by decide)⟩),
          if_neg (not_or.mpr ⟨e 'd' (by decide), e 'D' (by decide)⟩),
          if_neg (not_or.mpr ⟨e 'e' (by decide), e 'E' (by decide)⟩),
          if_neg (not_or.mpr ⟨e 'f' (by decide), e 'F' (by decide)⟩)]
        rfl

theorem digitValue_lt (c : Char) : digitValue c < 16 := by
  unfold digitValue; split_ifs <;> omega

theorem canonical_single (n : Nat) (h : n < 2 ^ 64) : Canonical ⟨[n], Positive⟩ := by
  refine ⟨?_, ⟨by simp, by simp⟩, fun _ => rfl⟩
  intro x hx
  simp only [List.mem_singleton] at hx
  rw [hx]; exact h

theorem ofInt_radix (radix : Int) (hr : radix = 8 ∨ radix = 10 ∨ radix = 16) :
    Canonical (ofInt radix) ∧ Addressable (ofInt radix) ∧ (ofInt radix).sign = Positive ∧
    (limbsVal (ofInt radix).magnitude : Int) = radix := by
  rcases hr with rfl | rfl | rfl <;> decide

/-- The loop of `strToBigInteger` is Horner accumulation over the longest valid prefix. -/
theorem strLoop_spec (radix : Int) (hr : radix = 8 ∨ radix = 10 ∨ radix = 16) :
    ∀ (cs : List Char) (self : BigInteger), Canonical self → self.sign = Positive →
    Canonical (strLoop radix (ofInt radix) cs self) ∧
    (strLoop radix (ofInt radix) cs self).sign = Positive ∧
    limbsVal (strLoop radix (ofInt radix) cs self).magnitude =
      limbsVal self.magnitude * radix.toNat ^ (cs.takeWhile (validDigit radix)).length +
        positional radix.toNat (cs.takeWhile (validDigit radix))
  | [], self, hc, hs => by simp [strLoop, positional, hc, hs]
  | c :: cs, self, hc, hs => by
    obtain ⟨r1, r2, r3, r4⟩ := ofInt_radix radix hr
    have hrn : limbsVal (ofInt radix).magnitude = radix.toNat := by omega
    simp only [strLoop]
    rw [digitOfChar_spec c radix hr]
    by_cases hv : validDigit radix c = true
    · rw [if_pos hv, List.takeWhile_cons_of_pos hv]
      simp only
      have dcan := canonical_single (digitValue c) (by have := digitValue_lt c; omega)
      obtain ⟨m1, _⟩ := binaryMultiply_spec self (ofInt radix) hc r1 r2
      have mv := binaryMultiply_val self (ofInt radix) hc r1 r2
      obtain ⟨p1, p2⟩ := plusEquals_spec (binaryMultiply self (ofInt radix))
        ⟨[digitValue c], Positive⟩ m1 dcan
      have hval : val (opAddAssign (opMulAssign self (ofInt radix)) ⟨[digitValue c], Positive⟩)
          = ((limbsVal self.magnitude * radix.toNat + digitValue c : Nat) : Int) := by
        show val (plusEquals (binaryMultiply self (ofInt radix)) ⟨[digitValue c], Positive⟩) = _
        rw [p2, mv, val_of_positive hs, val_of_positive r3, hrn]
        simp [val, limbsVal]
      obtain ⟨n1, n2⟩ := canonical_of_nat_val p1 hval
      obtain ⟨i1, i2, i3⟩ := strLoop_spec radix hr cs _ p1 n1
      refine ⟨i1, i2, ?_⟩
      show limbsVal (strLoop radix (ofInt radix) cs (plusEquals
        (binaryMultiply self (ofInt radix)) ⟨[digitValue c], Positive⟩)).magnitude = _
      rw [i3, n2]
      simp only [List.length_cons, positional, pow_succ]
      ring
    · rw [if_neg hv, List.takeWhile_cons_of_neg hv]
      simp [positional, hc, hs]

/-- Parsing a string shorter than `2^32` characters from a start index in the range of
`unsigned`: the magnitude is the positional value of the longest prefix of `s[start..]` made of
digits valid for the radix, and the sign is the requested one unless that value is zero. -/
theorem strToBigInteger_horner (s : String) (radix : Int) (start : Nat) (signArg : Sign)
    (hr : radix = 8 ∨ radix = 10 ∨ radix = 16) (hlen : s.length < 2 ^ 32)
    (hstart : start < 2 ^ 32) :
    Canonical (strToBigInteger s radix start signArg) ∧
    limbsVal (strToBigInteger s radix start signArg).magnitude =
      positional radix.toNat ((s.data.drop start).takeWhile (validDigit radix)) ∧
    (positional radix.toNat ((s.data.drop start).takeWhile (validDigit radix)) = 0 →
      (strToBigInteger s radix start signArg).sign = Positive) ∧
    (positional radix.toNat ((s.data.drop start).takeWhile (validDigit radix)) ≠ 0 →
      (strToBigInteger s radix start signArg).sign = signArg) := by
  have hidx : ((start : Int) % 2 ^ 32).toNat = start := by omega
  have hl : s.length % 2 ^ 32 = s.length := Nat.mod_eq_of_lt hlen
  have htake : s.data.take s.length = s.data := List.take_length _
  obtain ⟨l1, l2, l3⟩ := strLoop_spec radix hr (s.data.drop start) makeZero (by decide) rfl
  have hz : limbsVal makeZero.magnitude = 0 := rfl
  rw [hz, zero_mul, zero_add] at l3
  unfold strToBigInteger
  simp only [hidx, hl, htake]
  by_cases hzero : isZero (strLoop radix (ofInt radix) (s.data.drop start) makeZero) = true
  · rw [if_pos hzero]
    have hm := (isZero_iff _).mp hzero
    have h0 : positional radix.toNat ((s.data.drop start).takeWhile (validDigit radix)) = 0 := by
      rw [← l3, hm]; rfl
    refine ⟨⟨l1.1, l1.2.1, fun _ => rfl⟩, l3, fun _ => rfl, fun h => absurd h0 h⟩
  · rw [if_neg hzero]
    have hm : (strLoop radix (ofInt radix) (s.data.drop start) makeZero).magnitude ≠ [0] :=
      fun h => hzero ((isZero_iff _).mpr h)
    have hnz : positional radix.toNat ((s.data.drop start).takeWhile (validDigit radix)) ≠ 0 := by
      rw [← l3]
      exact fun h => hm ((canonical_limbsVal_eq_zero l1).mp h)
    refine ⟨⟨l1.1, l1.2.1, fun h => absurd h hm⟩, l3, fun h => absurd h hnz, fun _ => rfl⟩

/-! ## Formatting -/

theorem wrapSigned_small (x : Nat) (h : x < 2 ^ 31) : wrapSigned 32 (x : Int) = (x : Int) := by
  unfold wrapSigned
  norm_num
  omega

theorem magnitude_of_small {r : BigInteger} (hr : Canonical r) {k : Nat} (hk : k < 2 ^ 64)
    (hv : limbsVal r.magnitude = k) : r.magnitude = [k] := by
  have c := canonical_single k hk
  exact magCanonical_inj hr.1 c.1 hr.2.1 c.2.1 (by rw [hv]; simp [limbsVal])

theorem length_le_of_val_le {a b : BigInteger} (ha : Canonical a) (hb : Canonical b)
    (h : limbsVal a.magnitude ≤ limbsVal b.magnitude) :
    a.magnitude.length ≤ b.magnitude.length := by
  by_contra hcon
  have := limbsVal_lt_of_length_lt hb.1 hb.2.1 ha.2.1 (by omega)
  omega

/-- The digit loop of `printOn` pushes the base-`radix` digits of the magnitude, least
significant first, and stops when the working value is zero. -/
theorem digitLoop_spec (radix : Int) (hr : radix = 8 ∨ radix = 10 ∨ radix = 16) :
    ∀ (fuel : Nat) (tmp : BigInteger) (digitStack : List Int),
    Canonical tmp → Addressable tmp → limbsVal tmp.magnitude < 2 ^ fuel →
    digitLoop (fuel + 1) tmp (ofInt radix) digitStack =
      .ok (((Nat.digits radix.toNat (limbsVal tmp.magnitude)).reverse.map Int.ofNat) ++
        digitStack) := by
  obtain ⟨r1, _, r3, r4⟩ := ofInt_radix radix hr
  have hrn : limbsVal (ofInt radix).magnitude = radix.toNat := by omega
  have hr2 : 2 ≤ radix.toNat ∧ radix.toNat ≤ 16 := by omega
  intro fuel
  induction fuel with
  | zero =>
    intro tmp st hc _ hlt
    have h0 : limbsVal tmp.magnitude = 0 := by omega
    have hz : isZero tmp = true := (isZero_iff tmp).mpr ((canonical_limbsVal_eq_zero hc).mp h0)
    simp [digitLoop, hz, h0]
  | succ f ih =>
    intro tmp st hc hsz hlt
    by_cases h0 : limbsVal tmp.magnitude = 0
    · have hz : isZero tmp = true :=
        (isZero_iff tmp).mpr ((canonical_limbsVal_eq_zero hc).mp h0)
      simp [digitLoop, hz, h0]
    · have hz : (!isZero tmp) = true := (isZero_eq_false_iff hc).mpr h0
      obtain ⟨q, r, hq, q1, rc, _, q3, rv, _, _⟩ :=
        binaryDivide_spec tmp (ofInt radix) hc r1 r3 (by omega) hsz
      rw [hrn] at q3 rv
      have hrlt : limbsVal tmp.magnitude % radix.toNat < 16 := by
        have := Nat.mod_lt (limbsVal tmp.magnitude) (show 0 < radix.toNat by omega)
        omega
      have hmag := magnitude_of_small rc (by omega) rv
      have hqle : limbsVal q.magnitude ≤ limbsVal tmp.magnitude := by
        rw [q3]; exact Nat.div_le_self _ _
      have hqsz : Addressable q := by
        have := length_le_of_val_le q1 hc hqle
        unfold Addressable at hsz ⊢; omega
      have hqlt : limbsVal q.magnitude < 2 ^ f := by
        rw [q3]
        have h1 : limbsVal tmp.magnitude / radix.toNat ≤ limbsVal tmp.magnitude / 2 :=
          Nat.div_le_div_left hr2.1 (by norm_num)
        rw [pow_succ] at hlt
        omega
      have hdig : Nat.digits radix.toNat (limbsVal tmp.magnitude) =
          (limbsVal tmp.magnitude % radix.toNat) ::
            Nat.digits radix.toNat (limbsVal tmp.magnitude / radix.toNat) :=
        Nat.digits_def' (by omega) (Nat.pos_of_ne_zero h0)
      have hstep : digitLoop (f + 1 + 1) tmp (ofInt radix) st =
          digitLoop (f + 1) q (ofInt radix)
            (wrapSigned 32 (r.magnitude.headD 0) :: st) := by
        simp only [digitLoop, hz, if_true, hq]
      rw [hstep, ih q _ q1 hqsz hqlt, hmag, hdig, q3]
      simp only [List.headD_cons, List.reverse_cons, List.map_append, List.map_cons,
        List.map_nil, List.append_assoc, List.singleton_append]
      rw [wrapSigned_small _ (by omega)]
      rfl

/-- Embedding of `printOn` on a canonical value: zero is the single item `"0BI"`; otherwise a `"-"` for a
Negative value, then the digits of the magnitude in the radix of the stream, most significant
first, then the marker `"BI"` and, for more than one limb, the limb count. -/
theorem printOn_spec (a : BigInteger) (flags : Flags) (ha : Canonical a) (hsz : Addressable a) :
    printOn a flags = .ok
      (if a.magnitude = [0] then [Item.text "0BI"]
       else (if a.sign = Negative then [Item.text "-"] else []) ++
         ((Nat.digits (radixOfFlags flags).toNat (limbsVal a.magnitude)).reverse.map
           (fun d => Item.digit (Int.ofNat d))) ++ [Item.text "BI"] ++
         (if a.magnitude.length > 1 then [Item.size a.magnitude.length] else [])) := by
  have hr : radixOfFlags flags = 8 ∨ radixOfFlags flags = 10 ∨ radixOfFlags flags = 16 := by
    unfold radixOfFlags; split_ifs <;> simp
  unfold printOn
  simp only
  by_cases hz : a.magnitude = [0]
  · have hs := ha.2.2 hz
    rw [if_pos ((isZero_iff a).mpr hz), if_pos hz, hs]
    rfl
  · have hnz : ¬ isZero a = true := fun h => hz ((isZero_iff a).mp h)
    rw [if_neg hnz, if_neg hz]
    have hlt : limbsVal a.magnitude < 2 ^ (64 * a.magnitude.length) := limbsVal_lt_two_pow ha.1
    rw [digitLoop_spec (radixOfFlags flags) hr (64 * a.magnitude.length) a [] ha hsz hlt]
    simp only [List.append_nil, List.map_map]
    rfl

/-! ## Summaries used next to the claims -/

/-- Division by a positive divisor works on magnitudes for either sign of the dividend: the
quotient has magnitude `|a| / |d|`, it is Negative exactly when it is non-zero and `a` is
Negative, and the remainder is the non-negative `|a| mod |d|`. -/
theorem division_positive_divisor (a d : BigInteger) (ha : Canonical a) (hd : Canonical d)
    (hsz : Addressable a) (hd0 : 0 < val d) :
    ∃ q r, opDiv a d = .ok q ∧ opMod a d = .ok r ∧
      limbsVal q.magnitude = limbsVal a.magnitude / limbsVal d.magnitude ∧
      (limbsVal q.magnitude ≠ 0 → q.sign = a.sign) ∧
      (limbsVal q.magnitude = 0 → q.sign = Positive) ∧
      val r = ((limbsVal a.magnitude % limbsVal d.magnitude : Nat) : Int) ∧
      0 ≤ val r ∧ val r < val d := by
  have hds : d.sign = Positive := by
    rcases sign_cases d.sign with h | h
    · exact h
    · rw [val_of_negative h] at hd0; omega
  have hdv : val d = (limbsVal d.magnitude : Int) := val_of_positive hds
  have hdpos : 0 < limbsVal d.magnitude := by rw [hdv] at hd0; exact_mod_cast hd0
  obtain ⟨q, r, hq, _, _, r2, q3, r3, q4, q5⟩ := binaryDivide_spec a d ha hd hds hdpos hsz
  obtain ⟨e1, e2, _, _⟩ := opDiv_eq a d q r hq
  have hrv : val r = ((limbsVal a.magnitude % limbsVal d.magnitude : Nat) : Int) := by
    rw [val_of_positive r2, r3]
  have hlt := Nat.mod_lt (limbsVal a.magnitude) hdpos
  refine ⟨q, r, e1, e2, q3, ?_, q5, hrv, by rw [hrv]; omega, by rw [hrv, hdv]; omega⟩
  intro h
  rw [q4 h, hds]
  cases a.sign <;> rfl

/-- Canonical form is kept by `+`, `-`, unary `-`, `*`, `&`, `|`, `++` and `--`. -/
theorem canonical_closure (a b : BigInteger) (ha : Canonical a) (hb : Canonical b)
    (hsz : Addressable b) :
    Canonical (opAdd a b) ∧ Canonical (opSub a b) ∧ Canonical (opNeg a) ∧
    Canonical (opMul a b) ∧ Canonical (opAnd a b) ∧ Canonical (opOr a b) ∧
    Canonical (preIncrement a) ∧ Canonical (preDecrement a) ∧
    Canonical (postIncrement a).1 ∧ Canonical (postDecrement a).1 :=
  ⟨(plusEquals_spec a b ha hb).1, (plusEquals_spec a (opNeg b) ha (opNeg_spec b hb).1).1,
    (opNeg_spec a ha).1, (binaryMultiply_spec a b ha hb hsz).1, (opAnd_spec a b ha hb).1,
    (opOr_spec a b ha hb).1, (plusEquals_spec a bigOne ha canonical_bigOne).1,
    (plusEquals_spec a minusOne ha (by decide)).1,
    (plusEquals_spec a bigOne ha canonical_bigOne).1,
    (plusEquals_spec a minusOne ha (by decide)).1⟩

theorem canonical_single_signed (k : Nat) (s : Sign) (hk : k < 2 ^ 64)
    (hs : k = 0 → s = Positive) : Canonical ⟨[k], s⟩ := by
  refine ⟨?_, ⟨by simp, by simp⟩, ?_⟩
  · intro x hx
    simp only [List.mem_singleton] at hx
    rw [hx]; exact hk
  · intro h
    simp only [List.cons.injEq, and_true] at h
    exact hs h

/-- The constructor from `int` returns a canonical value for every `int`. -/
theorem canonical_ofInt (v : Int) (hv : -2 ^ 31 ≤ v ∧ v < 2 ^ 31) : Canonical (ofInt v) := by
  unfold ofInt
  split
  · exact canonical_single_signed _ _ (by unfold toChunk; omega) (fun _ => rfl)
  · apply canonical_single_signed _ _ (by unfold toChunk; omega)
    unfold toChunk wrapSigned
    norm_num
    omega

/-- The constructors from `long` and `long long` return canonical values. -/
theorem canonical_ofLong (v : Int) (hv : -2 ^ 63 ≤ v ∧ v < 2 ^ 63) :
    Canonical (ofLong v) ∧ Canonical (ofLongLong v) := by
  have h : Canonical (ofLong v) := by
    unfold ofLong
    split
    · exact canonical_single_signed _ _ (by unfold toChunk; omega) (fun _ => rfl)
    · apply canonical_single_signed _ _ (by unfold toChunk; omega)
      unfold toChunk wrapSigned
      norm_num
      omega
  exact ⟨h, h⟩

/-- The constructors from unsigned native values and the default constructor return
canonical values. -/
theorem canonical_ofUnsigned (n : Nat) :
    Canonical (ofUInt n) ∧ Canonical (ofULong n) ∧ Canonical (ofULongLong n) ∧
    Canonical ofNothing :=
  ⟨canonical_single_signed _ _ (by omega) (fun _ => rfl),
    canonical_single_signed _ _ (Nat.mod_lt _ (by unfold CHUNK_MOD; norm_num)) (fun _ => rfl),
    (canonical_ofULongLong n).1, by decide⟩

/-! ## Native constructors, repeated shifts -/

/-- Away from the most negative `int`, the constructor from `int` is exact. -/
theorem ofInt_exact (v : Int) (hv : -2 ^ 31 < v ∧ v < 2 ^ 31) :
    ofInt v = ⟨[v.natAbs], if v < 0 then Negative else Positive⟩ ∧ val (ofInt v) = v := by
  unfold ofInt
  by_cases h : v ≥ 0
  · have e : toChunk v = v.natAbs := by unfold toChunk; omega
    rw [if_pos h, if_neg (by omega), e]
    refine ⟨rfl, ?_⟩
    simp only [val, limbsVal, mul_zero, add_zero]
    omega
  · have e : toChunk (wrapSigned 32 (-v)) = v.natAbs := by
      unfold toChunk wrapSigned
      norm_num
      omega
    rw [if_neg h, if_pos (by omega), e]
    refine ⟨rfl, ?_⟩
    simp only [val, limbsVal, mul_zero, add_zero]
    omega

/-- The constructors from `long` and `long long` are exact for every value of the type, the
most negative one included: `-val` wraps to `-2^63`, whose conversion to `CHUNK` is `2^63`. -/
theorem ofLong_exact (v : Int) (hv : -2 ^ 63 ≤ v ∧ v < 2 ^ 63) :
    ofLong v = ⟨[v.natAbs], if v < 0 then Negative else Positive⟩ ∧ val (ofLong v) = v ∧
    ofLongLong v = ofLong v := by
  refine ⟨?_, ?_, rfl⟩
  · unfold ofLong
    by_cases h : v ≥ 0
    · have e : toChunk v = v.natAbs := by unfold toChunk; omega
      rw [if_pos h, if_neg (by omega), e]
    · have e : toChunk (wrapSigned 64 (-v)) = v.natAbs := by
        unfold toChunk wrapSigned
        norm_num
        omega
      rw [if_neg h, if_pos (by omega), e]
  · unfold ofLong
    by_cases h : v ≥ 0
    · have e : toChunk v = v.natAbs := by unfold toChunk; omega
      rw [if_pos h, e]
      simp only [val, limbsVal, mul_zero, add_zero]
      omega
    · have e : toChunk (wrapSigned 64 (-v)) = v.natAbs := by
        unfold toChunk wrapSigned
        norm_num
        omega
      rw [if_neg h, e]
      simp only [val, limbsVal, mul_zero, add_zero]
      omega

/-- The constructors from unsigned native values are exact. -/
theorem ofUnsigned_exact (n : Nat) :
    (n < 2 ^ 32 → ofUInt n = ⟨[n], Positive⟩) ∧
    (n < 2 ^ 64 → ofULong n = ⟨[n], Positive⟩ ∧ ofULongLong n = ⟨[n], Positive⟩) := by
  constructor
  · intro h; unfold ofUInt; rw [Nat.mod_eq_of_lt h]
  · intro h
    unfold ofULong ofULongLong CHUNK_MOD
    rw [Nat.mod_eq_of_lt h]
    exact ⟨rfl, rfl⟩

theorem iterate_shiftMeRight1_spec (a : BigInteger) (ha : LimbsOk a.magnitude)
    (hc : MagCanonical a.magnitude) : ∀ k : Nat,
    LimbsOk (shiftMeRight1^[k] a).magnitude ∧ MagCanonical (shiftMeRight1^[k] a).magnitude ∧
    limbsVal (shiftMeRight1^[k] a).magnitude = limbsVal a.magnitude / 2 ^ k ∧
    (shiftMeRight1^[k] a).sign = a.sign
  | 0 => by simpa using ⟨ha, hc⟩
  | k + 1 => by
    obtain ⟨h1, h2, h3, h4⟩ := iterate_shiftMeRight1_spec a ha hc k
    obtain ⟨s1, s2, s3, s4⟩ := shiftMeRight1_spec _ h1 h2
    rw [Function.iterate_succ_apply']
    refine ⟨s1, s2, ?_, s4.trans h4⟩
    rw [s3, h3, Nat.div_div_eq_div_mul, pow_succ]

/-- The natural number that is the value of a canonical `N ≥ 0`. -/
theorem val_eq_toNat {n : BigInteger} (h : 0 ≤ val n) : val n = ((val n).toNat : Int) := by
  omega

theorem bigInteger_ext {c a : BigInteger} (hm : c.magnitude = a.magnitude)
    (hs : c.sign = a.sign) : c = a := by
  cases c; cases a
  simp only at hm hs
  rw [hm, hs]

/-- The value that the string constructor gives to a string shorter than `2^32` characters:
after the optional sign, the digits after `0x`/`0X` are read in radix 16, the digits after a
leading `0` in radix 8, and otherwise the digits in radix 10, each up to the first character
that is not a digit of the radix. -/
theorem ofString_value (sgn rest : List Char) (hs : sgn = [] ∨ sgn = ['+'] ∨ sgn = ['-']) :
    ((sgn ++ '0' :: 'x' :: rest).length < 2 ^ 32 →
      limbsVal (ofString (String.mk (sgn ++ '0' :: 'x' :: rest))).magnitude =
        positional 16 (rest.takeWhile (validDigit 16)) ∧
      limbsVal (ofString (String.mk (sgn ++ '0' :: 'X' :: rest))).magnitude =
        positional 16 (rest.takeWhile (validDigit 16))) ∧
    ((sgn ++ '0' :: rest).length < 2 ^ 32 → rest.head? ≠ some 'x' → rest.head? ≠ some 'X' →
      limbsVal (ofString (String.mk (sgn ++ '0' :: rest))).magnitude =
        positional 8 (rest.takeWhile (validDigit 8))) ∧
    ((sgn ++ rest).length < 2 ^ 32 → rest.head? ≠ some '0' →
      (sgn = [] → rest.head? ≠ some '+' ∧ rest.head? ≠ some '-') →
      limbsVal (ofString (String.mk (sgn ++ rest))).magnitude =
        positional 10 (rest.takeWhile (validDigit 10))) := by
  have hx : ('0' : Char) ≠ '-' ∧ ('0' : Char) ≠ '+' ∧ ('x' : Char) ≠ 'X' ∧
      ('X' : Char) ≠ 'x' := by decide
  have hl : sgn.length ≤ 1 := by rcases hs with rfl | rfl | rfl <;> simp
  have hdrop : ∀ (pre : List Char), ((String.mk (sgn ++ pre ++ rest)).data.drop
      (sgn.length + pre.length)) = rest := by
    intro pre
    show (sgn ++ pre ++ rest).drop (sgn.length + pre.length) = rest
    rw [← List.length_append, List.drop_left]
  have hdisp : ∀ (pre : List Char) (radix : Int) (signArg : Sign), pre.length ≤ 2 →
      (radix = 8 ∨ radix = 10 ∨ radix = 16) → (sgn ++ pre ++ rest).length < 2 ^ 32 →
      limbsVal (strToBigInteger (String.mk (sgn ++ pre ++ rest)) radix
        ((sgn.length + pre.length : Nat) : Int) signArg).magnitude =
        positional radix.toNat (rest.takeWhile (validDigit radix)) := by
    intro pre radix signArg hp hr hlen
    have := (strToBigInteger_horner (String.mk (sgn ++ pre ++ rest)) radix
      (sgn.length + pre.length) signArg hr hlen (by omega)).2.1
    rw [hdrop pre] at this
    exact this
  have hsgn : ∀ (pre : List Char) (radix : Int) (k : Nat), k = sgn.length + pre.length →
      ofString (String.mk (sgn ++ pre ++ rest)) =
        strToBigInteger (String.mk (sgn ++ pre ++ rest)) radix ((k : Nat) : Int)
          (if sgn = ['-'] then Negative else Positive) → pre.length ≤ 2 →
      (radix = 8 ∨ radix = 10 ∨ radix = 16) → (sgn ++ pre ++ rest).length < 2 ^ 32 →
      limbsVal (ofString (String.mk (sgn ++ pre ++ rest))).magnitude =
        positional radix.toNat (rest.takeWhile (validDigit radix)) := by
    intro pre radix k hk he hp hr hlen
    rw [he, hk]
    exact hdisp pre radix _ hp hr hlen
  have hnil : sgn ++ [] ++ rest = sgn ++ rest := by simp
  have hc17 : ∀ r : List Char,
      ofString (String.mk (sgn ++ '0' :: 'x' :: r)) =
        strToBigInteger (String.mk (sgn ++ '0' :: 'x' :: r)) 16 ((sgn.length + 2 : Nat) : Int)
          (if sgn = ['-'] then Negative else Positive) ∧
      ofString (String.mk (sgn ++ '0' :: 'X' :: r)) =
        strToBigInteger (String.mk (sgn ++ '0' :: 'X' :: r)) 16 ((sgn.length + 2 : Nat) : Int)
          (if sgn = ['-'] then Negative else Positive) := by
    intro r
    constructor <;> (rcases hs with rfl | rfl | rfl <;> simp [ofString, hx])
  refine ⟨fun hlen => ⟨?_, ?_⟩, fun hlen h1 h2 => ?_, fun hlen h0 hsg => ?_⟩
  · have e : sgn ++ '0' :: 'x' :: rest = sgn ++ ['0', 'x'] ++ rest := by simp
    rw [e] at hlen
    have := hsgn ['0', 'x'] 16 (sgn.length + 2) rfl (by rw [← e]; exact (hc17 rest).1)
      (by simp) (by simp) hlen
    rw [e]; exact this
  · have e : sgn ++ '0' :: 'X' :: rest = sgn ++ ['0', 'X'] ++ rest := by simp
    have hlen : (sgn ++ ['0', 'X'] ++ rest).length < 2 ^ 32 := by
      simp only [List.length_append, List.length_cons, List.length_nil] at hlen ⊢
      omega
    have := hsgn ['0', 'X'] 16 (sgn.length + 2) rfl (by rw [← e]; exact (hc17 rest).2)
      (by simp) (by simp) hlen
    rw [e]; exact this
  · have e : sgn ++ '0' :: rest = sgn ++ ['0'] ++ rest := by simp
    have hd : ofString (String.mk (sgn ++ '0' :: rest)) =
        strToBigInteger (String.mk (sgn ++ '0' :: rest)) 8 ((sgn.length + 1 : Nat) : Int)
          (if sgn = ['-'] then Negative else Positive) := by
      cases rest with
      | nil => rcases hs with rfl | rfl | rfl <;> simp [ofString, hx]
      | cons c cs =>
        have c1 : c ≠ 'x' := by simpa using h1
        have c2 : c ≠ 'X' := by simpa using h2
        rcases hs with rfl | rfl | rfl <;> simp [ofString, hx, c1, c2]
    rw [e] at hlen
    have := hsgn ['0'] 8 (sgn.length + 1) rfl (by rw [← e]; exact hd) (by simp) (by simp) hlen
    rw [e]; exact this
  · have hd : ofString (String.mk (sgn ++ rest)) =
        strToBigInteger (String.mk (sgn ++ rest)) 10 ((sgn.length : Nat) : Int)
          (if sgn = ['-'] then Negative else Positive) := by
      cases rest with
      | nil => rcases hs with rfl | rfl | rfl <;> simp [ofString]
      | cons c cs =>
        have c0 : c ≠ '0' := by simpa using h0
        rcases hs with rfl | rfl | rfl
        · have := hsg rfl
          have c1 : c ≠ '+' := by simpa using this.1
          have c2 : c ≠ '-' := by simpa using this.2
          cases cs <;> simp [ofString, c0, c1, c2]
        · cases cs <;> simp [ofString, c0]
        · cases cs <;> simp [ofString, c0]
    rw [← hnil] at hlen
    have := hsgn [] 10 sgn.length rfl (by rw [hnil]; exact hd) (by simp) (by simp) hlen
    rw [hnil] at this; exact this

/-! ## The general multiplication algorithm, absolute values, bitwise symmetry -/

theorem generalMultiply_spec (a b : BigInteger) (ha : Canonical a) (hb : Canonical b)
    (hsz : Addressable b) :
    Canonical (generalMultiply a b) ∧ val (generalMultiply a b) = val a * val b := by
  have h0 : Canonical (ofInt 1) := by decide
  have hl := multiplyLoop_spec b hb (limbsVal a.magnitude) a.sign (numBitsOf b) 0
    (ofInt 1) a bigZero h0 (by decide) ha (by simp) rfl (by decide)
    (by rw [limbsVal_bigZero]; simp [Nat.mod_one]) (by intro h; exact absurd rfl h)
  have hv : limbsVal (multiplyLoop (numBitsOf b) b (ofInt 1) a bigZero).magnitude =
      limbsVal a.magnitude * limbsVal b.magnitude := by
    rw [hl.2.1, numBitsOf_eq hsz, zero_add, Nat.mod_eq_of_lt (limbsVal_lt_two_pow hb.1)]
  have hfix := sign_fixup_spec (multiplyLoop (numBitsOf b) b (ofInt 1) a bigZero) b.sign a.sign
    hl.1
  simp only at hfix
  have he : generalMultiply a b =
      if opNe (multiplyLoop (numBitsOf b) b (ofInt 1) a bigZero) bigZero then
        (if b.sign = a.sign then
          { multiplyLoop (numBitsOf b) b (ofInt 1) a bigZero with sign := Positive }
        else { multiplyLoop (numBitsOf b) b (ofInt 1) a bigZero with sign := Negative })
      else multiplyLoop (numBitsOf b) b (ofInt 1) a bigZero := rfl
  rw [← he] at hfix
  obtain ⟨f1, f2, f3, _⟩ := hfix
  refine ⟨f1, ?_⟩
  have h2 : limbsVal (generalMultiply a b).magnitude =
      limbsVal a.magnitude * limbsVal b.magnitude := by rw [f2, hv]
  rw [val_eq_applySign a, val_eq_applySign b, applySign_mul, ← h2, signRule_comm]
  by_cases hz : limbsVal (generalMultiply a b).magnitude = 0
  · rw [val_eq_applySign, hz, applySign_zero, applySign_zero]
  · rw [val_eq_applySign, f3 hz]

theorem natAbs_val (a : BigInteger) : (val a).natAbs = limbsVal a.magnitude := by
  unfold val; cases a.sign <;> simp

theorem val_neg_iff {a : BigInteger} (ha : Canonical a) : val a < 0 ↔ a.sign = Negative := by
  have hz := canonical_limbsVal_eq_zero ha
  have h3 := ha.2.2
  unfold val
  cases hs : a.sign
  · simp
  · simp only [Left.neg_neg_iff, Nat.cast_pos, iff_true]
    rcases Nat.eq_zero_or_pos (limbsVal a.magnitude) with h | h
    · have := h3 (hz.mp h); rw [hs] at this; exact absurd this (by decide)
    · exact h

theorem val_eq_zero_iff {a : BigInteger} (ha : Canonical a) : val a = 0 ↔ a.magnitude = [0] := by
  rw [← canonical_limbsVal_eq_zero ha, ← natAbs_val]; omega

theorem lor_eq_zero {m n : Nat} (h : m ||| n = 0) : m = 0 ∧ n = 0 := by
  have key : ∀ i, m.testBit i = false ∧ n.testBit i = false := by
    intro i
    have := congrArg (fun x => Nat.testBit x i) h
    simpa [Nat.testBit_or] using this
  constructor
  · apply Nat.eq_of_testBit_eq; intro i; simp [(key i).1]
  · apply Nat.eq_of_testBit_eq; intro i; simp [(key i).2]

/-- The operand `other` of `andOrEquals` is read through its magnitude only. -/
theorem andOrEquals_other_sign (a b : BigInteger) (op : NumericConstant) (s : Sign) :
    andOrEquals a op ⟨b.magnitude, s⟩ = andOrEquals a op b := rfl

theorem val_opOr (a b : BigInteger) (ha : Canonical a) (hb : Canonical b) :
    val (opOr a b) = applySign a.sign (limbsVal a.magnitude ||| limbsVal b.magnitude) := by
  obtain ⟨_, h2, h3⟩ := opOr_spec a b ha hb
  rw [val_of_sign_rule h3, h2]

theorem val_opAnd (a b : BigInteger) (ha : Canonical a) (hb : Canonical b) :
    val (opAnd a b) = applySign a.sign (limbsVal a.magnitude &&& limbsVal b.magnitude) := by
  obtain ⟨_, h2, h3⟩ := opAnd_spec a b ha hb
  rw [val_of_sign_rule h3, h2]

theorem sign_of_zero_val {r : BigInteger} (hr : Canonical r) (h : val r = 0) :
    r.sign = Positive := hr.2.2 ((val_eq_zero_iff hr).mp h)

theorem opEq_false_of_sign {x y : BigInteger} (h : x.sign ≠ y.sign) : opEq x y = false := by
  rw [← Bool.not_eq_true, opEq_iff]
  intro e; exact h (by rw [e])

/-! ## The claims -/

set_option maxRecDepth 100000

/-- C1: signed addition and subtraction are exact.  For canonical `a` and `b` the value of
`a + b` is `val a + val b` and the value of `a - b` is `val a - val b`, also for the value left
in `a` by `a += b` and `a -= b`; the sign of `a + b` is the common sign when the signs match and
the sign of the operand with the larger magnitude when they differ. -/
theorem C1_add_sub_exact (a b : BigInteger) (ha : Canonical a) (hb : Canonical b) :
    val (opAdd a b) = val a + val b ∧ val (opSub a b) = val a - val b ∧
    val (opAddAssign a b) = val a + val b ∧ val (opSubAssign a b) = val a - val b ∧
    (a.sign = b.sign → (opAdd a b).sign = a.sign) ∧
    (a.sign ≠ b.sign → limbsVal b.magnitude < limbsVal a.magnitude →
      (opAdd a b).sign = a.sign) ∧
    (a.sign ≠ b.sign → limbsVal a.magnitude < limbsVal b.magnitude →
      (opAdd a b).sign = b.sign) := by
  obtain ⟨n1, n2, _⟩ := opNeg_spec b hb
  have hadd := (plusEquals_spec a b ha hb).2
  have hsub : val (plusEquals a (opNeg b)) = val a - val b := by
    rw [(plusEquals_spec a (opNeg b) ha n1).2, n2]; ring
  obtain ⟨s1, s2, s3⟩ := plusEquals_sign a b ha hb
  exact ⟨hadd, hsub, hadd, hsub, s1, s2, s3⟩

/-- Witness of C1 at `a = -7`, `b = 100` (the scenario `-7 + 100 == 93` of the test driver). -/
theorem C1_add_sub_exact_witness :
    Canonical (ofInt (-7)) ∧ Canonical (ofInt 100) ∧
    val (opAdd (ofInt (-7)) (ofInt 100)) = val (ofInt (-7)) + val (ofInt 100) ∧
    val (opSub (ofInt (-7)) (ofInt 100)) = val (ofInt (-7)) - val (ofInt 100) ∧
    opAdd (ofInt (-7)) (ofInt 100) = ofInt 93 ∧
    opEq (opAdd (readFrom ⟨false, false⟩ "-7") (readFrom ⟨false, false⟩ "100"))
      (readFrom ⟨false, false⟩ "93") = true :=
  ⟨by decide, by decide,
    (C1_add_sub_exact (ofInt (-7)) (ofInt 100) (by decide) (by decide)).1,
    (C1_add_sub_exact (ofInt (-7)) (ofInt 100) (by decide) (by decide)).2.1, by decide,
    by decide⟩

/-- C2: multiplication is exact.  For canonical `a` and `b` (the limb count of the multiplier
being addressable) the value of `a * b`, and of `a` after `a *= b`, is `val a * val b`; a
non-zero product is Positive if the operand signs match and Negative otherwise, and a zero
product is Positive. -/
theorem C2_mul_exact (a b : BigInteger) (ha : Canonical a) (hb : Canonical b)
    (hsz : Addressable b) :
    val (opMul a b) = val a * val b ∧ val (opMulAssign a b) = val a * val b ∧
    (val (opMul a b) ≠ 0 → a.sign = b.sign → (opMul a b).sign = Positive) ∧
    (val (opMul a b) ≠ 0 → a.sign ≠ b.sign → (opMul a b).sign = Negative) ∧
    (val (opMul a b) = 0 → (opMul a b).sign = Positive) := by
  have hv := binaryMultiply_val a b ha hb hsz
  obtain ⟨h1, _, h3, h4⟩ := binaryMultiply_spec a b ha hb hsz
  have hz : val (binaryMultiply a b) = 0 ↔ limbsVal (binaryMultiply a b).magnitude = 0 := by
    rw [val_eq_applySign]
    cases (binaryMultiply a b).sign <;> simp [applySign]
  refine ⟨hv, hv, ?_, ?_, ?_⟩
  · intro hne hs
    have := h3 (fun h => hne (hz.mpr h))
    unfold opMul
    rw [this, hs]; simp [signRule]
  · intro hne hs
    have := h3 (fun h => hne (hz.mpr h))
    unfold opMul
    rw [this]; unfold signRule; rw [if_neg (fun h => hs h.symm)]
  · intro h0
    exact h4 (hz.mp h0)

/-- Witness of C2 at `a = 17567 * 256`, `b = -1` (`foo *= foo2` of the test driver). -/
theorem C2_mul_exact_witness :
    Canonical (ofInt 4497152) ∧ Canonical (ofInt (-1)) ∧ Addressable (ofInt (-1)) ∧
    val (opMul (ofInt 4497152) (ofInt (-1))) = val (ofInt 4497152) * val (ofInt (-1)) ∧
    opMul (ofInt 17567) (ofInt 256) = ofInt 4497152 :=
  ⟨by decide, by decide, by decide,
    (C2_mul_exact (ofInt 4497152) (ofInt (-1)) (by decide) (by decide) (by decide)).1,
    by decide⟩

/-- C3 (the code at the failing input): with the negative divisor `-2` the test
`remainder >= divisor` of the restoring loop is a signed comparison that always succeeds, so
`7 / -2` has magnitude `2^64 - 1` instead of `3` and `7 % -2` is `2^65 + 5`, not below `2`. -/
theorem C3_negative_divisor :
    opDiv (ofInt 7) (ofInt (-2)) = .ok ⟨[18446744073709551615], Negative⟩ ∧
    opMod (ofInt 7) (ofInt (-2)) = .ok ⟨[5, 2], Positive⟩ ∧
    Canonical (ofInt 7) ∧ Canonical (ofInt (-2)) :=
  ⟨rfl, rfl, by decide, by decide⟩

/-- C4 (counterexample): for `a = -7`, `d = 2` the operators give `a / d = -3` and `a % d = 1`,
and `(a / d) * d + (a % d)` is `-5`, which is not `== a`. -/
theorem C4_counterexample :
    Canonical (ofInt (-7)) ∧ Canonical (ofInt 2) ∧
    opDiv (ofInt (-7)) (ofInt 2) = .ok (ofInt (-3)) ∧
    opMod (ofInt (-7)) (ofInt 2) = .ok (ofInt 1) ∧
    opAdd (opMul (ofInt (-3)) (ofInt 2)) (ofInt 1) = ofInt (-5) ∧
    opEq (opAdd (opMul (ofInt (-3)) (ofInt 2)) (ofInt 1)) (ofInt (-7)) = false :=
  ⟨by decide, by decide, rfl, rfl, by decide, by decide⟩

/-- C4 (amended): for canonical `a` and canonical `d > 0` (limb counts addressable), `a / d` and
`a % d` return, and `(a / d) * d + (a % d) == a` when `a ≥ 0` while
`(a / d) * d - (a % d) == a` when `a < 0`, the remainder being the unsigned `|a| mod |d|`. -/
theorem C4_division_identity (a d : BigInteger) (ha : Canonical a) (hd : Canonical d)
    (hpos : 0 < val d) (hsa : Addressable a) (hsd : Addressable d) :
    ∃ q r, opDiv a d = .ok q ∧ opMod a d = .ok r ∧
      (0 ≤ val a → opEq (opAdd (opMul q d) r) a = true) ∧
      (val a < 0 → opEq (opSub (opMul q d) r) a = true) := by
  have hds : d.sign = Positive := by
    rcases sign_cases d.sign with h | h
    · exact h
    · rw [val_of_negative h] at hpos; omega
  have hdv : val d = (limbsVal d.magnitude : Int) := val_of_positive hds
  have hdpos : 0 < limbsVal d.magnitude := by rw [hdv] at hpos; exact_mod_cast hpos
  obtain ⟨q, r, hq, q1, r1, r2, q3, r3, q4, q5⟩ := binaryDivide_spec a d ha hd hds hdpos hsa
  obtain ⟨e1, e2, _, _⟩ := opDiv_eq a d q r hq
  have hrv : val r = ((limbsVal a.magnitude % limbsVal d.magnitude : Nat) : Int) := by
    rw [val_of_positive r2, r3]
  have hqv : val q = applySign (signRule a.sign d.sign)
      (limbsVal a.magnitude / limbsVal d.magnitude) := by
    rw [← q3]
    by_cases hz : limbsVal q.magnitude = 0
    · rw [val_eq_applySign, hz, applySign_zero, applySign_zero]
    · rw [val_eq_applySign, q4 hz]
  obtain ⟨m1, _, _, _⟩ := binaryMultiply_spec q d q1 hd hsd
  have mv := binaryMultiply_val q d q1 hd hsd
  have hdm := Nat.div_add_mod (limbsVal a.magnitude) (limbsVal d.magnitude)
  have hdm' : ((limbsVal d.magnitude : Int)) * ((limbsVal a.magnitude / limbsVal d.magnitude
      : Nat) : Int) + ((limbsVal a.magnitude % limbsVal d.magnitude : Nat) : Int) =
      (limbsVal a.magnitude : Int) := by exact_mod_cast hdm
  refine ⟨q, r, e1, e2, ?_, ?_⟩
  · intro h0
    have hsa' : a.sign = Positive := by
      rcases sign_cases a.sign with h | h
      · exact h
      · have := canonical_negative_pos ha h
        rw [val_of_negative h] at h0; omega
    obtain ⟨p1, p2⟩ := plusEquals_spec (binaryMultiply q d) r m1 r1
    show opEq (plusEquals (binaryMultiply q d) r) a = true
    rw [opEq_iff_val _ _ p1 ha]
    rw [p2, mv, hqv, hrv, hdv, hsa', hds, val_of_positive hsa']
    simp only [signRule, if_true, applySign]
    rw [← hdm']; ring
  · intro h0
    have hsa' : a.sign = Negative := by
      rcases sign_cases a.sign with h | h
      · rw [val_of_positive h] at h0; omega
      · exact h
    obtain ⟨n1, n2, _⟩ := opNeg_spec r r1
    obtain ⟨p1, p2⟩ := plusEquals_spec (binaryMultiply q d) (opNeg r) m1 n1
    show opEq (plusEquals (binaryMultiply q d) (opNeg r)) a = true
    rw [opEq_iff_val _ _ p1 ha]
    rw [p2, n2, mv, hqv, hrv, hdv, hsa', hds, val_of_negative hsa']
    simp only [signRule, applySign]
    rw [← hdm']; simp; ring

/-- Witness of the amended C4 at `a = -7`, `d = 2`. -/
theorem C4_division_identity_witness :
    Canonical (ofInt (-7)) ∧ Canonical (ofInt 2) ∧ 0 < val (ofInt 2) ∧
    Addressable (ofInt (-7)) ∧ Addressable (ofInt 2) ∧
    ∃ q r, opDiv (ofInt (-7)) (ofInt 2) = .ok q ∧ opMod (ofInt (-7)) (ofInt 2) = .ok r ∧
      (0 ≤ val (ofInt (-7)) → opEq (opAdd (opMul q (ofInt 2)) r) (ofInt (-7)) = true) ∧
      (val (ofInt (-7)) < 0 → opEq (opSub (opMul q (ofInt 2)) r) (ofInt (-7)) = true) :=
  ⟨by decide, by decide, by decide, by decide, by decide,
    C4_division_identity (ofInt (-7)) (ofInt 2) (by decide) (by decide) (by decide) (by decide)
      (by decide)⟩

/-- C5: for a canonical dividend `a ≥ 0` (limb count addressable) and a canonical divisor
`d > 0`, `a / d` and `a % d` return the Euclidean quotient and remainder: their values are
`val a / val d` and `val a % val d`, and both results are canonical and Positive. -/
theorem C5_euclidean_division (a d : BigInteger) (ha : Canonical a) (hd : Canonical d)
    (hsz : Addressable a) (ha0 : 0 ≤ val a) (hd0 : 0 < val d) :
    ∃ q r, opDiv a d = .ok q ∧ opMod a d = .ok r ∧
      val q = val a / val d ∧ val r = val a % val d ∧
      Canonical q ∧ Canonical r ∧ q.sign = Positive ∧ r.sign = Positive := by
  have hds : d.sign = Positive := by
    rcases sign_cases d.sign with h | h
    · exact h
    · rw [val_of_negative h] at hd0; omega
  have has : a.sign = Positive := by
    rcases sign_cases a.sign with h | h
    · exact h
    · have := canonical_negative_pos ha h
      rw [val_of_negative h] at ha0; omega
  have hdv : val d = (limbsVal d.magnitude : Int) := val_of_positive hds
  have hav : val a = (limbsVal a.magnitude : Int) := val_of_positive has
  have hdpos : 0 < limbsVal d.magnitude := by rw [hdv] at hd0; exact_mod_cast hd0
  obtain ⟨q, r, hq, q1, r1, r2, q3, r3, q4, q5⟩ := binaryDivide_spec a d ha hd hds hdpos hsz
  obtain ⟨e1, e2, _, _⟩ := opDiv_eq a d q r hq
  have hqs : q.sign = Positive := by
    by_cases hz : limbsVal q.magnitude = 0
    · exact q5 hz
    · rw [q4 hz, has, hds]; rfl
  refine ⟨q, r, e1, e2, ?_, ?_, q1, r1, hqs, r2⟩
  · rw [val_of_positive hqs, q3, hav, hdv]; norm_cast
  · rw [val_of_positive r2, r3, hav, hdv]; norm_cast

/-- Witness of C5 at `298653 / 17 = 17567` and `298653 % 17 = 14`. -/
theorem C5_euclidean_division_witness :
    Canonical (ofInt 298653) ∧ Canonical (ofInt 17) ∧ Addressable (ofInt 298653) ∧
    0 ≤ val (ofInt 298653) ∧ 0 < val (ofInt 17) ∧
    (∃ q r, opDiv (ofInt 298653) (ofInt 17) = .ok q ∧ opMod (ofInt 298653) (ofInt 17) = .ok r ∧
      val q = val (ofInt 298653) / val (ofInt 17) ∧ val r = val (ofInt 298653) % val (ofInt 17) ∧
      Canonical q ∧ Canonical r ∧ q.sign = Positive ∧ r.sign = Positive) ∧
    opDiv (ofInt 298653) (ofInt 17) = .ok (ofInt 17567) ∧
    opMod (ofInt 298653) (ofInt 17) = .ok (ofInt 14) :=
  ⟨by decide, by decide, by decide, by decide, by decide,
    C5_euclidean_division (ofInt 298653) (ofInt 17) (by decide) (by decide) (by decide)
      (by decide) (by decide), rfl, rfl⟩

/-- C6: for every `a` and every canonical `d`, each of `a / d`, `a % d`, `a /= d` and `a %= d`
raises the divide-by-zero condition if and only if the magnitude of `d` is zero, and otherwise
returns a result; when it is raised, the left operand of `/=` and `%=` keeps its value. -/
theorem C6_divide_by_zero (a d : BigInteger) (hd : Canonical d) :
    (opDiv a d = .error "divide by zero" ↔ limbsVal d.magnitude = 0) ∧
    (opMod a d = .error "divide by zero" ↔ limbsVal d.magnitude = 0) ∧
    ((opDivAssign a d).2 = .error "divide by zero" ↔ limbsVal d.magnitude = 0) ∧
    ((opModAssign a d).2 = .error "divide by zero" ↔ limbsVal d.magnitude = 0) ∧
    (limbsVal d.magnitude = 0 → (opDivAssign a d).1 = a ∧ (opModAssign a d).1 = a) ∧
    (limbsVal d.magnitude ≠ 0 → ∃ q r, opDiv a d = .ok q ∧ opMod a d = .ok r ∧
      opDivAssign a d = (q, .ok q) ∧ opModAssign a d = (r, .ok r)) := by
  obtain ⟨t1, t2⟩ := binaryDivide_total a d
  have hz : isZero d = true ↔ limbsVal d.magnitude = 0 := by
    rw [isZero_iff, canonical_limbsVal_eq_zero hd]
  have hok : limbsVal d.magnitude ≠ 0 → ∃ q r, binaryDivide a d = .ok (q, r) := by
    intro h
    apply t2
    cases hzd : isZero d
    · rfl
    · exact absurd (hz.mp hzd) h
  have herr : limbsVal d.magnitude = 0 → binaryDivide a d = .error "divide by zero" :=
    fun h => t1 (hz.mpr h)
  have key : ∀ x : Except String BigInteger,
      (limbsVal d.magnitude = 0 → x = .error "divide by zero") →
      (limbsVal d.magnitude ≠ 0 → ∃ v, x = .ok v) →
      (x = .error "divide by zero" ↔ limbsVal d.magnitude = 0) := by
    intro x h1 h2
    constructor
    · intro hx
      by_contra hne
      obtain ⟨v, hv⟩ := h2 hne
      rw [hv] at hx; cases hx
    · exact h1
  have hvals : limbsVal d.magnitude ≠ 0 → ∃ q r, opDiv a d = .ok q ∧ opMod a d = .ok r ∧
      opDivAssign a d = (q, .ok q) ∧ opModAssign a d = (r, .ok r) := by
    intro h
    obtain ⟨q, r, hq⟩ := hok h
    exact ⟨q, r, opDiv_eq a d q r hq⟩
  have e1 : limbsVal d.magnitude = 0 → opDiv a d = .error "divide by zero" := by
    intro h; unfold opDiv; rw [herr h]
  have e2 : limbsVal d.magnitude = 0 → opMod a d = .error "divide by zero" := by
    intro h; unfold opMod; rw [herr h]
  have e3 : limbsVal d.magnitude = 0 → opDivAssign a d = (a, .error "divide by zero") := by
    intro h; unfold opDivAssign; rw [herr h]
  have e4 : limbsVal d.magnitude = 0 → opModAssign a d = (a, .error "divide by zero") := by
    intro h; unfold opModAssign; rw [herr h]
  refine ⟨key _ e1 ?_, key _ e2 ?_, key _ (fun h => by rw [e3 h]) ?_,
    key _ (fun h => by rw [e4 h]) ?_, fun h => by rw [e3 h, e4 h]; exact ⟨rfl, rfl⟩, hvals⟩
  · intro h
    obtain ⟨q, _, h1, _⟩ := hvals h
    exact ⟨q, h1⟩
  · intro h
    obtain ⟨_, r, _, h2, _⟩ := hvals h
    exact ⟨r, h2⟩
  · intro h
    obtain ⟨q, _, _, _, h3, _⟩ := hvals h
    exact ⟨q, by rw [h3]⟩
  · intro h
    obtain ⟨_, r, _, _, _, h4⟩ := hvals h
    exact ⟨r, by rw [h4]⟩

/-- Witness of C6 at `a = 0`, `d = 0`. -/
theorem C6_divide_by_zero_witness :
    Canonical (ofInt 0) ∧
    (opDiv (ofInt 0) (ofInt 0) = .error "divide by zero" ↔
      limbsVal (ofInt 0).magnitude = 0) ∧
    opDiv (ofInt 0) (ofInt 0) = .error "divide by zero" ∧
    opModAssign (ofInt 5) (ofInt 0) = (ofInt 5, .error "divide by zero") :=
  ⟨by decide, (C6_divide_by_zero (ofInt 0) (ofInt 0) (by decide)).1, rfl, rfl⟩

/-- C7 (the code at the failing input): `-1 >> 1` is the magnitude `[0]` with sign Negative,
which is not canonical, although both operands are; `shiftMeRight1` drops a high zero limb but
never resets the sign of a zero result. -/
theorem C7_negative_right_shift :
    Canonical (ofInt (-1)) ∧ Canonical (ofInt 1) ∧
    opShr (ofInt (-1)) (ofInt 1) = some ⟨[0], Negative⟩ ∧
    opShrAssign (ofInt (-1)) (ofInt 1) = some ⟨[0], Negative⟩ ∧
    ¬ Canonical ⟨[0], Negative⟩ := by
  decide

/-- C8: on canonical values the comparison operators agree with the numeric order: `<`, `>`
and `==` hold exactly when the values compare so, `<=`, `>=` and `!=` are the negations of `>`,
`<` and `==`, and exactly one of `a < b`, `a == b`, `a > b` holds. -/
theorem C8_comparisons (a b : BigInteger) (ha : Canonical a) (hb : Canonical b) :
    (opLt a b = true ↔ val a < val b) ∧ (opGt a b = true ↔ val a > val b) ∧
    (opEq a b = true ↔ val a = val b) ∧
    (opLe a b = true ↔ ¬ opGt a b = true) ∧ (opGe a b = true ↔ ¬ opLt a b = true) ∧
    (opNe a b = true ↔ ¬ opEq a b = true) ∧
    ((opLt a b = true ∧ opEq a b = false ∧ opGt a b = false) ∨
     (opLt a b = false ∧ opEq a b = true ∧ opGt a b = false) ∨
     (opLt a b = false ∧ opEq a b = false ∧ opGt a b = true)) := by
  have hlt := opLt_iff a b ha hb
  have hgt := opGt_iff a b ha hb
  have heq := opEq_iff_val a b ha hb
  refine ⟨hlt, hgt, heq, ?_, ?_, ?_, ?_⟩
  · rw [opLe_iff a b ha hb, hgt]; omega
  · rw [opGe_iff a b ha hb, hlt]; omega
  · rw [opNe_eq_not_opEq]; simp
  · rcases lt_trichotomy (val a) (val b) with h | h | h
    · left
      refine ⟨hlt.mpr h, ?_, ?_⟩
      · rw [← Bool.not_eq_true, heq]; omega
      · rw [← Bool.not_eq_true, hgt]; omega
    · right; left
      refine ⟨?_, heq.mpr h, ?_⟩
      · rw [← Bool.not_eq_true, hlt]; omega
      · rw [← Bool.not_eq_true, hgt]; omega
    · right; right
      refine ⟨?_, ?_, hgt.mpr h⟩
      · rw [← Bool.not_eq_true, hlt]; omega
      · rw [← Bool.not_eq_true, heq]; omega

/-- Witness of C8 at `a = -7`, `b = 93`. -/
theorem C8_comparisons_witness :
    Canonical (ofInt (-7)) ∧ Canonical (ofInt 93) ∧
    (opLt (ofInt (-7)) (ofInt 93) = true ↔ val (ofInt (-7)) < val (ofInt 93)) ∧
    opLt (ofInt (-7)) (ofInt 93) = true :=
  ⟨by decide, by decide, (C8_comparisons (ofInt (-7)) (ofInt 93) (by decide) (by decide)).1,
    by decide⟩

theorem positional_lt (radix : Nat) (hr : radix ≤ 16) : ∀ cs : List Char,
    positional radix cs < 16 ^ cs.length
  | [] => by simp [positional]
  | c :: cs => by
    have ih := positional_lt radix hr cs
    have hd := digitValue_lt c
    have hp : radix ^ cs.length ≤ 16 ^ cs.length := Nat.pow_le_pow_left hr _
    have h1 : digitValue c * radix ^ cs.length ≤ 15 * 16 ^ cs.length :=
      Nat.mul_le_mul (by omega) hp
    simp only [positional, List.length_cons, pow_succ]
    omega

/-- A value parsed from fewer than `2^32` characters has an addressable limb count. -/
theorem addressable_of_small {a : BigInteger} (ha : Canonical a) {n : Nat} (hn : n < 2 ^ 32)
    (hv : limbsVal a.magnitude < 16 ^ n) : Addressable a := by
  unfold Addressable
  by_contra hcon
  have hl : 1 < a.magnitude.length := by omega
  have h1 := magCanonical_le_val ha.2.1 hl
  have h2 : (16 : Nat) ^ n ≤ (2 ^ 64) ^ (a.magnitude.length - 1) := by
    have e : (16 : Nat) = 2 ^ 4 := by norm_num
    rw [e, ← pow_mul, ← pow_mul]
    exact Nat.pow_le_pow_right (by norm_num) (by omega)
  omega

/-- Round trip of decimal text shorter than `2^32` characters: reading `sgn ++ ds` (an optional
sign and one or more decimal digits) in decimal and printing the result in decimal sends the
stream `"0BI"` when the digits denote zero, and otherwise a `"-"` exactly when the sign is `-`,
then the decimal digits of the denoted number without leading zeros, then the marker `"BI"`
and, for more than one limb, the limb count. -/
theorem decimal_round_trip (sgn ds : List Char) (hs : sgn = [] ∨ sgn = ['+'] ∨ sgn = ['-'])
    (hds : ds ≠ []) (hall : ∀ c ∈ ds, validDigit 10 c = true)
    (hlen : (sgn ++ ds).length < 2 ^ 32) :
    printOn (readFrom ⟨false, false⟩ (String.mk (sgn ++ ds))) ⟨false, false⟩ = .ok
      (if positional 10 ds = 0 then [Item.text "0BI"]
       else (if sgn = ['-'] then [Item.text "-"] else []) ++
         ((Nat.digits 10 (positional 10 ds)).reverse.map (fun d => Item.digit (Int.ofNat d))) ++
         [Item.text "BI"] ++
         (if (readFrom ⟨false, false⟩ (String.mk (sgn ++ ds))).magnitude.length > 1 then
            [Item.size (readFrom ⟨false, false⟩ (String.mk (sgn ++ ds))).magnitude.length]
          else [])) := by
  have htw : ds.takeWhile (validDigit 10) = ds := by
    rw [List.takeWhile_eq_self_iff]; exact hall
  -- the call of strToBigInteger made by readFrom
  have hcall : ∃ (start : Nat) (signArg : Sign), start < 2 ^ 32 ∧
      readFrom ⟨false, false⟩ (String.mk (sgn ++ ds)) =
        strToBigInteger (String.mk (sgn ++ ds)) 10 start signArg ∧
      (sgn ++ ds).drop start = ds ∧ (signArg = Negative ↔ sgn = ['-']) := by
    obtain ⟨c, cs, rfl⟩ : ∃ c cs, ds = c :: cs := by
      cases ds with
      | nil => exact absurd rfl hds
      | cons c cs => exact ⟨c, cs, rfl⟩
    have hc := hall c (List.mem_cons_self _ _)
    have hc1 : c ≠ '-' := by rintro rfl; revert hc; decide
    have hc2 : c ≠ '+' := by rintro rfl; revert hc; decide
    rcases hs with rfl | rfl | rfl
    · refine ⟨0, Positive, by norm_num, ?_, rfl, by simp⟩
      simp [readFrom, radixOfFlags, hc1, hc2]
    · refine ⟨1, Positive, by norm_num, ?_, rfl, by simp⟩
      simp [readFrom, radixOfFlags]
    · refine ⟨1, Negative, by norm_num, ?_, rfl, by simp⟩
      simp [readFrom, radixOfFlags]
  obtain ⟨start, signArg, hst, hread, hdrop, hsign⟩ := hcall
  obtain ⟨p1, p2, p3, p4⟩ := strToBigInteger_horner (String.mk (sgn ++ ds)) 10 start signArg
    (by simp) hlen hst
  have hdata : (String.mk (sgn ++ ds)).data = sgn ++ ds := rfl
  rw [hdata, hdrop, htw] at p2 p3 p4
  have h10 : (10 : Int).toNat = 10 := rfl
  rw [h10] at p2 p3 p4
  rw [← hread] at p1 p2 p3 p4
  have hsz : Addressable (readFrom ⟨false, false⟩ (String.mk (sgn ++ ds))) := by
    apply addressable_of_small p1 (n := ds.length)
    · rw [List.length_append] at hlen; omega
    · rw [p2]; exact positional_lt 10 (by norm_num) ds
  rw [printOn_spec _ _ p1 hsz]
  have hrx : (radixOfFlags ⟨false, false⟩).toNat = 10 := rfl
  rw [hrx, p2]
  by_cases hz : positional 10 ds = 0
  · have hm := (canonical_limbsVal_eq_zero p1).mp (p2.trans hz)
    rw [if_pos hm, if_pos hz]
  · have hm : (readFrom ⟨false, false⟩ (String.mk (sgn ++ ds))).magnitude ≠ [0] := by
      intro h; exact hz (p2.symm.trans ((canonical_limbsVal_eq_zero p1).mpr h))
    rw [if_neg hm, if_neg hz, p4 hz]
    by_cases hneg : sgn = ['-']
    · rw [if_pos (hsign.mpr hneg), if_pos hneg]
    · rw [if_neg (fun h => hneg (hsign.mp h)), if_neg hneg]

/-- When the 32-bit `len` wraps to zero the loop of `strToBigInteger` never runs. -/
theorem strToBigInteger_of_length_wrap (s : String) (radix start : Int) (signArg : Sign)
    (h : s.length % 2 ^ 32 = 0) : strToBigInteger s radix start signArg = ⟨[0], Positive⟩ := by
  unfold strToBigInteger
  simp only [h, List.take_zero, List.drop_nil, strLoop]
  rfl

theorem readFrom_of_length_wrap (flags : Flags) (s : String) (h : s.length % 2 ^ 32 = 0) :
    readFrom flags s = ⟨[0], Positive⟩ := by
  unfold readFrom
  simp only
  split_ifs <;> exact strToBigInteger_of_length_wrap _ _ _ _ h

theorem length_wraps : (String.mk (List.replicate 4294967296 '1')).length % 2 ^ 32 = 0 := by
  have hl : (String.mk (List.replicate 4294967296 '1')).length = 4294967296 :=
    List.length_replicate _ _
  rw [hl]; norm_num

theorem positional_pos (radix : Nat) (hr : 0 < radix) (c : Char) (cs : List Char)
    (hc : 0 < digitValue c) : 0 < positional radix (c :: cs) := by
  have : 0 < radix ^ cs.length := Nat.pos_pow_of_pos _ hr
  have := Nat.mul_pos hc this
  simp only [positional]
  omega

/-- C9 (the code at the failing input): for the string of `2^32` characters `'1'`, radix 10 and
start index 0, `unsigned len = numStr.size()` is 0, the loop never runs and the result is zero,
although every character belongs to the longest valid prefix, whose positional value is not
zero. -/
theorem C9_length_truncated :
    strToBigInteger (String.mk (List.replicate 4294967296 '1')) 10 0 Positive =
      ⟨[0], Positive⟩ ∧
    0 < positional 10 (((String.mk (List.replicate 4294967296 '1')).data.drop 0).takeWhile
      (validDigit 10)) := by
  refine ⟨strToBigInteger_of_length_wrap _ _ _ _ length_wraps, ?_⟩
  have e : (String.mk (List.replicate 4294967296 '1')).data =
      '1' :: List.replicate 4294967295 '1' := by
    show List.replicate (4294967295 + 1) '1' = _
    rw [List.replicate_succ]
  have hv : validDigit 10 '1' = true := by decide
  rw [e, List.drop_zero, List.takeWhile_cons_of_pos hv]
  exact positional_pos 10 (by norm_num) _ _ (by decide)

/-- C10 (the code at the failing input): the decimal string of `2^32` digits `1`, read in
decimal, is the value zero, and printing it sends `"0BI"` to the stream instead of the `2^32`
digits of the number the string denotes. -/
theorem C10_round_trip_truncated :
    readFrom ⟨false, false⟩ (String.mk (List.replicate 4294967296 '1')) = ⟨[0], Positive⟩ ∧
    printOn ⟨[0], Positive⟩ ⟨false, false⟩ = .ok [Item.text "0BI"] :=
  ⟨readFrom_of_length_wrap _ _ length_wraps, rfl⟩

/-- C11 (the code at the failing input): for the most negative `int`, `-val` wraps to the same
negative `int`, and its conversion to the 64-bit limb is `2^64 - 2^31`, so the constructor
returns the magnitude `18446744071562067968` instead of `2147483648` and the value is not
`v`. -/
theorem C11_most_negative_int :
    ofInt (-2147483648) = ⟨[18446744071562067968], Negative⟩ ∧
    val (ofInt (-2147483648)) = -18446744071562067968 ∧
    val (ofInt (-2147483648)) ≠ -2147483648 ∧
    ofLong (-2147483648) = ⟨[2147483648], Negative⟩ := by
  decide

/-- C12: every construction of zero gives the one representation, magnitude `[0]` with sign
Positive: the native constructors at 0, the default constructor, the texts `"0"`, `"-0"` and
`"+0"` (through the string constructor and through decimal stream input), and `a - a` for
every `a`; that value is `==` to itself and not `<` itself. -/
theorem C12_canonical_zero :
    (ofInt 0 = ⟨[0], Positive⟩ ∧ ofUInt 0 = ⟨[0], Positive⟩ ∧ ofLong 0 = ⟨[0], Positive⟩ ∧
      ofULong 0 = ⟨[0], Positive⟩ ∧ ofLongLong 0 = ⟨[0], Positive⟩ ∧
      ofULongLong 0 = ⟨[0], Positive⟩ ∧ ofNothing = ⟨[0], Positive⟩) ∧
    (ofString "0" = ⟨[0], Positive⟩ ∧ ofString "-0" = ⟨[0], Positive⟩ ∧
      ofString "+0" = ⟨[0], Positive⟩ ∧
      readFrom ⟨false, false⟩ "0" = ⟨[0], Positive⟩ ∧
      readFrom ⟨false, false⟩ "-0" = ⟨[0], Positive⟩ ∧
      readFrom ⟨false, false⟩ "+0" = ⟨[0], Positive⟩) ∧
    (∀ a : BigInteger, opSub a a = ⟨[0], Positive⟩) ∧
    (opEq ⟨[0], Positive⟩ ⟨[0], Positive⟩ = true ∧
      opLt ⟨[0], Positive⟩ ⟨[0], Positive⟩ = false ∧
      opGt ⟨[0], Positive⟩ ⟨[0], Positive⟩ = false) := by
  have hnative : ofInt 0 = ⟨[0], Positive⟩ ∧ ofUInt 0 = ⟨[0], Positive⟩ ∧
      ofLong 0 = ⟨[0], Positive⟩ ∧ ofULong 0 = ⟨[0], Positive⟩ ∧
      ofLongLong 0 = ⟨[0], Positive⟩ ∧ ofULongLong 0 = ⟨[0], Positive⟩ ∧
      ofNothing = ⟨[0], Positive⟩ := by decide
  have htext : ofString "0" = ⟨[0], Positive⟩ ∧ ofString "-0" = ⟨[0], Positive⟩ ∧
      ofString "+0" = ⟨[0], Positive⟩ ∧
      readFrom ⟨false, false⟩ "0" = ⟨[0], Positive⟩ ∧
      readFrom ⟨false, false⟩ "-0" = ⟨[0], Positive⟩ ∧
      readFrom ⟨false, false⟩ "+0" = ⟨[0], Positive⟩ := by decide
  refine ⟨hnative, htext, ?_, by decide⟩
  intro a
  unfold opSub plusEquals opNeg flipSign
  by_cases hz : isZero a = true
  · rw [if_pos hz, if_pos hz]
    have hm := (isZero_iff a).mp hz
    cases a
    simp_all
  · rw [if_neg hz, if_neg hz]
    have hflip : ∀ b : BigInteger, b.magnitude = a.magnitude → b.sign ≠ a.sign →
        (if isZero b = true then a
          else if a.sign = b.sign then addMagnitude a b
          else if a.magnitude = b.magnitude then makeZero
          else if compareMagnitude a b = Arg1Larger then subtractMagnitude a b
          else subtractMagnitude b a) = ⟨[0], Positive⟩ := by
      intro b hm hs
      have hzb : ¬ isZero b = true := by
        rw [isZero_iff, hm, ← isZero_iff]; exact hz
      rw [if_neg hzb, if_neg (fun h => hs h.symm), if_pos hm.symm]
      rfl
    by_cases hs : a.sign = Positive
    · rw [if_pos hs]
      exact hflip _ rfl (by rw [hs]; exact fun h => Sign.noConfusion h)
    · rw [if_neg hs]
      exact hflip _ rfl (fun h => hs h.symm)

/-- C13: shift round trip.  For every canonical `a` (in particular every `a ≥ 0`) and every
canonical shift amount `N ≥ 0`, `a << N` returns some `b`, `b >> N` returns some `c`, and
`c == a`. -/
theorem C13_shift_round_trip (a n : BigInteger) (ha : Canonical a) (hn : Canonical n)
    (hn0 : 0 ≤ val n) :
    ∃ b c, opShl a n = some b ∧ opShr b n = some c ∧ opEq c a = true := by
  have hk := val_eq_toNat hn0
  obtain ⟨l1, l2, l3⟩ := iterate_shiftMeLeft1_spec a ha (val n).toNat
  obtain ⟨r1, r2, r3, r4⟩ := iterate_shiftMeRight1_spec _ l1.1 l1.2.1 (val n).toNat
  refine ⟨_, _, opShl_nonneg a n _ hn hk, opShr_nonneg _ n _ hn hk, ?_⟩
  rw [opEq_iff]
  have hv : limbsVal (shiftMeRight1^[(val n).toNat] (shiftMeLeft1^[(val n).toNat] a)).magnitude
      = limbsVal a.magnitude := by
    rw [r3, l2]
    exact Nat.mul_div_cancel_left (limbsVal a.magnitude) (Nat.two_pow_pos (val n).toNat)
  exact bigInteger_ext (magCanonical_inj r1 ha.1 r2 ha.2.1 hv) (r4.trans l3)

/-- Witness of C13 at `(1 << 64) >> 64 == 1`. -/
theorem C13_shift_round_trip_witness :
    Canonical (ofInt 1) ∧ Canonical (ofInt 64) ∧ 0 ≤ val (ofInt 64) ∧
    (∃ b c, opShl (ofInt 1) (ofInt 64) = some b ∧ opShr b (ofInt 64) = some c ∧
      opEq c (ofInt 1) = true) ∧
    opShl (ofInt 1) (ofInt 64) = some ⟨[0, 1], Positive⟩ ∧
    opShr ⟨[0, 1], Positive⟩ (ofInt 64) = some (ofInt 1) :=
  ⟨by decide, by decide, by decide,
    C13_shift_round_trip (ofInt 1) (ofInt 64) (by decide) (by decide) (by decide),
    by decide, by decide⟩

/-- C14: left shift never loses bits.  For canonical `a` and a canonical shift amount `N ≥ 0`,
`a << N` returns a value with `val = val a * 2^N` and the sign of `a`, and `a <<= N` leaves the
same value in `a`. -/
theorem C14_left_shift_exact (a n : BigInteger) (ha : Canonical a) (hn : Canonical n)
    (hn0 : 0 ≤ val n) :
    ∃ b, opShl a n = some b ∧ opShlAssign a n = some b ∧
      val b = val a * 2 ^ (val n).toNat ∧ b.sign = a.sign ∧
      limbsVal b.magnitude = limbsVal a.magnitude * 2 ^ (val n).toNat := by
  have hk := val_eq_toNat hn0
  obtain ⟨_, l2, l3⟩ := iterate_shiftMeLeft1_spec a ha (val n).toNat
  have hshl := opShl_nonneg a n _ hn hk
  refine ⟨_, hshl, hshl, ?_, l3, by rw [l2, Nat.mul_comm]⟩
  rw [val_eq_applySign, val_eq_applySign a, l2, l3]
  cases a.sign <;> simp only [applySign] <;> push_cast <;> ring

/-- Witness of C14 at `a = 16000000000000000022`, `N = 32` (`i <<= 32` of the test driver). -/
theorem C14_left_shift_exact_witness :
    Canonical (ofULongLong 16000000000000000022) ∧ Canonical (ofInt 32) ∧
    0 ≤ val (ofInt 32) ∧
    (∃ b, opShl (ofULongLong 16000000000000000022) (ofInt 32) = some b ∧
      opShlAssign (ofULongLong 16000000000000000022) (ofInt 32) = some b ∧
      val b = val (ofULongLong 16000000000000000022) * 2 ^ (val (ofInt 32)).toNat ∧
      b.sign = (ofULongLong 16000000000000000022).sign ∧
      limbsVal b.magnitude =
        limbsVal (ofULongLong 16000000000000000022).magnitude * 2 ^ (val (ofInt 32)).toNat) ∧
    opShl (ofULongLong 16000000000000000022) (ofInt 32) =
      some ⟨[8520810589474258944, 3725290298], Positive⟩ :=
  ⟨by decide, by decide, by decide,
    C14_left_shift_exact (ofULongLong 16000000000000000022) (ofInt 32) (by decide) (by decide)
      (by decide), by decide⟩

/-- C15: right shift is an unsigned shift of the magnitude.  For canonical `a` and a canonical
shift amount `N ≥ 0`, `a >> N` (and `a >>= N`) returns a magnitude that denotes
`|a| / 2^N` rounded down and has no high-order zero limb other than the single limb `[0]`. -/
theorem C15_right_shift_magnitude (a n : BigInteger) (ha : Canonical a) (hn : Canonical n)
    (hn0 : 0 ≤ val n) :
    ∃ b, opShr a n = some b ∧ opShrAssign a n = some b ∧
      limbsVal b.magnitude = limbsVal a.magnitude / 2 ^ (val n).toNat ∧
      MagCanonical b.magnitude ∧ LimbsOk b.magnitude := by
  have hk := val_eq_toNat hn0
  obtain ⟨r1, r2, r3, _⟩ := iterate_shiftMeRight1_spec a ha.1 ha.2.1 (val n).toNat
  have hshr := opShr_nonneg a n _ hn hk
  exact ⟨_, hshr, hshr, r3, r2, r1⟩

/-- Witness of C15 at `a = 2^64 + 2^36`, `N = 4` (a shift like `i >>= 4` of the test driver,
here moving a bit of the high limb into the low limb). -/
theorem C15_right_shift_magnitude_witness :
    Canonical ⟨[68719476736, 1], Positive⟩ ∧ Canonical (ofInt 4) ∧ 0 ≤ val (ofInt 4) ∧
    (∃ b, opShr ⟨[68719476736, 1], Positive⟩ (ofInt 4) = some b ∧
      opShrAssign ⟨[68719476736, 1], Positive⟩ (ofInt 4) = some b ∧
      limbsVal b.magnitude =
        limbsVal (⟨[68719476736, 1], Positive⟩ : BigInteger).magnitude /
          2 ^ (val (ofInt 4)).toNat ∧
      MagCanonical b.magnitude ∧ LimbsOk b.magnitude) ∧
    opShr ⟨[68719476736, 1], Positive⟩ (ofInt 4) = some ⟨[1152921508901814272], Positive⟩ :=
  ⟨by decide, by decide, by decide,
    C15_right_shift_magnitude ⟨[68719476736, 1], Positive⟩ (ofInt 4) (by decide) (by decide)
      (by decide), by decide⟩

/-- C16: bitwise AND and OR act on the raw magnitudes.  For canonical `a` and `b` the magnitude
of `a & b` denotes the bitwise AND of the naturals `|a|` and `|b|`, the magnitude of `a | b`
their bitwise OR, and both results have no high-order zero limb other than the single limb
`[0]`; `&=` and `|=` leave the same values. -/
theorem C16_bitwise_magnitudes (a b : BigInteger) (ha : Canonical a) (hb : Canonical b) :
    limbsVal (opAnd a b).magnitude = limbsVal a.magnitude &&& limbsVal b.magnitude ∧
    limbsVal (opOr a b).magnitude = limbsVal a.magnitude ||| limbsVal b.magnitude ∧
    MagCanonical (opAnd a b).magnitude ∧ MagCanonical (opOr a b).magnitude ∧
    opAndAssign a b = opAnd a b ∧ opOrAssign a b = opOr a b := by
  obtain ⟨a1, a2, _⟩ := opAnd_spec a b ha hb
  obtain ⟨o1, o2, _⟩ := opOr_spec a b ha hb
  exact ⟨a2, o2, a1.2.1, o1.2.1, rfl, rfl⟩

/-- Witness of C16 at `a = 2^64 + 6` (two limbs) and `b = -3` (one limb). -/
theorem C16_bitwise_magnitudes_witness :
    Canonical ⟨[6, 1], Positive⟩ ∧ Canonical (ofInt (-3)) ∧
    (limbsVal (opAnd ⟨[6, 1], Positive⟩ (ofInt (-3))).magnitude =
        limbsVal (⟨[6, 1], Positive⟩ : BigInteger).magnitude &&&
          limbsVal (ofInt (-3)).magnitude) ∧
    opAnd ⟨[6, 1], Positive⟩ (ofInt (-3)) = ⟨[2], Positive⟩ ∧
    opOr ⟨[6, 1], Positive⟩ (ofInt (-3)) = ⟨[7, 1], Positive⟩ :=
  ⟨by decide, by decide,
    (C16_bitwise_magnitudes ⟨[6, 1], Positive⟩ (ofInt (-3)) (by decide) (by decide)).1,
    by decide, by decide⟩

/-- The branch taken by the string constructor.  Write the string as an optional sign `sgn`
(`+`, `-` or nothing) followed by the rest.  If the rest starts with `0x` or `0X` the
constructor calls `strToBigInteger` from just after that mark with radix 16; otherwise, if it
starts with `0`, from just after that `0` with radix 8; otherwise on the whole rest with radix
10.  The requested sign is Negative exactly for the sign `-`. -/
theorem ofString_dispatch (sgn rest : List Char)
    (hs : sgn = [] ∨ sgn = ['+'] ∨ sgn = ['-']) :
    ofString (String.mk (sgn ++ '0' :: 'x' :: rest)) =
      strToBigInteger (String.mk (sgn ++ '0' :: 'x' :: rest)) 16 ((sgn.length + 2 : Nat) : Int)
        (if sgn = ['-'] then Negative else Positive) ∧
    ofString (String.mk (sgn ++ '0' :: 'X' :: rest)) =
      strToBigInteger (String.mk (sgn ++ '0' :: 'X' :: rest)) 16 ((sgn.length + 2 : Nat) : Int)
        (if sgn = ['-'] then Negative else Positive) ∧
    (rest.head? ≠ some 'x' → rest.head? ≠ some 'X' →
      ofString (String.mk (sgn ++ '0' :: rest)) =
        strToBigInteger (String.mk (sgn ++ '0' :: rest)) 8 ((sgn.length + 1 : Nat) : Int)
          (if sgn = ['-'] then Negative else Positive)) ∧
    (rest.head? ≠ some '0' → (sgn = [] → rest.head? ≠ some '+' ∧ rest.head? ≠ some '-') →
      ofString (String.mk (sgn ++ rest)) =
        strToBigInteger (String.mk (sgn ++ rest)) 10 ((sgn.length : Nat) : Int)
          (if sgn = ['-'] then Negative else Positive)) := by
  have hx : ('0' : Char) ≠ '-' ∧ ('0' : Char) ≠ '+' ∧ ('x' : Char) ≠ 'X' ∧
      ('X' : Char) ≠ 'x' := by decide
  refine ⟨?_, ?_, ?_, ?_⟩
  · rcases hs with rfl | rfl | rfl <;> simp [ofString, hx]
  · rcases hs with rfl | rfl | rfl <;> simp [ofString, hx]
  · intro h1 h2
    cases rest with
    | nil => rcases hs with rfl | rfl | rfl <;> simp [ofString, hx]
    | cons c cs =>
      have c1 : c ≠ 'x' := by simpa using h1
      have c2 : c ≠ 'X' := by simpa using h2
      rcases hs with rfl | rfl | rfl <;> simp [ofString, hx, c1, c2]
  · intro h0 hsg
    cases rest with
    | nil => rcases hs with rfl | rfl | rfl <;> simp [ofString]
    | cons c cs =>
      have c0 : c ≠ '0' := by simpa using h0
      rcases hs with rfl | rfl | rfl
      · have := hsg rfl
        have c1 : c ≠ '+' := by simpa using this.1
        have c2 : c ≠ '-' := by simpa using this.2
        cases cs <;> simp [ofString, c0, c1, c2]
      · cases cs <;> simp [ofString, c0]
      · cases cs <;> simp [ofString, c0]

/-- The value parsed by `strToBigInteger` from a string shorter than `2^32` characters: the
requested sign applied to the positional value of the longest valid digit run. -/
theorem strToBigInteger_val (s : String) (radix : Int) (start : Nat) (signArg : Sign)
    (hr : radix = 8 ∨ radix = 10 ∨ radix = 16) (hlen : s.length < 2 ^ 32)
    (hstart : start < 2 ^ 32) :
    Canonical (strToBigInteger s radix start signArg) ∧
    val (strToBigInteger s radix start signArg) = applySign signArg
      (positional radix.toNat ((s.data.drop start).takeWhile (validDigit radix))) := by
  obtain ⟨p1, p2, _, p4⟩ := strToBigInteger_horner s radix start signArg hr hlen hstart
  refine ⟨p1, ?_⟩
  rw [← p2]
  apply val_of_sign_rule
  intro hm
  apply p4
  rw [← p2]
  intro h0
  exact hm ((canonical_limbsVal_eq_zero p1).mp h0)

theorem parse_after (sgn pre rest : List Char) (radix : Int) (signArg : Sign)
    (hl : sgn.length ≤ 1) (hp : pre.length ≤ 2) (hr : radix = 8 ∨ radix = 10 ∨ radix = 16)
    (hlen : (sgn ++ (pre ++ rest)).length < 2 ^ 32) :
    Canonical (strToBigInteger (String.mk (sgn ++ (pre ++ rest))) radix
      ((sgn.length + pre.length : Nat) : Int) signArg) ∧
    val (strToBigInteger (String.mk (sgn ++ (pre ++ rest))) radix
      ((sgn.length + pre.length : Nat) : Int) signArg) =
      applySign signArg (positional radix.toNat (rest.takeWhile (validDigit radix))) := by
  have h := strToBigInteger_val (String.mk (sgn ++ (pre ++ rest))) radix
    (sgn.length + pre.length) signArg hr hlen (by omega)
  have hd : (String.mk (sgn ++ (pre ++ rest))).data.drop (sgn.length + pre.length) = rest := by
    show (sgn ++ (pre ++ rest)).drop (sgn.length + pre.length) = rest
    rw [← List.append_assoc, ← List.length_append, List.drop_left]
  rw [hd] at h
  exact h

/-- The value that the string constructor gives to a string shorter than `2^32` characters,
written as an optional sign `sgn` followed by the rest: the result is canonical and its value
is the sign applied to the positional value, in radix 16 of the digits after `0x` or `0X`, in
radix 8 of the digits after a leading `0`, and otherwise in radix 10 of the digits, each run
of digits ending at the first character that is not a digit of the radix. -/
theorem ofString_spec (sgn rest : List Char) (hs : sgn = [] ∨ sgn = ['+'] ∨ sgn = ['-']) :
    ((sgn ++ '0' :: 'x' :: rest).length < 2 ^ 32 →
      (Canonical (ofString (String.mk (sgn ++ '0' :: 'x' :: rest))) ∧
        val (ofString (String.mk (sgn ++ '0' :: 'x' :: rest))) =
          applySign (if sgn = ['-'] then Negative else Positive)
            (positional 16 (rest.takeWhile (validDigit 16)))) ∧
      (Canonical (ofString (String.mk (sgn ++ '0' :: 'X' :: rest))) ∧
        val (ofString (String.mk (sgn ++ '0' :: 'X' :: rest))) =
          applySign (if sgn = ['-'] then Negative else Positive)
            (positional 16 (rest.takeWhile (validDigit 16))))) ∧
    ((sgn ++ '0' :: rest).length < 2 ^ 32 → rest.head? ≠ some 'x' → rest.head? ≠ some 'X' →
      Canonical (ofString (String.mk (sgn ++ '0' :: rest))) ∧
      val (ofString (String.mk (sgn ++ '0' :: rest))) =
        applySign (if sgn = ['-'] then Negative else Positive)
          (positional 8 (rest.takeWhile (validDigit 8)))) ∧
    ((sgn ++ rest).length < 2 ^ 32 → rest.head? ≠ some '0' →
      (sgn = [] → rest.head? ≠ some '+' ∧ rest.head? ≠ some '-') →
      Canonical (ofString (String.mk (sgn ++ rest))) ∧
      val (ofString (String.mk (sgn ++ rest))) =
        applySign (if sgn = ['-'] then Negative else Positive)
          (positional 10 (rest.takeWhile (validDigit 10)))) := by
  have hl : sgn.length ≤ 1 := by rcases hs with rfl | rfl | rfl <;> simp
  obtain ⟨d1, d2, d3, d4⟩ := ofString_dispatch sgn rest hs
  refine ⟨fun hlen => ⟨?_, ?_⟩, fun hlen h1 h2 => ?_, fun hlen h0 hsg => ?_⟩
  · rw [d1]
    exact parse_after sgn ['0', 'x'] rest 16 _ hl (by simp) (by simp) hlen
  · have hlen2 : (sgn ++ '0' :: 'X' :: rest).length < 2 ^ 32 := by
      simp only [List.length_append, List.length_cons] at hlen ⊢
      exact hlen
    rw [d2]
    exact parse_after sgn ['0', 'X'] rest 16 _ hl (by simp) (by simp) hlen2
  · rw [d3 h1 h2]
    exact parse_after sgn ['0'] rest 8 _ hl (by simp) (by simp) hlen
  · rw [d4 h0 hsg]
    exact parse_after sgn [] rest 10 _ hl (by simp) (by simp) hlen

/-- When the 32-bit `len` of `strToBigInteger` wraps to zero, the string constructor gives
zero whichever branch it takes. -/
theorem ofString_of_length_wrap (s : String) (h : s.length % 2 ^ 32 = 0) :
    ofString s = ⟨[0], Positive⟩ := by
  unfold ofString
  simp only
  split_ifs <;> exact strToBigInteger_of_length_wrap _ _ _ _ h

/-- C17 (the code at the failing input): the string `0x` followed by `2^32 - 2` characters
`'1'` has `2^32` characters.  The string constructor takes the hexadecimal branch, calling
`strToBigInteger` with radix 16 from index 2, but there `unsigned len = numStr.size()` is 0,
the loop never runs and the result is zero, although the rest of the string is a run of
hexadecimal digits whose value is not zero.  The two examples of the claim, which are short
strings, evaluate as the claim says. -/
theorem C17_radix_length_truncated :
    ofString (String.mk ('0' :: 'x' :: List.replicate 4294967294 '1')) =
      strToBigInteger (String.mk ('0' :: 'x' :: List.replicate 4294967294 '1')) 16 2
        Positive ∧
    ofString (String.mk ('0' :: 'x' :: List.replicate 4294967294 '1')) = ⟨[0], Positive⟩ ∧
    (List.replicate 4294967294 '1').takeWhile (validDigit 16) =
      List.replicate 4294967294 '1' ∧
    0 < positional 16 ((List.replicate 4294967294 '1').takeWhile (validDigit 16)) ∧
    opEq (ofString "0x1F") (ofString "31") = true ∧
    opEq (ofString "-0x10") (ofInt (-16)) = true := by
  have hlen : (String.mk ('0' :: 'x' :: List.replicate 4294967294 '1')).length % 2 ^ 32 = 0 := by
    have hl : (String.mk ('0' :: 'x' :: List.replicate 4294967294 '1')).length =
        4294967294 + 1 + 1 := by
      show ('0' :: 'x' :: List.replicate 4294967294 '1').length = _
      rw [List.length_cons, List.length_cons, List.length_replicate]
    rw [hl]; norm_num
  have hv : validDigit 16 '1' = true := by decide
  have htw : (List.replicate 4294967294 '1').takeWhile (validDigit 16) =
      List.replicate 4294967294 '1' := by
    rw [List.takeWhile_eq_self_iff]
    intro c hc
    rw [(List.mem_replicate.mp hc).2]; exact hv
  have e : List.replicate 4294967294 '1' = '1' :: List.replicate 4294967293 '1' := by
    show List.replicate (4294967293 + 1) '1' = _
    rw [List.replicate_succ]
  refine ⟨(ofString_dispatch [] (List.replicate 4294967294 '1') (Or.inl rfl)).1,
    ofString_of_length_wrap _ hlen, htw, ?_, by decide, by decide⟩
  rw [htw, e]
  exact positional_pos 16 (by norm_num) _ _ (by decide)

/-- C18: commutativity and associativity under `operator==`.  For canonical `a`, `b`, `c`
(limb counts of `a` and `b` addressable for the product): `a + b == b + a`,
`(a + b) + c == a + (b + c)` and `a * b == b * a`; since `==` compares sign and limbs, the two
sides are the same representation. -/
theorem C18_commutative_associative (a b c : BigInteger) (ha : Canonical a) (hb : Canonical b)
    (hc : Canonical c) (hsa : Addressable a) (hsb : Addressable b) :
    opEq (opAdd a b) (opAdd b a) = true ∧
    opEq (opAdd (opAdd a b) c) (opAdd a (opAdd b c)) = true ∧
    opEq (opMul a b) (opMul b a) = true ∧
    opAdd a b = opAdd b a ∧ opAdd (opAdd a b) c = opAdd a (opAdd b c) ∧
    opMul a b = opMul b a := by
  obtain ⟨ab1, ab2⟩ := plusEquals_spec a b ha hb
  obtain ⟨ba1, ba2⟩ := plusEquals_spec b a hb ha
  obtain ⟨bc1, bc2⟩ := plusEquals_spec b c hb hc
  obtain ⟨l1, l2⟩ := plusEquals_spec (plusEquals a b) c ab1 hc
  obtain ⟨r1, r2⟩ := plusEquals_spec a (plusEquals b c) ha bc1
  have m1 := (binaryMultiply_spec a b ha hb hsb).1
  have m2 := (binaryMultiply_spec b a hb ha hsa).1
  have mv1 := binaryMultiply_val a b ha hb hsb
  have mv2 := binaryMultiply_val b a hb ha hsa
  have e1 : plusEquals a b = plusEquals b a :=
    canonical_inj ab1 ba1 (by rw [ab2, ba2]; ring)
  have e2 : plusEquals (plusEquals a b) c = plusEquals a (plusEquals b c) :=
    canonical_inj l1 r1 (by rw [l2, r2, ab2, bc2]; ring)
  have e3 : binaryMultiply a b = binaryMultiply b a :=
    canonical_inj m1 m2 (by rw [mv1, mv2]; ring)
  exact ⟨(opEq_iff _ _).mpr e1, (opEq_iff _ _).mpr e2, (opEq_iff _ _).mpr e3, e1, e2, e3⟩

/-- Witness of C18 at `a = -7`, `b = 100`, `c = 2^64 + 5`. -/
theorem C18_commutative_associative_witness :
    Canonical (ofInt (-7)) ∧ Canonical (ofInt 100) ∧ Canonical ⟨[5, 1], Positive⟩ ∧
    Addressable (ofInt (-7)) ∧ Addressable (ofInt 100) ∧
    opEq (opAdd (opAdd (ofInt (-7)) (ofInt 100)) ⟨[5, 1], Positive⟩)
      (opAdd (ofInt (-7)) (opAdd (ofInt 100) ⟨[5, 1], Positive⟩)) = true ∧
    opMul (ofInt (-7)) (ofInt 100) = ofInt (-700) :=
  ⟨by decide, by decide, by decide, by decide, by decide,
    (C18_commutative_associative (ofInt (-7)) (ofInt 100) ⟨[5, 1], Positive⟩ (by decide)
      (by decide) (by decide) (by decide) (by decide)).2.1, by decide⟩

/-- C19: additive inverse.  For canonical `a`, `a + (-a) == 0` and `(-a) + a == 0` with
`0 = BigInteger(0)`; unary minus keeps the magnitude, flips the sign of a non-zero value and
leaves zero Positive. -/
theorem C19_additive_inverse (a : BigInteger) (ha : Canonical a) :
    opEq (opAdd a (opNeg a)) (ofInt 0) = true ∧ opEq (opAdd (opNeg a) a) (ofInt 0) = true ∧
    (opNeg a).magnitude = a.magnitude ∧
    (val a ≠ 0 → (opNeg a).sign ≠ a.sign) ∧ (val a = 0 → (opNeg a).sign = Positive) := by
  obtain ⟨n1, n2, n3⟩ := opNeg_spec a ha
  obtain ⟨p1, p2⟩ := plusEquals_spec a (opNeg a) ha n1
  obtain ⟨q1, q2⟩ := plusEquals_spec (opNeg a) a n1 ha
  have h0 : Canonical (ofInt 0) := by decide
  refine ⟨?_, ?_, n3, ?_, ?_⟩
  · show opEq (plusEquals a (opNeg a)) (ofInt 0) = true
    rw [opEq_iff_val _ _ p1 h0, p2, n2, val_ofInt_zero]; ring
  · show opEq (plusEquals (opNeg a) a) (ofInt 0) = true
    rw [opEq_iff_val _ _ q1 h0, q2, n2, val_ofInt_zero]; ring
  · intro hne hs
    have : val (opNeg a) = val a := by
      rw [val_eq_applySign, val_eq_applySign a, n3, hs]
    rw [n2] at this
    omega
  · intro hz
    by_cases hm : (opNeg a).magnitude = [0]
    · exact n1.2.2 hm
    · exfalso
      apply hm
      rw [n3]
      apply (canonical_limbsVal_eq_zero ha).mp
      rw [val_eq_applySign] at hz
      cases hsg : a.sign <;> rw [hsg] at hz <;> simp only [applySign] at hz <;> omega

/-- Witness of C19 at `a = -7`. -/
theorem C19_additive_inverse_witness :
    Canonical (ofInt (-7)) ∧ opEq (opAdd (ofInt (-7)) (opNeg (ofInt (-7)))) (ofInt 0) = true ∧
    opNeg (ofInt (-7)) = ofInt 7 ∧ opNeg (ofInt 0) = ofInt 0 :=
  ⟨by decide, (C19_additive_inverse (ofInt (-7)) (by decide)).1, by decide, by decide⟩

/-- C20: multiplicative identity and zero.  For canonical `a` of either sign, `a * 1 == a`,
`1 * a == a`, `a * 0 == 0` and `0 * a == 0`, where `1 = BigInteger(1)` and `0 = BigInteger(0)`,
whose sign is Positive. -/
theorem C20_identity_and_zero (a : BigInteger) (ha : Canonical a) :
    opEq (opMul a (ofInt 1)) a = true ∧ opEq (opMul (ofInt 1) a) a = true ∧
    opEq (opMul a (ofInt 0)) (ofInt 0) = true ∧ opEq (opMul (ofInt 0) a) (ofInt 0) = true ∧
    (opMul a (ofInt 0)).sign = Positive ∧ (opMul (ofInt 0) a).sign = Positive := by
  have h1 : Canonical (ofInt 1) := by decide
  have h0 : Canonical (ofInt 0) := by decide
  have e1 : opMul a (ofInt 1) = a := by
    show binaryMultiply a (ofInt 1) = a
    apply canonical_inj (binaryMultiply_spec a (ofInt 1) ha h1 (by decide)).1 ha
    rw [binaryMultiply_val a (ofInt 1) ha h1 (by decide)]
    have : val (ofInt 1) = 1 := by decide
    rw [this]; ring
  have e3 : opMul a (ofInt 0) = ofInt 0 := by
    show binaryMultiply a (ofInt 0) = ofInt 0
    apply canonical_inj (binaryMultiply_spec a (ofInt 0) ha h0 (by decide)).1 h0
    rw [binaryMultiply_val a (ofInt 0) ha h0 (by decide), val_ofInt_zero]; ring
  have e4 : opMul (ofInt 0) a = ofInt 0 := by
    have hz : (isZero a || isZero (ofInt 0)) = true := by
      have : isZero (ofInt 0) = true := by decide
      rw [this]; simp
    have hne : opNe bigZero bigZero = false := by decide
    unfold opMul binaryMultiply
    simp only [hz, if_true, hne, Bool.false_eq_true, if_false]
    rfl
  have e2 : opMul (ofInt 1) a = a := by
    unfold opMul binaryMultiply
    simp only
    have hz1 : isZero (ofInt 1) = false := by decide
    by_cases hza : isZero a = true
    · have hm := (isZero_iff a).mp hza
      have hs := ha.2.2 hm
      have ea : a = bigZero := by
        rw [bigZero_eq]
        exact bigInteger_ext hm hs
      have hne : opNe bigZero bigZero = false := by decide
      simp only [hza, Bool.true_or, if_true, hne, Bool.false_eq_true, if_false]
      exact ea.symm
    · have hza' : isZero a = false := by simpa using hza
      have hnz : opNe a bigZero = true :=
        (opNe_bigZero_iff ha).mpr (by
          rw [Ne, canonical_limbsVal_eq_zero ha, ← isZero_iff]; exact hza)
      by_cases ha1 : opEq a bigOne = true
      · have ea := (opEq_iff _ _).mp ha1
        have hb : ofInt 1 = bigOne := rfl
        rw [hb, ea]
        decide
      · have hself : opEq (ofInt 1) bigOne = true := by decide
        simp only [hza', hz1, Bool.or_self, Bool.false_eq_true, if_false, ha1, hself, if_true,
          hnz]
        have hs1 : (ofInt 1).sign = Positive := by decide
        rcases sign_cases a.sign with hs | hs
        · rw [if_pos (by rw [hs, hs1])]
          exact bigInteger_ext rfl hs.symm
        · rw [if_neg (by rw [hs, hs1]; exact fun h => Sign.noConfusion h)]
          exact bigInteger_ext rfl hs.symm
  refine ⟨(opEq_iff _ _).mpr e1, (opEq_iff _ _).mpr e2, (opEq_iff _ _).mpr e3,
    (opEq_iff _ _).mpr e4, ?_, ?_⟩
  · rw [e3]; decide
  · rw [e4]; decide

/-- Witness of C20 at `a = -7`. -/
theorem C20_identity_and_zero_witness :
    Canonical (ofInt (-7)) ∧ opEq (opMul (ofInt (-7)) (ofInt 1)) (ofInt (-7)) = true ∧
    opMul (ofInt 1) (ofInt (-7)) = ofInt (-7) ∧ opMul (ofInt (-7)) (ofInt 0) = ofInt 0 :=
  ⟨by decide, (C20_identity_and_zero (ofInt (-7)) (by decide)).1, by decide, by decide⟩

/-- C21: the short-circuit tests of `binaryMultiply` are a pure optimisation.  For canonical
operands the result of `binaryMultiply` is the same BigInteger, sign and limb sequence, as
that of the general algorithm alone: the shift-and-add loop over `numBits` iterations and the
same sign fix-up.  This holds in particular when an operand is zero or +1, the cases that
`binaryMultiply` answers without running the loop. -/
theorem C21_fast_paths_agree (multiplicand multiplier : BigInteger)
    (h1 : Canonical multiplicand) (h2 : Canonical multiplier) (hsz : Addressable multiplier) :
    binaryMultiply multiplicand multiplier = generalMultiply multiplicand multiplier ∧
    (binaryMultiply multiplicand multiplier).sign =
      (generalMultiply multiplicand multiplier).sign ∧
    (binaryMultiply multiplicand multiplier).magnitude =
      (generalMultiply multiplicand multiplier).magnitude ∧
    (isZero multiplier = true ∨ isZero multiplicand = true →
      generalMultiply multiplicand multiplier = bigZero) ∧
    (opEq multiplier bigOne = true →
      generalMultiply multiplicand multiplier = multiplicand) ∧
    (opEq multiplicand bigOne = true →
      generalMultiply multiplicand multiplier = multiplier) := by
  have hb := binaryMultiply_spec multiplicand multiplier h1 h2 hsz
  have hg := generalMultiply_spec multiplicand multiplier h1 h2 hsz
  have hv := binaryMultiply_val multiplicand multiplier h1 h2 hsz
  have e : binaryMultiply multiplicand multiplier = generalMultiply multiplicand multiplier :=
    canonical_inj hb.1 hg.1 (by rw [hv, hg.2])
  refine ⟨e, by rw [e], by rw [e], ?_, ?_, ?_⟩
  · intro h
    apply canonical_inj hg.1 canonical_bigZero
    rw [hg.2, val_zero_mag (a := bigZero) rfl]
    rcases h with h | h
    · rw [val_zero_mag ((isZero_iff _).mp h), mul_zero]
    · rw [val_zero_mag ((isZero_iff _).mp h), zero_mul]
  · intro h
    apply canonical_inj hg.1 h1
    rw [hg.2, (opEq_iff _ _).mp h]
    have : val bigOne = 1 := by decide
    rw [this, mul_one]
  · intro h
    apply canonical_inj hg.1 h2
    rw [hg.2, (opEq_iff _ _).mp h]
    have : val bigOne = 1 := by decide
    rw [this, one_mul]

/-- Witness of C21 at the two-limb value `-(5 + 7 * 2^64)` against the operands +1 and 0, in
both positions; the general algorithm is evaluated on each. -/
theorem C21_fast_paths_agree_witness :
    Canonical ⟨[5, 7], Negative⟩ ∧ Canonical (ofInt 1) ∧ Addressable (ofInt 1) ∧
    binaryMultiply ⟨[5, 7], Negative⟩ (ofInt 1) = generalMultiply ⟨[5, 7], Negative⟩ (ofInt 1) ∧
    generalMultiply ⟨[5, 7], Negative⟩ (ofInt 1) = ⟨[5, 7], Negative⟩ ∧
    generalMultiply (ofInt 1) ⟨[5, 7], Negative⟩ = ⟨[5, 7], Negative⟩ ∧
    generalMultiply (ofInt 0) ⟨[5, 7], Negative⟩ = ⟨[0], Positive⟩ ∧
    generalMultiply ⟨[5, 7], Negative⟩ (ofInt 0) = ⟨[0], Positive⟩ :=
  ⟨by decide, by decide, by decide,
    (C21_fast_paths_agree ⟨[5, 7], Negative⟩ (ofInt 1) (by decide) (by decide) (by decide)).1,
    by decide, by decide, by decide, by decide⟩

/-- C22: formatting by repeated division.  For a canonical value and any stream flags the
radix is 8, 10 or 16.  Zero is sent as the single item `"0BI"`, with no sign.  For a non-zero
value the digit loop ends under every bound that exceeds the bit length of the value, and
`printOn` sends a `"-"` exactly for a negative value, then the digits, then the marker `"BI"`
and the limb count of a value of more than one limb.  The digits are the base-radix digits of
the absolute value, most significant first: each is below the radix, their positional value
is the absolute value, there is at least one and the first is not 0. -/
theorem C22_print_digits (v : BigInteger) (flags : Flags) (hv : Canonical v)
    (hsz : Addressable v) :
    (radixOfFlags flags = 8 ∨ radixOfFlags flags = 10 ∨ radixOfFlags flags = 16) ∧
    (val v = 0 → printOn v flags = .ok [Item.text "0BI"]) ∧
    (val v ≠ 0 → ∃ ds : List Nat,
      (∀ fuel, (val v).natAbs < 2 ^ fuel →
        digitLoop (fuel + 1) v (ofInt (radixOfFlags flags)) [] = .ok (ds.map Int.ofNat)) ∧
      printOn v flags = .ok ((if val v < 0 then [Item.text "-"] else []) ++
        ds.map (fun d => Item.digit (Int.ofNat d)) ++ [Item.text "BI"] ++
        (if v.magnitude.length > 1 then [Item.size v.magnitude.length] else [])) ∧
      ds = (Nat.digits (radixOfFlags flags).toNat (val v).natAbs).reverse ∧
      Nat.ofDigits (radixOfFlags flags).toNat ds.reverse = (val v).natAbs ∧
      (∀ d ∈ ds, d < (radixOfFlags flags).toNat) ∧ ds ≠ [] ∧ ds.head? ≠ some 0) := by
  have hr : radixOfFlags flags = 8 ∨ radixOfFlags flags = 10 ∨ radixOfFlags flags = 16 := by
    unfold radixOfFlags; split_ifs <;> simp
  have hr1 : 1 < (radixOfFlags flags).toNat := by
    rcases hr with h | h | h <;> rw [h] <;> decide
  have hp := printOn_spec v flags hv hsz
  refine ⟨hr, fun h0 => ?_, fun h0 => ?_⟩
  · rw [hp, if_pos ((val_eq_zero_iff hv).mp h0)]
  · have hm : v.magnitude ≠ [0] := fun h => h0 ((val_eq_zero_iff hv).mpr h)
    have hn : (val v).natAbs ≠ 0 := by omega
    have hsgn : (val v < 0) = (v.sign = Negative) := propext (val_neg_iff hv)
    refine ⟨(Nat.digits (radixOfFlags flags).toNat (val v).natAbs).reverse, ?_, ?_, rfl, ?_, ?_,
      ?_, ?_⟩
    · intro fuel hf
      rw [natAbs_val] at hf
      rw [digitLoop_spec (radixOfFlags flags) hr fuel v [] hv hsz hf, natAbs_val,
        List.append_nil]
    · rw [hp, if_neg hm, natAbs_val]
      simp only [hsgn]
    · rw [List.reverse_reverse, Nat.ofDigits_digits]
    · intro d hd
      exact Nat.digits_lt_base hr1 (List.mem_reverse.mp hd)
    · intro h
      exact (Nat.digits_ne_nil_iff_ne_zero.mpr hn) (List.reverse_eq_nil_iff.mp h)
    · rw [List.head?_reverse,
        List.getLast?_eq_getLast _ (Nat.digits_ne_nil_iff_ne_zero.mpr hn)]
      intro h
      exact Nat.getLast_digit_ne_zero _ hn (Option.some.inj h)

/-- Witness of C22 at `-255` with the hex flag set, and the items sent for `-255` in the
three radices and for zero. -/
theorem C22_print_digits_witness :
    (Canonical (ofInt (-255)) ∧ Addressable (ofInt (-255)) ∧ val (ofInt (-255)) ≠ 0) ∧
    (∃ ds : List Nat,
      printOn (ofInt (-255)) ⟨true, false⟩ = .ok ((if val (ofInt (-255)) < 0 then
        [Item.text "-"] else []) ++ ds.map (fun d => Item.digit (Int.ofNat d)) ++
        [Item.text "BI"] ++ (if (ofInt (-255)).magnitude.length > 1 then
        [Item.size (ofInt (-255)).magnitude.length] else [])) ∧
      Nat.ofDigits (radixOfFlags ⟨true, false⟩).toNat ds.reverse = (val (ofInt (-255))).natAbs ∧
      ds.head? ≠ some 0) ∧
    printOn (ofInt (-255)) ⟨true, false⟩ =
      .ok [Item.text "-", Item.digit 15, Item.digit 15, Item.text "BI"] ∧
    printOn (ofInt (-255)) ⟨false, true⟩ =
      .ok [Item.text "-", Item.digit 3, Item.digit 7, Item.digit 7, Item.text "BI"] ∧
    printOn (ofInt (-255)) ⟨false, false⟩ =
      .ok [Item.text "-", Item.digit 2, Item.digit 5, Item.digit 5, Item.text "BI"] ∧
    printOn (ofInt 0) ⟨false, false⟩ = .ok [Item.text "0BI"] :=
  ⟨⟨by decide, by decide, by decide⟩,
    (let ⟨ds, _, h2, _, h4, _, _, h7⟩ :=
      (C22_print_digits (ofInt (-255)) ⟨true, false⟩ (by decide) (by decide)).2.2 (by decide)
     ⟨ds, h2, h4, h7⟩),
    rfl, rfl, rfl, rfl⟩

/-- C23: increment and decrement.  For a canonical `a`, `++a` leaves and returns the canonical
BigInteger of value `val a + 1`; `a++` leaves the same BigInteger in `a` and returns the old
`a`; `--a` and `a--` do the same with `val a - 1`.  Decrementing zero gives `-1`, and
incrementing `-1` gives the zero with magnitude `[0]` and sign Positive. -/
theorem C23_increment_decrement (a : BigInteger) (ha : Canonical a) :
    (Canonical (preIncrement a) ∧ val (preIncrement a) = val a + 1) ∧
    ((postIncrement a).1 = preIncrement a ∧ val (postIncrement a).1 = val a + 1 ∧
      (postIncrement a).2 = a) ∧
    (Canonical (preDecrement a) ∧ val (preDecrement a) = val a - 1) ∧
    ((postDecrement a).1 = preDecrement a ∧ val (postDecrement a).1 = val a - 1 ∧
      (postDecrement a).2 = a) ∧
    (val a = 0 → preDecrement a = ⟨[1], Negative⟩ ∧ (postDecrement a).1 = ⟨[1], Negative⟩) ∧
    (val a = -1 → preIncrement a = ⟨[0], Positive⟩ ∧ (postIncrement a).1 = ⟨[0], Positive⟩) := by
  have hinc := plusEquals_spec a bigOne ha canonical_bigOne
  have hdec := plusEquals_spec a minusOne ha (by decide)
  have v1 : val bigOne = 1 := by decide
  rw [v1] at hinc
  rw [val_minusOne] at hdec
  have cm : Canonical (⟨[1], Negative⟩ : BigInteger) := by decide
  have cz : Canonical (⟨[0], Positive⟩ : BigInteger) := by decide
  have vm : val (⟨[1], Negative⟩ : BigInteger) = -1 := by decide
  have vz : val (⟨[0], Positive⟩ : BigInteger) = 0 := by decide
  have edec : val a = 0 → plusEquals a minusOne = ⟨[1], Negative⟩ := fun h =>
    canonical_inj hdec.1 cm (by rw [hdec.2, vm, h]; rfl)
  have einc : val a = -1 → plusEquals a bigOne = ⟨[0], Positive⟩ := fun h =>
    canonical_inj hinc.1 cz (by rw [hinc.2, vz, h]; rfl)
  exact ⟨hinc, ⟨rfl, hinc.2, rfl⟩, ⟨hdec.1, hdec.2⟩, ⟨rfl, hdec.2, rfl⟩,
    fun h => ⟨edec h, edec h⟩, fun h => ⟨einc h, einc h⟩⟩

/-- Witness of C23 at `a = -1`, with the four operators evaluated at `0` and at `-1`. -/
theorem C23_increment_decrement_witness :
    Canonical (ofInt (-1)) ∧ val (preIncrement (ofInt (-1))) = val (ofInt (-1)) + 1 ∧
    preIncrement (ofInt (-1)) = ⟨[0], Positive⟩ ∧
    postIncrement (ofInt (-1)) = (⟨[0], Positive⟩, ⟨[1], Negative⟩) ∧
    preDecrement (ofInt 0) = ofInt (-1) ∧
    postDecrement (ofInt 0) = (ofInt (-1), ofInt 0) ∧
    preIncrement (ofInt 0) = ofInt 1 ∧ preDecrement (ofInt (-1)) = ofInt (-2) :=
  ⟨by decide, (C23_increment_decrement (ofInt (-1)) (by decide)).1.2, by decide, by decide,
    by decide, by decide, by decide, by decide⟩

/-- C24: the sign of a bitwise result comes from the left operand only.  For canonical `a`
and `b`, a non-zero `a & b` or `a | b` has the sign of `a` and a zero one is Positive;
replacing the sign of `b` by any sign leaves both results unchanged.  With equal signs
`a | b == b | a` and `a & b == b & a` hold.  With different signs `a | b == b | a` is false,
and `a & b == b & a` is false whenever `a & b` is not zero; for instance `1 | -2` is `+3`
while `-2 | 1` is `-3`. -/
theorem C24_bitwise_sign (a b : BigInteger) (ha : Canonical a) (hb : Canonical b) :
    ((val (opAnd a b) ≠ 0 → (opAnd a b).sign = a.sign) ∧
      (val (opAnd a b) = 0 → (opAnd a b).sign = Positive)) ∧
    ((val (opOr a b) ≠ 0 → (opOr a b).sign = a.sign) ∧
      (val (opOr a b) = 0 → (opOr a b).sign = Positive)) ∧
    (∀ s : Sign, opAnd a ⟨b.magnitude, s⟩ = opAnd a b ∧ opOr a ⟨b.magnitude, s⟩ = opOr a b) ∧
    (a.sign = b.sign →
      opEq (opOr a b) (opOr b a) = true ∧ opEq (opAnd a b) (opAnd b a) = true) ∧
    (a.sign ≠ b.sign → opEq (opOr a b) (opOr b a) = false ∧
      (val (opAnd a b) ≠ 0 → opEq (opAnd a b) (opAnd b a) = false)) ∧
    (opOr (ofInt 1) (ofInt (-2)) = ofInt 3 ∧ opOr (ofInt (-2)) (ofInt 1) = ofInt (-3) ∧
      opEq (opOr (ofInt 1) (ofInt (-2))) (opOr (ofInt (-2)) (ofInt 1)) = false) := by
  obtain ⟨ca, _, sa⟩ := opAnd_spec a b ha hb
  obtain ⟨co, _, so⟩ := opOr_spec a b ha hb
  obtain ⟨ca2, _, sa2⟩ := opAnd_spec b a hb ha
  obtain ⟨co2, _, so2⟩ := opOr_spec b a hb ha
  have va := val_opAnd a b ha hb
  have vo := val_opOr a b ha hb
  have va2 := val_opAnd b a hb ha
  have vo2 := val_opOr b a hb ha
  refine ⟨⟨fun h => sa (fun hm => h ((val_eq_zero_iff ca).mpr hm)), sign_of_zero_val ca⟩,
    ⟨fun h => so (fun hm => h ((val_eq_zero_iff co).mpr hm)), sign_of_zero_val co⟩,
    fun s => ⟨rfl, rfl⟩, fun hs => ?_, fun hs => ⟨?_, fun hnz => ?_⟩, by decide⟩
  · constructor
    · rw [opEq_iff]
      exact canonical_inj co co2 (by rw [vo, vo2, hs, Nat.lor_comm])
    · rw [opEq_iff]
      exact canonical_inj ca ca2 (by rw [va, va2, hs, Nat.land_comm])
  · by_cases hz : val (opOr a b) = 0
    · exfalso
      rw [vo] at hz
      have h0 : limbsVal a.magnitude ||| limbsVal b.magnitude = 0 := by
        have := applySign_inj (hz.trans (applySign_zero a.sign).symm)
        exact this
      obtain ⟨ea, eb⟩ := lor_eq_zero h0
      have h1 := ha.2.2 ((canonical_limbsVal_eq_zero ha).mp ea)
      have h2 := hb.2.2 ((canonical_limbsVal_eq_zero hb).mp eb)
      exact hs (h1.trans h2.symm)
    · have hz2 : val (opOr b a) ≠ 0 := by
        rw [vo2, Nat.lor_comm]
        rw [vo] at hz
        intro h
        apply hz
        have := applySign_inj (h.trans (applySign_zero b.sign).symm)
        rw [this, applySign_zero]
      apply opEq_false_of_sign
      rw [so (fun hm => hz ((val_eq_zero_iff co).mpr hm)),
        so2 (fun hm => hz2 ((val_eq_zero_iff co2).mpr hm))]
      exact hs
  · have hz2 : val (opAnd b a) ≠ 0 := by
      rw [va2, Nat.land_comm]
      rw [va] at hnz
      intro h
      apply hnz
      have := applySign_inj (h.trans (applySign_zero b.sign).symm)
      rw [this, applySign_zero]
    apply opEq_false_of_sign
    rw [sa (fun hm => hnz ((val_eq_zero_iff ca).mpr hm)),
      sa2 (fun hm => hz2 ((val_eq_zero_iff ca2).mpr hm))]
    exact hs

/-- Witness of C24 at `a = 3`, `b = -1`: `3 & -1` is `+1` while `-1 & 3` is `-1`. -/
theorem C24_bitwise_sign_witness :
    Canonical (ofInt 3) ∧ Canonical (ofInt (-1)) ∧ (ofInt 3).sign ≠ (ofInt (-1)).sign ∧
    val (opAnd (ofInt 3) (ofInt (-1))) ≠ 0 ∧
    opEq (opAnd (ofInt 3) (ofInt (-1))) (opAnd (ofInt (-1)) (ofInt 3)) = false ∧
    opAnd (ofInt 3) (ofInt (-1)) = ofInt 1 ∧ opAnd (ofInt (-1)) (ofInt 3) = ofInt (-1) ∧
    opEq (opOr (ofInt (-6)) (ofInt (-3))) (opOr (ofInt (-3)) (ofInt (-6))) = true :=
  ⟨by decide, by decide, by decide, by decide,
    ((C24_bitwise_sign (ofInt 3) (ofInt (-1)) (by decide) (by decide)).2.2.2.2.1
      (by decide)).2 (by decide),
    by decide, by decide, by decide⟩

end BigInt
